import Mathlib

/-!
Verification development for the JHP (JavaScript Hypertext Preprocessor) engine
(`jhp.js`, version 3.0.0) and its companion `simple-html-parser.js`.

The JavaScript sources are shallowly embedded: buffers (JS arrays of strings)
become `List String`, JS strings become `String` or `List Char`, JS `Map`s
become insertion-ordered association lists, and the mutable per-document state
becomes explicit state records threaded through the operations.  Each
definition mirrors one JS function; the doc comment names it.
-/

namespace Spec2Proof

/-! ## JavaScript string primitives

Small models of the JavaScript string/array operations the engine uses.
-/

/-- Whitespace for the purposes of JavaScript `String.prototype.trim`
(restricted to the ASCII whitespace characters that can occur in the
engine's buffers). -/
def jsWs (c : Char) : Bool :=
  c = ' ' || c = '\t' || c = '\n' || c = '\r' || c = '\x0b' || c = '\x0c'

/-- JavaScript `String.prototype.trim`: drop leading and trailing whitespace. -/
def jsTrim (s : String) : String :=
  String.mk (((s.toList.dropWhile jsWs).reverse.dropWhile jsWs).reverse)

/-- JavaScript `String.prototype.startsWith(prefix)`, stated over the
character lists so that it evaluates in the kernel. -/
def jsStartsWith (s pre : String) : Bool :=
  pre.toList.isPrefixOf s.toList

/-- JavaScript `Array.prototype.join(sep)` on an array of strings. -/
def jsJoin (sep : String) : List String → String
  | [] => ""
  | [x] => x
  | x :: xs => x ++ sep ++ jsJoin sep xs

/-! ## C1: the conditional state machine of `#processTemplate`

`jhp.js` lines 779-851.  The three mutable booleans `addBlockContentToBuffer`,
`blockHasBeenShown` and `conditionalBlockOpen` become a state record; the
closure `conditionalScope.block(result)` becomes `condBlock`.
-/

/-- The conditional state triple captured by the closures in
`#processTemplate`: `addBlockContentToBuffer` (show-current),
`blockHasBeenShown` (any-matched), `conditionalBlockOpen` (block-open). -/
structure CondState where
  addBlockContentToBuffer : Bool
  blockHasBeenShown : Bool
  conditionalBlockOpen : Bool
deriving DecidableEq

/-- Argument of `conditionalScope.block`: either the string sentinel
`__END__` (passed by `$.end`) or a truthiness value. -/
inductive CondResult where
  | endMarker
  | val (result : Bool)
deriving DecidableEq

/-- `conditionalScope.block(result)` from `#processTemplate`. -/
def condBlock (s : CondState) (r : CondResult) : CondState :=
  match r with
  | .endMarker => ⟨true, false, false⟩
  | .val result =>
    if s.blockHasBeenShown then { s with addBlockContentToBuffer := false }
    else if result = false then { s with addBlockContentToBuffer := false }
    else ⟨true, true, true⟩

/-- `conditionalScope.show()`. -/
def condShow (s : CondState) : Bool :=
  s.addBlockContentToBuffer

/-- The conditional directive a script block issues through the `$` object:
`$.if(result)`, `$.elseif(result)`, `$.else()`, `$.end()`. -/
inductive Directive where
  | dIf (b : Bool)
  | dElseif (b : Bool)
  | dElse
  | dEnd
deriving DecidableEq

/-- Effect of one directive on the machine, per the `$` object's `if`,
`elseif`, `else` (which calls `block(true)`) and `end` (which calls
`block('__END__')`). -/
def applyDirective (s : CondState) : Directive → CondState
  | .dIf b => condBlock s (.val b)
  | .dElseif b => condBlock s (.val b)
  | .dElse => condBlock s (.val true)
  | .dEnd => condBlock s .endMarker

/-- The region-interleaving loop of `#processTemplate`, at the level of the
conditional machine: each script block is preceded by a markup region that is
pushed to the buffer only when `addBlockContentToBuffer` holds; after the
last block the unclosed-conditional check runs and the trailing markup is
pushed unconditionally.  Returns the pushed segments and the final machine
state. -/
def processTemplateRun
    (s : CondState) (blocks : List (String × Directive)) (tailMarkup : String) :
    List String × CondState :=
  match blocks with
  | [] =>
    ((if s.conditionalBlockOpen then
        ["<< Error: Unclosed conditional block detected. >>"] else [])
      ++ [tailMarkup], s)
  | (markup, d) :: rest =>
    let out1 := if s.addBlockContentToBuffer then [markup] else []
    let (outRest, s') := processTemplateRun (applyDirective s d) rest tailMarkup
    (out1 ++ outRest, s')

/-- The block/region chain `…; elseif(b1); r1; …; else(); rElse; end();`
that follows the opening `if`: `prev` is the markup region immediately
before the next directive. -/
def condChain (prev : String) (branches : List (Bool × String))
    (elseRegion : String) : List (String × Directive) :=
  match branches with
  | [] => [(prev, .dElse), (elseRegion, .dEnd)]
  | (b, r) :: rest => (prev, .dElseif b) :: condChain r rest elseRegion

/-- The region selected by the claim's reading: the region after the first
truthy `elseif`, or the `else` region when none is truthy. -/
def firstTruthy (branches : List (Bool × String)) (elseRegion : String) : String :=
  match branches with
  | [] => elseRegion
  | (b, r) :: rest => if b then r else firstTruthy rest elseRegion

/-- Region selected by a full `if/elseif*/else` chain. -/
def selectRegion (a : Bool) (r0 : String) (branches : List (Bool × String))
    (elseRegion : String) : String :=
  if a then r0 else firstTruthy branches elseRegion

/-! ## C2: the output buffer and `obClose`

`jhp.js` lines 117-137.  `#htmlOutputBuffer` is `{ open, value }` with
`value` a JS array of strings.
-/

/-- The `#htmlOutputBuffer` object. -/
structure HtmlOutputBuffer where
  isOpen : Bool
  value : List String
deriving DecidableEq

/-- `$.obClose()`: set `open = false` and return `value.join().trim()`.
Note the source calls `join()` with no argument, whose JavaScript default
separator is `","`. -/
def obClose (b : HtmlOutputBuffer) : String × HtmlOutputBuffer :=
  (jsTrim (jsJoin "," b.value), { b with isOpen := false })

/-- `$.obOpen()`: reset `value` to an empty array and set `open = true`. -/
def obOpen (_b : HtmlOutputBuffer) : HtmlOutputBuffer :=
  { isOpen := true, value := [] }

/-- `$.obStatus()`. -/
def obStatus (b : HtmlOutputBuffer) : Bool :=
  b.isOpen

/-! ## C6 / C10: the `$` runtime object over the per-document state

`jhp.js` lines 33-137 and 350-387.  JS `Map`s become insertion-ordered
association lists; values are opaque (`α` with decidable equality, modelling
`===` on the primitive host values the claims quantify over).
-/

/-- `Map.prototype.has`. -/
def mapHas {α : Type} (m : List (String × α)) (k : String) : Bool :=
  m.any (fun p => p.1 = k)

/-- `Map.prototype.get` (`none` plays `undefined`). -/
def mapGet {α : Type} (m : List (String × α)) (k : String) : Option α :=
  (m.find? (fun p => p.1 = k)).map Prod.snd

/-- `Map.prototype.set`: update in place, preserving insertion order, or
append. -/
def mapSet {α : Type} (m : List (String × α)) (k : String) (v : α) :
    List (String × α) :=
  match m with
  | [] => [(k, v)]
  | (k', v') :: t => if k' = k then (k, v) :: t else (k', v') :: mapSet t k v

/-- The per-document mutable state of `JSHypertextPreprocessor` that the `$`
methods close over: `#constants`, `#currentContext`, `#htmlOutputBuffer`,
`#currentBuffer`, `#cwd`. -/
structure DocState (α : Type) where
  constants : List (String × α)
  currentContext : List (String × α)
  htmlOutputBuffer : HtmlOutputBuffer
  currentBuffer : List String
  cwd : String

/-- The push-to-the-active-buffer step used throughout the `$` methods:
`if (htmlOutputBuffer.open) htmlOutputBuffer.value.push(s) else
currentBuffer.push(s)`. -/
def pushOut {α : Type} (st : DocState α) (s : String) : DocState α :=
  if st.htmlOutputBuffer.isOpen then
    { st with htmlOutputBuffer :=
        { st.htmlOutputBuffer with value := st.htmlOutputBuffer.value ++ [s] } }
  else
    { st with currentBuffer := st.currentBuffer ++ [s] }

/-- `$.define(key, value)` (`jhp.js` lines 56-86). -/
def define {α : Type} [DecidableEq α] (st : DocState α) (key : String)
    (value : α) : DocState α :=
  if mapHas st.currentContext key then
    pushOut st ("<< Error: Variable \x27" ++ key
      ++ "\x27 already declared, unable to declare as constant. >>")
  else if !(mapHas st.constants key) then
    { st with constants := mapSet st.constants key value }
  else if mapGet st.constants key = some value then
    st
  else
    pushOut st ("<< Error: Attempted to redeclare defined constant \x27"
      ++ key ++ "\x27. >>")

/-- `$.echo(content, conditionalScope)` (`jhp.js` lines 87-101): the early
return fires only when a scope was actually passed
(`conditionalScope !== undefined`) and its `show()` is false. -/
def echo {α : Type} (st : DocState α) (content : String)
    (scope : Option CondState) : DocState α :=
  match scope with
  | some sc => if condShow sc = false then st else pushOut st content
  | none => pushOut st content

/-- The body of `#include` after the conditional gate (`jhp.js` lines
359-387).  File-system access and recursive processing are external
collaborators, passed as `resolvePathFn`, `dirname` and `processFileFn`.
`resolvePathFn` returning `none` covers the source's
`!resolvedPath || resolvedPath === ''` failure check. -/
def includeResolved {α : Type}
    (resolvePathFn : String → String → Option String)
    (dirname : String → String)
    (processFileFn : String → DocState α → DocState α)
    (st : DocState α) (file : String) (assignMode : Bool) :
    Option String × DocState α :=
  match resolvePathFn file st.cwd with
  | none =>
    let includeError :=
      "<< Error: Unable to resolve include path \x27" ++ file ++ "\x27 >>"
    (some includeError, echo st includeError none)
  | some resolvedPath =>
    let previousCwd := st.cwd
    let st1 := { st with cwd := dirname resolvedPath }
    if assignMode then
      let prevBuffer := st1.currentBuffer
      let st2 := processFileFn resolvedPath { st1 with currentBuffer := [] }
      (some (jsJoin "" st2.currentBuffer),
        { st2 with currentBuffer := prevBuffer, cwd := previousCwd })
    else
      let st2 := processFileFn resolvedPath st1
      (none, { st2 with cwd := previousCwd })

/-- `#include(file, conditionalScope, assignMode)` (`jhp.js` lines 350-387):
the gate fires only when a scope was passed and its `show()` is false;
otherwise the include proceeds. -/
def includeFile {α : Type}
    (resolvePathFn : String → String → Option String)
    (dirname : String → String)
    (processFileFn : String → DocState α → DocState α)
    (st : DocState α) (file : String) (scope : Option CondState)
    (assignMode : Bool) : Option String × DocState α :=
  match scope with
  | some sc =>
    if condShow sc = false then (none, st)
    else includeResolved resolvePathFn dirname processFileFn st file assignMode
  | none => includeResolved resolvePathFn dirname processFileFn st file assignMode

/-! ## C7: `#resolvePath`

`jhp.js` lines 946-979.  `Fs.existsSync`, `Path.isAbsolute` and
`Path.resolve` are external collaborators, passed as functions.
-/

/-- `#resolvePath(file, currentDir)`, mirroring the source's early-return
chain. -/
def resolvePath (existsFn : String → Bool) (isAbsolute : String → Bool)
    (pathResolve : String → String → String)
    (rootDir : String) (file : String) (currentDir : String) : Option String :=
  if jsStartsWith file "/" then
    let relativeToRoot := file.drop 1
    let resolvedPath := pathResolve rootDir relativeToRoot
    if existsFn resolvedPath then some resolvedPath else none
  else if isAbsolute file then
    if existsFn file then some file else none
  else
    let resolvedPath := pathResolve currentDir file
    if existsFn resolvedPath then some resolvedPath
    else if rootDir != currentDir then
      let resolvedPath2 := pathResolve rootDir file
      if existsFn resolvedPath2 then some resolvedPath2 else none
    else none

/-- First-match-wins evaluation of a guarded rule list (spec side of C7). -/
def firstMatch : List (Bool × Option String) → Option String
  | [] => none
  | (g, r) :: rest => if g then r else firstMatch rest

/-- The claim's resolution rules, written as the spec states them: each rule
is a guard plus the result produced when that rule is the first to match. -/
def resolvePathRules (existsFn : String → Bool) (isAbsolute : String → Bool)
    (pathResolve : String → String → String)
    (rootDir : String) (file : String) (currentDir : String) :
    List (Bool × Option String) :=
  [ (jsStartsWith file "/",
      if existsFn (pathResolve rootDir (file.drop 1)) then
        some (pathResolve rootDir (file.drop 1)) else none),
    (isAbsolute file, if existsFn file then some file else none),
    (existsFn (pathResolve currentDir file), some (pathResolve currentDir file)),
    (rootDir != currentDir && existsFn (pathResolve rootDir file),
      some (pathResolve rootDir file)) ]

/-! ## C3 / C8: the AST walk of `#walkAndReplaceScriptParts`

`jhp.js` lines 1042-1147.  The permissive parser (acorn-loose) is an external
collaborator; its output is embedded as the `Ast` type below, whose
constructors carry the ESTree fields the walk reads, plus the source offsets
`start`/`stop` (acorn's `start`/`end`).  Comment ranges, reported by the
parser's `onComment` callback before the walk runs, are passed as a list.
-/

/-- `VariableDeclaration.kind`. -/
inductive DeclKind where
  | kconst
  | klet
  | kvar
deriving DecidableEq

/-- The keyword text of a declaration kind (for `node.kind.length`). -/
def DeclKind.text : DeclKind → String
  | .kconst => "const"
  | .klet => "let"
  | .kvar => "var"

/-- The ESTree node shapes read by the walk.  `varDeclarator` has an `ini`
field (ESTree `init`); `assignExpr` has `left`/`right` and — as in the source
AST — no `init` field at all. -/
inductive Ast where
  | program (body : List Ast) (start stop : Nat)
  | exprStmt (e : Ast) (start stop : Nat)
  | varDecl (kind : DeclKind) (decls : List Ast) (start stop : Nat)
  | varDeclarator (declId : Option Ast) (ini : Option Ast) (start stop : Nat)
  | assignExpr (left : Ast) (right : Ast) (start stop : Nat)
  | callExpr (callee : Ast) (args : List Ast) (start stop : Nat)
  | memberExpr (obj : Ast) (prop : Ast) (start stop : Nat)
  | ident (name : String) (start stop : Nat)
  | lit (raw : String) (start stop : Nat)
  | funcDecl (fnId : Option Ast) (params : List Ast) (body : Ast) (start stop : Nat)
  | blockStmt (body : List Ast) (start stop : Nat)
  | returnStmt (arg : Option Ast) (start stop : Nat)
  | arrayExpr (elems : List Ast) (start stop : Nat)
  | objectExpr (props : List Ast) (start stop : Nat)
  | property (key : Ast) (value : Ast) (start stop : Nat)

/-- `node.end`. -/
def Ast.astEnd : Ast → Nat
  | .program _ _ e => e
  | .exprStmt _ _ e => e
  | .varDecl _ _ _ e => e
  | .varDeclarator _ _ _ e => e
  | .assignExpr _ _ _ e => e
  | .callExpr _ _ _ e => e
  | .memberExpr _ _ _ e => e
  | .ident _ _ e => e
  | .lit _ _ e => e
  | .funcDecl _ _ _ _ e => e
  | .blockStmt _ _ e => e
  | .returnStmt _ _ e => e
  | .arrayExpr _ _ e => e
  | .objectExpr _ _ e => e
  | .property _ _ _ e => e

/-- `node.init` as the walk reads it: present only on `VariableDeclarator`
nodes.  On an `AssignmentExpression` the JS property access `node.init`
yields `undefined` (the node has `left`/`right` instead), so this returns
`none` there. -/
def Ast.initField : Ast → Option Ast
  | .varDeclarator _ ini _ _ => ini
  | _ => none

/-- The walk's test
`init.type === 'CallExpression' && init.callee?.type === 'MemberExpression'
&& init.callee.object?.name === '$' && init.callee.property?.name === 'include'`. -/
def Ast.isIncludeCall : Ast → Bool
  | .callExpr (.memberExpr (.ident o _ _) (.ident p _ _) _ _) _ _ _ =>
    o = "$" && p = "include"
  | _ => false

/-- Position of a node relative to its parent, carrying exactly the parent
facts the walk tests: `parent === null`, `parent.type === 'ArrayExpression'`,
`parent.type === 'MemberExpression' && parent.property === node`,
`parent.type === 'Property' && parent.key === node`. -/
inductive PCtx where
  | top
  | arrayElem
  | memberProp
  | propKey
  | other
deriving DecidableEq

/-- The walk's mutable state: `declaredVars`, `usedVars` (insertion-ordered
sets) and the `transformations` array of `[start, end, replacement]`. -/
structure WalkSt where
  declaredVars : List String
  usedVars : List String
  transformations : List (Nat × Nat × String)
deriving DecidableEq

/-- `Set.prototype.add`: append if not already present. -/
def setAdd (l : List String) (x : String) : List String :=
  if x ∈ l then l else l ++ [x]

/-- Walk step: `let`/`const`-to-`var` transformation for a
`VariableDeclaration` node. -/
def walkStepKind (node : Ast) (st : WalkSt) : WalkSt :=
  match node with
  | .varDecl .kvar _ _ _ => st
  | .varDecl k _ s _ =>
    { st with transformations :=
        st.transformations ++ [(s, s + k.text.length, "var")] }
  | _ => st

/-- Walk step: capture-mode rewriting of `$.include` calls.  The test is
`(node.type === 'VariableDeclarator' || node.type === 'AssignmentExpression')
&& node.init?.type === 'CallExpression' && …`; `Ast.initField` is `none` on
assignment nodes, whose AST field is `right`, not `init`. -/
def walkStepInclude (node : Ast) (st : WalkSt) : WalkSt :=
  match node with
  | .varDeclarator _ _ _ _ | .assignExpr _ _ _ _ =>
    match node.initField with
    | some ini =>
      if ini.isIncludeCall then
        { st with transformations :=
            st.transformations ++ [(ini.astEnd - 1, ini.astEnd - 1, ", true")] }
      else st
    | none => st
  | _ => st

/-- Walk step: record a declarator's identifier `id` as declared. -/
def walkStepDeclared (node : Ast) (st : WalkSt) : WalkSt :=
  match node with
  | .varDeclarator (some (.ident n _ _)) _ _ _ =>
    { st with declaredVars := setAdd st.declaredVars n }
  | _ => st

/-- Walk step: record an identifier as used, unless it is the root node, the
name `undefined`, a member expression's property, or a property key. -/
def walkStepUsed (ctx : PCtx) (node : Ast) (st : WalkSt) : WalkSt :=
  match node with
  | .ident n _ _ =>
    match ctx with
    | .top => st
    | .memberProp => st
    | .propKey => st
    | _ => if n = "undefined" then st else { st with usedVars := setAdd st.usedVars n }
  | _ => st

/-- The four walk steps in source order (the node-level work `walk` does
before recursing into children). -/
def walkSteps (ctx : PCtx) (node : Ast) (st : WalkSt) : WalkSt :=
  walkStepUsed ctx node
    (walkStepDeclared node (walkStepInclude node (walkStepKind node st)))

mutual

/-- The recursive `walk(node, parent)` of `#walkAndReplaceScriptParts`:
children of array literals are skipped wholesale; otherwise the four walk
steps run and then the generic `for key in node` child recursion follows, in
the source AST's field order, with the parent context each child sees. -/
def walkAst (ctx : PCtx) (node : Ast) (st : WalkSt) : WalkSt :=
  match ctx with
  | .arrayElem => st
  | _ =>
    match node with
    | .program body s e => walkList .other body (walkSteps ctx (.program body s e) st)
    | .exprStmt x s e => walkAst .other x (walkSteps ctx (.exprStmt x s e) st)
    | .varDecl k ds s e => walkList .other ds (walkSteps ctx (.varDecl k ds s e) st)
    | .varDeclarator declId ini s e =>
      walkOpt .other ini (walkOpt .other declId (walkSteps ctx (.varDeclarator declId ini s e) st))
    | .assignExpr l r s e =>
      walkAst .other r (walkAst .other l (walkSteps ctx (.assignExpr l r s e) st))
    | .callExpr c args s e =>
      walkList .other args (walkAst .other c (walkSteps ctx (.callExpr c args s e) st))
    | .memberExpr o p s e =>
      walkAst .memberProp p (walkAst .other o (walkSteps ctx (.memberExpr o p s e) st))
    | .ident n s e => walkSteps ctx (.ident n s e) st
    | .lit v s e => walkSteps ctx (.lit v s e) st
    | .funcDecl fnId params body s e =>
      walkAst .other body
        (walkList .other params
          (walkOpt .other fnId (walkSteps ctx (.funcDecl fnId params body s e) st)))
    | .blockStmt body s e => walkList .other body (walkSteps ctx (.blockStmt body s e) st)
    | .returnStmt arg s e => walkOpt .other arg (walkSteps ctx (.returnStmt arg s e) st)
    | .arrayExpr elems s e => walkList .arrayElem elems (walkSteps ctx (.arrayExpr elems s e) st)
    | .objectExpr props s e => walkList .other props (walkSteps ctx (.objectExpr props s e) st)
    | .property k v s e =>
      walkAst .other v (walkAst .propKey k (walkSteps ctx (.property k v s e) st))
termination_by structural node

/-- `forEach` over an AST array field. -/
def walkList (ctx : PCtx) (ns : List Ast) (st : WalkSt) : WalkSt :=
  match ns with
  | [] => st
  | n :: t => walkList ctx t (walkAst ctx n st)
termination_by structural ns

/-- Walk of an optional AST field (absent fields are skipped by the
`child && typeof child === 'object'` guard). -/
def walkOpt (ctx : PCtx) (n : Option Ast) (st : WalkSt) : WalkSt :=
  match n with
  | none => st
  | some x => walkAst ctx x st
termination_by structural n

end

/-- `#builtInGlobals` (`jhp.js` lines 23-28). -/
def builtInGlobals : List String :=
  ["Array", "Boolean", "console", "Date", "Error", "Function", "Infinity",
   "JSON", "Math", "NaN", "Number", "Object", "Promise", "RegExp", "String",
   "Symbol", "undefined", "BigInt", "Set", "Map", "WeakMap", "WeakSet",
   "parseInt", "parseFloat", "isNaN", "isFinite", "Intl", "eval", "globalThis"]

/-- The post-walk steps of `#walkAndReplaceScriptParts` producing the names
that receive a prepended sentinel declaration: `$`-prefixed used names are
added to `declaredVars`, then `usedVars` is filtered against `declaredVars`,
`#builtInGlobals`, `#currentContext` and finally `#constants`. -/
def stubbedNames (contextNames constantNames : List String) (ast : Ast) :
    List String :=
  let st := walkAst .top ast ⟨[], [], []⟩
  let declared :=
    (st.usedVars.filter (fun n => jsStartsWith n "$")).foldl setAdd st.declaredVars
  (st.usedVars.filter (fun n =>
      !(declared.contains n) && !(builtInGlobals.contains n)
        && !(contextNames.contains n))).filter
    (fun n => !(constantNames.contains n))

/-- The full transformation list produced by `#walkAndReplaceScriptParts`:
comment-range deletions (pushed by the parser's `onComment` callback, in
parse order, before the walk), then the walk's transformations, then one
prepended sentinel declaration per undefined name. -/
def walkAndReplaceParts (contextNames constantNames : List String) (ast : Ast)
    (comments : List (Nat × Nat)) : List (Nat × Nat × String) :=
  let st := walkAst .top ast ⟨[], [], comments.map (fun p => (p.1, p.2, ""))⟩
  st.transformations
    ++ (stubbedNames contextNames constantNames ast).map
      (fun n => (0, 0, "var " ++ n ++ " = \x60<< Undefined: " ++ n ++ " >>\x60;\n"))

/-- Insert into a start-descending list, after existing entries with an equal
or larger start (so the overall sort is stable, as JavaScript's
`Array.prototype.sort` is). -/
def sortInsertDesc (t : Nat × Nat × String) :
    List (Nat × Nat × String) → List (Nat × Nat × String)
  | [] => [t]
  | u :: rest => if t.1 ≤ u.1 then u :: sortInsertDesc t rest else t :: u :: rest

/-- `transformations.sort((a, b) => b[0] - a[0])`: stable descending sort by
start offset. -/
def sortTransformsDesc (ts : List (Nat × Nat × String)) :
    List (Nat × Nat × String) :=
  ts.foldl (fun acc t => sortInsertDesc t acc) []

/-- The `reduce` applying the sorted transformations by splicing:
`code.slice(0, start) + replacement + code.slice(end)`. -/
def applyTransformations (code : List Char) (ts : List (Nat × Nat × String)) :
    List Char :=
  (sortTransformsDesc ts).foldl
    (fun c t => c.take t.1 ++ t.2.2.toList ++ c.drop t.2.1) code

/-- `#walkAndReplaceScriptParts` end to end on a code string whose parse is
the given `ast` with the given comment ranges (parse failure, which returns
the code unchanged, is outside this model). -/
def walkAndReplaceScriptParts (contextNames constantNames : List String)
    (code : List Char) (ast : Ast) (comments : List (Nat × Nat)) : List Char :=
  applyTransformations code (walkAndReplaceParts contextNames constantNames ast comments)

/-- Used-identifier contribution of the node itself (specification side of
`walkStepUsed`). -/
def usedSelf (ctx : PCtx) (node : Ast) : List String :=
  match node with
  | .ident n _ _ =>
    match ctx with
    | .top => []
    | .memberProp => []
    | .propKey => []
    | _ => if n = "undefined" then [] else [n]
  | _ => []

/-- Declared-identifier contribution of the node itself (specification side
of `walkStepDeclared`). -/
def declaredSelf (node : Ast) : List String :=
  match node with
  | .varDeclarator (some (.ident n _ _)) _ _ _ => [n]
  | _ => []

mutual

/-- Specification-side collector: the identifier occurrences the walk counts
as *used*, as a plain concatenation (no state threading, duplicates kept). -/
def usedIdents (ctx : PCtx) (node : Ast) : List String :=
  match ctx with
  | .arrayElem => []
  | _ =>
    usedSelf ctx node ++
      (match node with
       | .program body _ _ => usedIdentsList .other body
       | .exprStmt e _ _ => usedIdents .other e
       | .varDecl _ ds _ _ => usedIdentsList .other ds
       | .varDeclarator declId ini _ _ =>
         usedIdentsOpt .other declId ++ usedIdentsOpt .other ini
       | .assignExpr l r _ _ => usedIdents .other l ++ usedIdents .other r
       | .callExpr c args _ _ => usedIdents .other c ++ usedIdentsList .other args
       | .memberExpr o p _ _ => usedIdents .other o ++ usedIdents .memberProp p
       | .ident _ _ _ => []
       | .lit _ _ _ => []
       | .funcDecl fnId params body _ _ =>
         usedIdentsOpt .other fnId ++ usedIdentsList .other params
           ++ usedIdents .other body
       | .blockStmt body _ _ => usedIdentsList .other body
       | .returnStmt arg _ _ => usedIdentsOpt .other arg
       | .arrayExpr elems _ _ => usedIdentsList .arrayElem elems
       | .objectExpr props _ _ => usedIdentsList .other props
       | .property k v _ _ => usedIdents .propKey k ++ usedIdents .other v)
termination_by structural node

/-- Used-identifier occurrences of an AST list. -/
def usedIdentsList (ctx : PCtx) (ns : List Ast) : List String :=
  match ns with
  | [] => []
  | n :: t => usedIdents ctx n ++ usedIdentsList ctx t
termination_by structural ns

/-- Used-identifier occurrences of an optional AST field. -/
def usedIdentsOpt (ctx : PCtx) (n : Option Ast) : List String :=
  match n with
  | none => []
  | some x => usedIdents ctx x
termination_by structural n

end

mutual

/-- Specification-side collector: the declarator ids the walk counts as
*declared* (identifier `id`s of `VariableDeclarator` nodes outside array
literals). -/
def declaredIdents (ctx : PCtx) (node : Ast) : List String :=
  match ctx with
  | .arrayElem => []
  | _ =>
    declaredSelf node ++
      (match node with
       | .program body _ _ => declaredIdentsList .other body
       | .exprStmt e _ _ => declaredIdents .other e
       | .varDecl _ ds _ _ => declaredIdentsList .other ds
       | .varDeclarator declId ini _ _ =>
         declaredIdentsOpt .other declId ++ declaredIdentsOpt .other ini
       | .assignExpr l r _ _ => declaredIdents .other l ++ declaredIdents .other r
       | .callExpr c args _ _ =>
         declaredIdents .other c ++ declaredIdentsList .other args
       | .memberExpr o p _ _ =>
         declaredIdents .other o ++ declaredIdents .memberProp p
       | .ident _ _ _ => []
       | .lit _ _ _ => []
       | .funcDecl fnId params body _ _ =>
         declaredIdentsOpt .other fnId ++ declaredIdentsList .other params
           ++ declaredIdents .other body
       | .blockStmt body _ _ => declaredIdentsList .other body
       | .returnStmt arg _ _ => declaredIdentsOpt .other arg
       | .arrayExpr elems _ _ => declaredIdentsList .arrayElem elems
       | .objectExpr props _ _ => declaredIdentsList .other props
       | .property k v _ _ => declaredIdents .propKey k ++ declaredIdents .other v)
termination_by structural node

/-- Declared ids of an AST list. -/
def declaredIdentsList (ctx : PCtx) (ns : List Ast) : List String :=
  match ns with
  | [] => []
  | n :: t => declaredIdents ctx n ++ declaredIdentsList ctx t
termination_by structural ns

/-- Declared ids of an optional AST field. -/
def declaredIdentsOpt (ctx : PCtx) (n : Option Ast) : List String :=
  match n with
  | none => []
  | some x => declaredIdents ctx x
termination_by structural n

end

/-- AST of the assignment statement `p = $.include(\x27partial\x27);` as
acorn-loose yields it (offsets into that 25-character string). -/
def astIncludeAssign : Ast :=
  .program
    [.exprStmt
      (.assignExpr (.ident "p" 0 1)
        (.callExpr
          (.memberExpr (.ident "$" 4 5) (.ident "include" 6 13) 4 13)
          [.lit "\x27partial\x27" 14 23] 4 24)
        0 24)
      0 25]
    0 25

/-- AST of the declaration `let p = $.include(\x27partial\x27);` as
acorn-loose yields it (offsets into that 29-character string). -/
def astIncludeDecl : Ast :=
  .program
    [.varDecl .klet
      [.varDeclarator (some (.ident "p" 4 5))
        (some (.callExpr
          (.memberExpr (.ident "$" 8 9) (.ident "include" 10 17) 8 17)
          [.lit "\x27partial\x27" 18 27] 8 28))
        4 28]
      0 29]
    0 29

/-- AST of the rewritten block for `<s>$echo(missing);</s>` — after token
replacement and conditional-scope sugar the walk sees
`$.echo(missing, $.conditionalScope);`. -/
def astEchoMissing : Ast :=
  .program
    [.exprStmt
      (.callExpr
        (.memberExpr (.ident "$" 1 2) (.ident "echo" 3 7) 1 7)
        [.ident "missing" 8 15,
         .memberExpr (.ident "$" 17 18) (.ident "conditionalScope" 19 35) 17 35]
        1 36)
      1 37]
    0 37

/-- AST of `function f(x) \x7b return x; \x7d`: the function's name and its
parameter both appear as `Identifier` children of the `FunctionDeclaration`. -/
def astFnParam : Ast :=
  .program
    [.funcDecl (some (.ident "f" 9 10)) [.ident "x" 11 12]
      (.blockStmt [.returnStmt (some (.ident "x" 22 23)) 15 24] 13 26)
      0 26]
    0 26

/-- Parameter identifier names of a program's top-level function
declarations (used to state what C8 calls a function parameter). -/
def topLevelFnParamNames : Ast → List String
  | .program body _ _ =>
    body.foldl
      (fun acc s =>
        acc ++
          (match s with
           | .funcDecl _ params _ _ _ =>
             params.filterMap
               (fun p => match p with | .ident n _ _ => some n | _ => none)
           | _ => []))
      []
  | _ => []

/-! ## C4: the `Node` tree, `remove`, and the depth-first iterator

`simple-html-parser.js` lines 67-223 (`[Symbol.iterator]`) and 615-647
(`remove`).  The mutable object graph becomes a heap: a list of node records
indexed by node id, with parent/children links as ids.
-/

/-- Node types of `simple-html-parser.js`. -/
inductive NKind where
  | root
  | text
  | comment
  | tagOpen
  | tagClose
deriving DecidableEq

/-- One heap node (`Node` object): type, tag name, parent link, ordered
children. -/
structure HNode where
  ntype : NKind
  hname : String
  parent : Option Nat
  children : List Nat
deriving DecidableEq

/-- Heap lookup (a dangling id yields an inert text node; the scenarios only
use valid ids). -/
def getNode (h : List HNode) (i : Nat) : HNode :=
  h.getD i ⟨.text, "", none, []⟩

/-- Heap update. -/
def setNode (h : List HNode) (i : Nat) (x : HNode) : List HNode :=
  h.set i x

/-- `children.splice(start, count)` (deletion only). -/
def spliceOut (l : List Nat) (start count : Nat) : List Nat :=
  l.take start ++ l.drop (start + count)

/-- `Node.prototype.remove` (lines 615-647): removes the node from its
parent's children, removing an adjacent matching `tag-close`/`tag-open`
partner in the same operation, and nulls the receiver's parent pointer (only
the receiver's — a partner removed by the pair splice keeps its stale parent
pointer, as in the source). -/
def removeNode (h : List HNode) (i : Nat) : List HNode :=
  let nd := getNode h i
  match nd.parent with
  | none => h
  | some pid =>
    let p := getNode h pid
    match p.children.findIdx? (fun x => x = i) with
    | none => h
    | some idx =>
      if nd.ntype = .tagOpen ∧ idx + 1 < p.children.length ∧
          (getNode h (p.children.getD (idx + 1) 0)).ntype = .tagClose ∧
          (getNode h (p.children.getD (idx + 1) 0)).hname = nd.hname then
        setNode (setNode h pid { p with children := spliceOut p.children idx 2 })
          i { nd with parent := none }
      else if nd.ntype = .tagClose ∧ 0 < idx ∧
          (getNode h (p.children.getD (idx - 1) 0)).ntype = .tagOpen ∧
          (getNode h (p.children.getD (idx - 1) 0)).hname = nd.hname then
        setNode (setNode h pid { p with children := spliceOut p.children (idx - 1) 2 })
          i { nd with parent := none }
      else
        setNode (setNode h pid { p with children := spliceOut p.children idx 1 })
          i { nd with parent := none }

/-- The iterator closure's mutable state: `currentNode`, `started`,
`skipChildrenForCurrentNode`, `wasRemoved`. -/
structure IterSt where
  currentNode : Option Nat
  started : Bool
  skipFlag : Bool
  wasRemoved : Bool
deriving DecidableEq

/-- `getNextNodeInAncestry(node)` (lines 83-102).  JavaScript's
`indexOf` returning `-1` makes `currentIndex < siblings.length - 1` compare
`-1 < length - 1`, which is true whenever the parent has any children — the
`none` arm mirrors that.  `fuel` bounds the parent-chain walk (the scenarios
use acyclic heaps). -/
def getNextNodeInAncestry (h : List HNode) : Nat → Option Nat → Option Nat
  | 0, _ => none
  | _, none => none
  | fuel + 1, some nid =>
    let nd := getNode h nid
    if nd.ntype = .root ∧ nd.parent = none then none
    else
      match nd.parent with
      | some pid =>
        let siblings := (getNode h pid).children
        (match siblings.findIdx? (fun x => x = nid) with
         | some ci =>
           if ci + 1 < siblings.length then some (siblings.getD (ci + 1) 0)
           else getNextNodeInAncestry h fuel nd.parent
         | none =>
           if 0 < siblings.length then some (siblings.getD 0 0)
           else getNextNodeInAncestry h fuel nd.parent)
      | none => getNextNodeInAncestry h fuel none

/-- `getNextNode(node)` (lines 104-159). -/
def getNextNode (h : List HNode) (st : IterSt) (nid : Nat) (fuel : Nat) :
    Option Nat :=
  let nd := getNode h nid
  if st.wasRemoved then
    match nd.parent with
    | some _ => getNextNodeInAncestry h fuel nd.parent
    | none => none
  else if st.skipFlag = false ∧ 0 < nd.children.length then
    some (nd.children.getD 0 0)
  else if nd.ntype = .root ∧ nd.parent = none then none
  else
    match nd.parent with
    | some pid =>
      let siblings := (getNode h pid).children
      (match siblings.findIdx? (fun x => x = nid) with
       | none => getNextNodeInAncestry h fuel nd.parent
       | some ci =>
         if ci + 1 < siblings.length then some (siblings.getD (ci + 1) 0)
         else getNextNodeInAncestry h fuel nd.parent)
    | none => getNextNodeInAncestry h fuel nd.parent

/-- Iterator construction (lines 67-74): a root starts at its first child,
any other node at itself. -/
def iterInit (h : List HNode) (selfId : Nat) : IterSt :=
  let nd := getNode h selfId
  { currentNode :=
      if nd.ntype = .root ∧ nd.children ≠ [] then some (nd.children.getD 0 0)
      else some selfId,
    started := false, skipFlag := false, wasRemoved := false }

/-- `next()` (lines 176-222): before advancing, the removal and skip flags
are reset; the value returned is `nodeToReturn`, the node from before the
advance, with `done: false` even when the advance found nothing. -/
def iterNext (h : List HNode) (st : IterSt) : Option Nat × IterSt :=
  match st.currentNode with
  | none => (none, st)
  | some nid =>
    if st.started = false then
      (some nid, { st with started := true })
    else
      let st1 := { st with wasRemoved := false, skipFlag := false }
      (some nid, { st1 with currentNode := getNextNode h st1 nid h.length })

/-- The monkey-patched `remove` active during iteration (lines 161-174):
sets `wasRemoved` when the removed node is the current node, then performs
the ordinary removal. -/
def removeTracked (h : List HNode) (st : IterSt) (i : Nat) :
    List HNode × IterSt :=
  (removeNode h i,
   if st.currentNode = some i then { st with wasRemoved := true } else st)

/-- Drain the iterator, collecting yielded node ids. -/
def iterCollect (h : List HNode) (st : IterSt) : Nat → List Nat
  | 0 => []
  | fuel + 1 =>
    match iterNext h st with
    | (none, _) => []
    | (some v, st') => v :: iterCollect h st' fuel

/-- The C4 scenario: iterate from the root and remove the first yielded node
(from inside the loop body), then continue iterating. -/
def iterRunRemoveFirst (h : List HNode) (rootId fuel : Nat) : List Nat :=
  let st0 := iterInit h rootId
  match iterNext h st0 with
  | (none, _) => []
  | (some v, st1) =>
    let (h2, st2) := removeTracked h st1 v
    v :: iterCollect h2 st2 fuel

/-- The C4 failing tree: `root → [A(tag-open "a") → [X(text)], B(text)]`.
Ids: 0 = root, 1 = A, 2 = X, 3 = B. -/
def heapC4 : List HNode :=
  [⟨.root, "", none, [1, 3]⟩,
   ⟨.tagOpen, "a", some 0, [2]⟩,
   ⟨.text, "", some 1, []⟩,
   ⟨.text, "B", some 0, []⟩]

/-! ## C9: the value serializer `#serializeValue` and the evaluator round trip

`jhp.js` lines 987-1019.  `Value` covers the host values the embedding can
be faithful for: `null`, `undefined`, booleans, integer-valued numbers,
strings, dates, arrays and plain objects.  (Floating-point formatting,
function source text and symbol identity are beyond a shallow embedding;
`goodV` additionally records where the *rendering* model is faithful:
integers below 10^21 render in plain decimal, and object keys are kept
non-integer-like so `Object.entries` preserves insertion order.)
-/

/-- Host values handled by the round-trip claims. -/
inductive Value where
  | vNull
  | vUndefined
  | vBool (b : Bool)
  | vInt (n : Int)
  | vStr (s : List Char)
  | vDate (ms : Int)
  | vArr (elems : List Value)
  | vObj (fields : List (List Char × Value))

/-- `#regex.backtickEscape` global replacement: every backtick becomes
`\\\x60`. -/
def escBacktick : List Char → List Char
  | [] => []
  | c :: t => if c = '\x60' then '\\' :: '\x60' :: escBacktick t else c :: escBacktick t

/-- `#regex.templateLiteralEscape` global replacement: every `$\x7b` becomes
`\$\x7b` (run on the output of `escBacktick`, as in the source). -/
def escTemplate : List Char → List Char
  | [] => []
  | [c] => [c]
  | c :: d :: t =>
    if c = '$' ∧ d = '\x7b' then '\\' :: '$' :: '\x7b' :: escTemplate t
    else c :: escTemplate (d :: t)

/-- Decimal digits of `n`, least fuel-bound form (`fuel` only needs to cover
the digit count; `natToDec` instantiates it). -/
def natToDecAux : Nat → Nat → List Char
  | 0, _ => []
  | fuel + 1, n =>
    if n = 0 then []
    else natToDecAux fuel (n / 10) ++ [Char.ofNat (48 + n % 10)]

/-- Decimal rendering of a natural number. -/
def natToDec (n : Nat) : List Char :=
  if n = 0 then ['0'] else natToDecAux (n + 1) n

/-- JavaScript `Number.prototype.toString` / `BigInt.prototype.toString` on
an integer value in the plain-decimal range. -/
def intToDec (n : Int) : List Char :=
  if n < 0 then '-' :: natToDec n.natAbs else natToDec n.natAbs

/-- One character of `JSON.stringify` string escaping (good keys exclude the
control characters that would need `\uXXXX`). -/
def jsonEscChar (c : Char) : List Char :=
  if c = '"' then ['\\', '"']
  else if c = '\\' then ['\\', '\\']
  else if c = '\n' then ['\\', 'n']
  else if c = '\r' then ['\\', 'r']
  else if c = '\t' then ['\\', 't']
  else if c = '\x08' then ['\\', 'b']
  else if c = '\x0c' then ['\\', 'f']
  else [c]

/-- `JSON.stringify` body escaping. -/
def jsonEscStr : List Char → List Char
  | [] => []
  | c :: t => jsonEscChar c ++ jsonEscStr t

/-- `JSON.stringify(key)`. -/
def jsonQuote (s : List Char) : List Char :=
  '"' :: jsonEscStr s ++ ['"']

/-- `.join(\x27, \x27)`. -/
def joinCommaSep : List (List Char) → List Char
  | [] => []
  | [x] => x
  | x :: xs => x ++ ',' :: ' ' :: joinCommaSep xs

mutual

/-- `#serializeValue(value)` (lines 987-1019): `null`/`undefined` keywords,
backtick template literal with backtick and `$\x7b` escaped, `toString`
rendering for numbers and booleans, `new Date(ms)`, `[…]` with `, `-joined
elements, and `\x7b…\x7d` with `JSON.stringify`-quoted keys. -/
def serializeValue : Value → List Char
  | .vNull => ['n', 'u', 'l', 'l']
  | .vUndefined => ['u', 'n', 'd', 'e', 'f', 'i', 'n', 'e', 'd']
  | .vStr s => '\x60' :: escTemplate (escBacktick s) ++ ['\x60']
  | .vInt n => intToDec n
  | .vBool b => if b then ['t', 'r', 'u', 'e'] else ['f', 'a', 'l', 's', 'e']
  | .vDate ms =>
    ['n', 'e', 'w', ' ', 'D', 'a', 't', 'e', '('] ++ intToDec ms ++ [')']
  | .vArr elems => '[' :: joinCommaSep (serializeList elems) ++ [']']
  | .vObj fields => '\x7b' :: joinCommaSep (serializeFields fields) ++ ['\x7d']
termination_by structural v => v

/-- `value.map((item) => this.#serializeValue(item))`. -/
def serializeList : List Value → List (List Char)
  | [] => []
  | v :: t => serializeValue v :: serializeList t
termination_by structural l => l

/-- `Object.entries(value).map(([key, val]) => …)`. -/
def serializeFields : List (List Char × Value) → List (List Char)
  | [] => []
  | (k, v) :: t => (jsonQuote k ++ ':' :: ' ' :: serializeValue v) :: serializeFields t
termination_by structural l => l

end

/-- The undo of a template-literal escape `\c` (the serializer only emits
`\\\x60` and `\$`, which fall to the identity arm). -/
def unescapeChar (c : Char) : Char :=
  if c = 'n' then '\n'
  else if c = 't' then '\t'
  else if c = 'r' then '\r'
  else if c = 'b' then '\x08'
  else if c = 'f' then '\x0c'
  else if c = 'v' then '\x0b'
  else if c = '0' then '\x00'
  else c

/-- The undo of a `JSON.stringify` escape. -/
def jsonUnescChar (c : Char) : Char :=
  if c = 'n' then '\n'
  else if c = 't' then '\t'
  else if c = 'r' then '\r'
  else if c = 'b' then '\x08'
  else if c = 'f' then '\x0c'
  else c

/-- Digits-to-number accumulator. -/
def decToNat (ds : List Char) : Nat :=
  ds.foldl (fun acc c => acc * 10 + (c.toNat - 48)) 0

/-- Maximal-decimal-run integer literal parse (JavaScript numeric literal,
restricted to plain decimals). -/
def parseIntDec (l : List Char) : Option (Int × List Char) :=
  if l.head? = some '-' then
    let ds := l.tail.takeWhile (fun c => c.isDigit)
    if ds.isEmpty then none
    else some (-(decToNat ds : Int), l.tail.dropWhile (fun c => c.isDigit))
  else
    let ds := l.takeWhile (fun c => c.isDigit)
    if ds.isEmpty then none
    else some ((decToNat ds : Int), l.dropWhile (fun c => c.isDigit))

/-- Modelled from the spec: the embedded evaluator (declared out of scope in
§1) reading a backtick template-literal body, per JavaScript semantics —
`\r`/`\r\n` normalise to `\n`, `\c` yields the escaped character, and a
`$\x7b` would start an interpolation (rejected here: the serializer never
emits one). -/
def parseTemplateBody : Nat → List Char → Option (List Char × List Char)
  | 0, _ => none
  | _ + 1, [] => none
  | fuel + 1, c :: rest =>
    if c = '\x60' then some ([], rest)
    else if c = '\\' then
      match rest with
      | [] => none
      | e :: r2 => (parseTemplateBody fuel r2).map (fun p => (unescapeChar e :: p.1, p.2))
    else if c = '\r' then
      if rest.head? = some '\n' then
        (parseTemplateBody fuel rest.tail).map (fun p => ('\n' :: p.1, p.2))
      else (parseTemplateBody fuel rest).map (fun p => ('\n' :: p.1, p.2))
    else if c = '$' ∧ rest.head? = some '\x7b' then none
    else (parseTemplateBody fuel rest).map (fun p => (c :: p.1, p.2))

/-- Modelled from the spec: JSON string-body read-back for object keys. -/
def parseKeyBody : List Char → Option (List Char × List Char)
  | [] => none
  | c :: rest =>
    if c = '"' then some ([], rest)
    else if c = '\\' then
      match rest with
      | [] => none
      | e :: r2 => (parseKeyBody r2).map (fun p => (jsonUnescChar e :: p.1, p.2))
    else (parseKeyBody rest).map (fun p => (c :: p.1, p.2))

/-- Modelled from the spec: a quoted JSON key. -/
def parseKey : List Char → Option (List Char × List Char)
  | [] => none
  | c :: rest => if c = '"' then parseKeyBody rest else none

mutual

/-- Modelled from the spec: the embedded evaluator (out of scope per §1)
parsing one literal expression of the serializer's output grammar back into
a value.  `fuel` bounds the nesting depth. -/
def parseValue : Nat → List Char → Option (Value × List Char)
  | 0, _ => none
  | fuel + 1, l =>
    if ['n', 'u', 'l', 'l'].isPrefixOf l then some (.vNull, l.drop 4)
    else if ['u', 'n', 'd', 'e', 'f', 'i', 'n', 'e', 'd'].isPrefixOf l then
      some (.vUndefined, l.drop 9)
    else if ['t', 'r', 'u', 'e'].isPrefixOf l then some (.vBool true, l.drop 4)
    else if ['f', 'a', 'l', 's', 'e'].isPrefixOf l then some (.vBool false, l.drop 5)
    else if ['n', 'e', 'w', ' ', 'D', 'a', 't', 'e', '('].isPrefixOf l then
      match parseIntDec (l.drop 9) with
      | none => none
      | some (n, r) =>
        if r.head? = some ')' then some (.vDate n, r.tail) else none
    else
      match l with
      | [] => none
      | c :: rest =>
        if c = '\x60' then
          (parseTemplateBody fuel rest).map (fun p => (.vStr p.1, p.2))
        else if c = '[' then
          if rest.head? = some ']' then some (.vArr [], rest.tail)
          else (parseElems fuel rest).map (fun p => (.vArr p.1, p.2))
        else if c = '\x7b' then
          if rest.head? = some '\x7d' then some (.vObj [], rest.tail)
          else (parseFields fuel rest).map (fun p => (.vObj p.1, p.2))
        else
          (parseIntDec (c :: rest)).map (fun p => (.vInt p.1, p.2))

/-- Modelled from the spec: `, `-separated array elements up to and
including the closing `]`. -/
def parseElems : Nat → List Char → Option (List Value × List Char)
  | 0, _ => none
  | fuel + 1, l =>
    match parseValue fuel l with
    | none => none
    | some (v, r) =>
      if r.head? = some ']' then some ([v], r.tail)
      else if r.head? = some ',' ∧ r.tail.head? = some ' ' then
        (parseElems fuel r.tail.tail).map (fun p => (v :: p.1, p.2))
      else none

/-- Modelled from the spec: `, `-separated `"key": value` fields up to and
including the closing `\x7d`. -/
def parseFields : Nat → List Char → Option (List (List Char × Value) × List Char)
  | 0, _ => none
  | fuel + 1, l =>
    match parseKey l with
    | none => none
    | some (k, r) =>
      if r.head? = some ':' ∧ r.tail.head? = some ' ' then
        match parseValue fuel r.tail.tail with
        | none => none
        | some (v, r2) =>
          if r2.head? = some '\x7d' then some ([(k, v)], r2.tail)
          else if r2.head? = some ',' ∧ r2.tail.head? = some ' ' then
            (parseFields fuel r2.tail.tail).map (fun p => ((k, v) :: p.1, p.2))
          else none
      else none

end

/-- Modelled from the spec: evaluating a whole fragment — one literal
expression consuming the entire input. -/
def evalFragment (fuel : Nat) (l : List Char) : Option Value :=
  match parseValue fuel l with
  | some (v, []) => some v
  | _ => none

mutual

/-- Nesting measure used as the parse fuel bound. -/
def sizeV : Value → Nat
  | .vStr s => 2 + s.length
  | .vArr elems => 1 + sizeVList elems
  | .vObj fields => 1 + sizeVFields fields
  | _ => 1
termination_by structural v => v

/-- Measure of an element list (padded so each element is strictly below). -/
def sizeVList : List Value → Nat
  | [] => 0
  | v :: t => 1 + sizeV v + sizeVList t
termination_by structural l => l

/-- Measure of a field list. -/
def sizeVFields : List (List Char × Value) → Nat
  | [] => 0
  | (_, v) :: t => 1 + sizeV v + sizeVFields t
termination_by structural l => l

end

/-- Keys on which the `JSON.stringify` model is exact and `Object.entries`
keeps insertion order: non-empty, not starting with a digit (not
integer-like), free of `"`­, backslash and control characters. -/
def goodKey (k : List Char) : Bool :=
  (match k.head? with
   | none => false
   | some c => !c.isDigit)
  && k.all (fun c => c ≠ '"' && c ≠ '\\' && 31 < c.toNat)

mutual

/-- The value class on which the round trip is claimed after amendment:
strings free of backslashes and carriage returns (the serializer escapes
only backtick and `$\x7b`; raw `\r` is normalised by the evaluator),
integers in the plain-decimal range, good object keys, and the same
recursively. -/
def goodV : Value → Bool
  | .vNull => true
  | .vUndefined => true
  | .vBool _ => true
  | .vInt n => n.natAbs < 10 ^ 21
  | .vStr s => s.all (fun c => c ≠ '\\' && c ≠ '\r')
  | .vDate ms => ms.natAbs < 10 ^ 21
  | .vArr elems => goodVList elems
  | .vObj fields => goodVFields fields
termination_by structural v => v

/-- Goodness of an element list. -/
def goodVList : List Value → Bool
  | [] => true
  | v :: t => goodV v && goodVList t
termination_by structural l => l

/-- Goodness of a field list. -/
def goodVFields : List (List Char × Value) → Bool
  | [] => true
  | (k, v) :: t => goodKey k && goodV v && goodVFields t
termination_by structural l => l

end

/-- `true` when the remaining input cannot extend a maximal digit run. -/
def headNotDigit (l : List Char) : Bool :=
  match l.head? with
  | none => true
  | some c => !c.isDigit

/-!
### The HTML tokenizer and serializer (simple-html-parser.js)

`parse` (lines 908-1111) is a positional `while` loop over the input with a
mutable `currentNode`; it is embedded here as `parseLoop`, a fuel-per-
iteration machine over the remaining input whose state is the stack of open
elements plus the accumulated root children (children attach on close or at
end of input, reproducing the eager mutable attachment).  `toHtml`
(lines 679-720) is `nodeHtml`.  `CItem` is the canonical document class of
the amended round-trip claim: text runs, HTML comments, and explicitly
closed non-special tags whose attributes are in the canonical
`name="value"` / bare-name form.
-/

/-- Index of the first occurrence of `pat` in `s` (JS `String.indexOf`). -/
def idxOfSub (pat : List Char) : List Char → Option Nat
  | [] => if pat.isEmpty then some 0 else none
  | c :: t =>
    if pat.isPrefixOf (c :: t) then some 0
    else (idxOfSub pat t).map (· + 1)

/-- JS `substring(a, b)` relative to a list: clamps and swaps its arguments. -/
def jsSub (s : List Char) (a b : Nat) : List Char :=
  ((s.take (max a b)).drop (min a b))

/-- JS regex `\w`. -/
def isWordChar (c : Char) : Bool :=
  ('a' ≤ c && c ≤ 'z') || ('A' ≤ c && c ≤ 'Z') || ('0' ≤ c && c ≤ '9') || c = '_'

/-- The parser\x27s placeholder for a value-less attribute. -/
def EMPVAL : List Char := ['_', '_', 'E', 'M', 'P', 'V', 'A', 'L', '_', '_']

/-- JS object property write `obj[k] = v`: overwrite in place or append. -/
def objSet (m : List (List Char × List Char)) (k v : List Char) :
    List (List Char × List Char) :=
  match m with
  | [] => [(k, v)]
  | (k0, v0) :: t => if k0 = k then (k0, v) :: t else (k0, v0) :: objSet t k v

def sq : Char := Char.ofNat 39

/-- The attribute scanner: the `exec` loop of
`/(\w+)(?:=(?:"([^"]*)"|\x27([^\x27]*)\x27|(\S+)))?/g` over the attribute
string, with `match[2] || match[3] || match[4] || EMPVAL`. -/
def attrScan : Nat → List Char → List (List Char × List Char) →
    List (List Char × List Char)
  | 0, _, acc => acc
  | fuel + 1, s, acc =>
    let s1 := s.dropWhile (fun c => !isWordChar c)
    match s1 with
    | [] => acc
    | _ :: _ =>
      let nm := s1.takeWhile isWordChar
      let s2 := s1.dropWhile isWordChar
      match s2 with
      | '=' :: s3 =>
        let quoted : Option (List Char × List Char) :=
          if s3.head? = some '"' then
            match idxOfSub ['"'] s3.tail with
            | some j => some (s3.tail.take j, s3.tail.drop (j + 1))
            | none => none
          else if s3.head? = some sq then
            match idxOfSub [sq] s3.tail with
            | some j => some (s3.tail.take j, s3.tail.drop (j + 1))
            | none => none
          else none
        match quoted with
        | some (v, r2) =>
          attrScan fuel r2 (objSet acc nm (if v.isEmpty then EMPVAL else v))
        | none =>
          let v := s3.takeWhile (fun c => !jsWs c)
          match v with
          | [] => attrScan fuel s2 (objSet acc nm EMPVAL)
          | _ :: _ => attrScan fuel (s3.drop v.length) (objSet acc nm v)
      | _ => attrScan fuel s2 (objSet acc nm EMPVAL)

/-- Comment flavours recorded by the parser. -/
inductive CommentKind where
  | htmlC | jsSingle | jsMulti
deriving DecidableEq

/-- Parse-tree nodes (`Node` of simple-html-parser.js, shallow form). -/
inductive PNode where
  | text (content : List Char)
  | comment (kind : CommentKind) (content : List Char)
  | tagOpen (nm : List Char) (attrs : List (List Char × List Char))
      (scriptBlock : Bool) (children : List PNode)
  | tagClose (nm : List Char)
  | root (children : List PNode)

/-- The JS-comment sub-parser for special-tag content (lines 965-1041). -/
def scriptScan : Nat → List Char → List PNode → List PNode
  | 0, _, acc => acc
  | fuel + 1, r, acc =>
    match r with
    | [] => acc
    | _ :: _ =>
      let sPos := idxOfSub ['/', '/'] r
      let mPos := idxOfSub ['/', '*'] r
      let next : Option (Nat × Bool) :=
        match sPos, mPos with
        | some s, some m => if s < m then some (s, false) else some (m, true)
        | some s, none => some (s, false)
        | none, some m => some (m, true)
        | none, none => none
      match next with
      | none => acc ++ [.text r]
      | some (ncp, isMulti) =>
        let acc2 := if 0 < ncp then acc ++ [.text (r.take ncp)] else acc
        if isMulti then
          match idxOfSub ['*', '/'] (r.drop (ncp + 2)) with
          | none => acc2 ++ [.comment .jsMulti (r.drop (ncp + 2))]
          | some ce =>
            scriptScan fuel (r.drop (ncp + 2 + ce + 2))
              (acc2 ++ [.comment .jsMulti ((r.drop (ncp + 2)).take ce)])
        else
          match idxOfSub ['\n'] (r.drop ncp) with
          | none => acc2 ++ [.comment .jsSingle (r.drop (ncp + 2))]
          | some le =>
            scriptScan fuel (r.drop (ncp + le + 1))
              (acc2 ++ [.comment .jsSingle ((r.drop (ncp + 2)).take (le - 2))])

/-- One open-element context: the data of a `tag-open` node whose children
are still being collected (`currentNode` chain). -/
structure PFrame where
  nm : List Char
  attrs : List (List Char × List Char)
  sblock : Bool
  children : List PNode

/-- Parser state: open-element stack (deepest first) plus the root\x27s
accumulated children. -/
structure PState where
  stk : List PFrame
  rootCs : List PNode

def buildNode (f : PFrame) : PNode :=
  .tagOpen f.nm f.attrs f.sblock f.children

/-- `currentNode.appendChild(n)`. -/
def pushChild (st : PState) (n : PNode) : PState :=
  match st.stk with
  | [] => { st with rootCs := st.rootCs ++ [n] }
  | f :: rest => { st with stk := { f with children := f.children ++ [n] } :: rest }

/-- Close the deepest open element, attaching its node one level up. -/
def popFrame (st : PState) : PState :=
  match st.stk with
  | [] => st
  | f :: rest => pushChild { st with stk := rest } (buildNode f)

def popN : Nat → PState → PState
  | 0, st => st
  | k + 1, st => popN k (popFrame st)

/-- Whether the parent chain holds a matching `tag-open` (lines 1073-1090). -/
def hasOpen (stk : List PFrame) (nm : List Char) : Bool :=
  stk.any (fun f => f.nm = nm)

def idxOpen (stk : List PFrame) (nm : List Char) : Nat :=
  stk.findIdx (fun f => f.nm = nm)

/-- The main `while (pos < html.length)` loop of `parse`, one fuel per
iteration, expressed on the remaining input. -/
def parseLoop (tags : List (List Char)) : Nat → List Char → PState → PState
  | 0, _, st => st
  | fuel + 1, rem, st =>
    match rem with
    | [] => st
    | _ :: _ =>
      if ['<', '!', '-', '-'].isPrefixOf rem then
        match idxOfSub ['-', '-', '>'] rem with
        | none => parseLoop tags fuel (rem.drop 1) st
        | some ce =>
          parseLoop tags fuel (rem.drop (ce + 3))
            (pushChild st (.comment .htmlC (jsSub rem 4 ce)))
      else if rem.head? = some '<' ∧ ¬ rem.tail.head? = some '/' then
        match idxOfSub ['>'] rem with
        | none => parseLoop tags fuel (rem.drop 1) st
        | some te =>
          let tagContent := jsSub rem 1 te
          let tagName := tagContent.takeWhile (fun c => !jsWs c)
          let attrStr := tagContent.drop tagName.length
          let attributes := attrScan (attrStr.length + 1) attrStr []
          if tags.contains tagName then
            let closeTag := '<' :: '/' :: (tagName ++ ['>'])
            match idxOfSub closeTag (rem.drop te) with
            | some ctpr =>
              let ctp := te + ctpr
              let scriptContent := jsSub rem (te + 1) ctp
              let kids := scriptScan (scriptContent.length + 1) scriptContent []
              parseLoop tags fuel (rem.drop (ctp + closeTag.length))
                (pushChild (pushChild st (.tagOpen tagName attributes true kids))
                  (.tagClose tagName))
            | none =>
              parseLoop tags fuel (rem.drop (te + 1))
                { stk := ⟨tagName, attributes, true, []⟩ :: st.stk, rootCs := st.rootCs }
          else
            parseLoop tags fuel (rem.drop (te + 1))
              { stk := ⟨tagName, attributes, false, []⟩ :: st.stk, rootCs := st.rootCs }
      else if rem.head? = some '<' ∧ rem.tail.head? = some '/' then
        match idxOfSub ['>'] rem with
        | none => parseLoop tags fuel (rem.drop 1) st
        | some te =>
          let tagName := jsSub rem 2 te
          let st2 :=
            if hasOpen st.stk tagName then
              pushChild (popN (idxOpen st.stk tagName + 1) st) (.tagClose tagName)
            else pushChild st (.tagClose tagName)
          parseLoop tags fuel (rem.drop (te + 1)) st2
      else
        let textEnd := match idxOfSub ['<'] rem with
          | none => rem.length
          | some i => i
        let st2 := if 0 < textEnd then pushChild st (.text (rem.take textEnd)) else st
        parseLoop tags fuel (rem.drop textEnd) st2

/-- `SimpleHtmlParser.parse`: run the loop, then the still-open elements are
already attached to their parents (they were appended on creation in the
mutable original; folding the remaining stack reproduces that tree). -/
def parseHtml (tags : List (List Char)) (html : List Char) : PNode :=
  let st := parseLoop tags (html.length + 1) html ⟨[], []⟩
  .root (popN st.stk.length st).rootCs

/-- `#getNodeAttributesString`. -/
def attrsString : List (List Char × List Char) → List Char
  | [] => []
  | (k, v) :: t =>
    (if v = EMPVAL then ' ' :: k else ' ' :: k ++ '=' :: '"' :: v ++ ['"'])
      ++ attrsString t

mutual

/-- `Node.toHtml(showComments)` (lines 679-720). -/
def nodeHtml (showC : Bool) : PNode → List Char
  | .text c => c
  | .comment k c =>
    if !showC then []
    else
      match k with
      | .jsSingle => '/' :: '/' :: c
      | .jsMulti => '/' :: '*' :: c ++ ['*', '/']
      | .htmlC => '<' :: '!' :: '-' :: '-' :: c ++ ['-', '-', '>']
  | .tagOpen nm attrs _ kids =>
    '<' :: nm ++ attrsString attrs ++ '>' :: nodeListHtml showC kids
  | .tagClose nm => '<' :: '/' :: nm ++ ['>']
  | .root kids => nodeListHtml showC kids
termination_by structural n => n

def nodeListHtml (showC : Bool) : List PNode → List Char
  | [] => []
  | n :: t => nodeHtml showC n ++ nodeListHtml showC t
termination_by structural l => l

end

/-- Canonical attribute of the render-stable document class: a
double-quoted `k="v"` pair or a bare (value-less) name. -/
inductive CAttr where
  | aval (k v : List Char)
  | abare (k : List Char)

/-- Canonical document items: text runs, HTML comments and
properly-nested, explicitly-closed tag pairs. -/
inductive CItem where
  | ctext (s : List Char)
  | ccomment (c : List Char)
  | ctag (nm : List Char) (attrs : List CAttr) (kids : List CItem)

def renderAttr : CAttr → List Char
  | .aval k v => ' ' :: k ++ '=' :: '"' :: v ++ ['"']
  | .abare k => ' ' :: k

def renderAttrs : List CAttr → List Char
  | [] => []
  | a :: t => renderAttr a ++ renderAttrs t

mutual

/-- Canonical rendering of one item. -/
def renderItem : CItem → List Char
  | .ctext s => s
  | .ccomment c => '<' :: '!' :: '-' :: '-' :: (c ++ ['-', '-', '>'])
  | .ctag nm attrs kids =>
    '<' :: (nm ++ renderAttrs attrs ++ '>' :: (renderItems kids ++ ('<' :: '/' :: nm ++ ['>'])))
termination_by structural it => it

/-- Canonical rendering of an item list. -/
def renderItems : List CItem → List Char
  | [] => []
  | it :: t => renderItem it ++ renderItems t
termination_by structural l => l

end

def attrPair : CAttr → List Char × List Char
  | .aval k v => (k, v)
  | .abare k => (k, EMPVAL)

def attrPairs (attrs : List CAttr) : List (List Char × List Char) :=
  attrs.map attrPair

mutual

/-- Nodes the parser produces for one canonical item. -/
def nodesOfItem : CItem → List PNode
  | .ctext s => [.text s]
  | .ccomment c => [.comment .htmlC c]
  | .ctag nm attrs kids =>
    [.tagOpen nm (attrPairs attrs) false (nodesOfItems kids), .tagClose nm]
termination_by structural it => it

/-- Nodes the parser produces for a canonical item list. -/
def nodesOfItems : List CItem → List PNode
  | [] => []
  | it :: t => nodesOfItem it ++ nodesOfItems t
termination_by structural l => l

end

mutual

/-- Number of main-loop iterations needed to consume one rendered item. -/
def iterItem : CItem → Nat
  | .ctext _ => 1
  | .ccomment _ => 1
  | .ctag _ _ kids => 2 + iterItems kids
termination_by structural it => it

def iterItems : List CItem → Nat
  | [] => 0
  | it :: t => iterItem it + iterItems t
termination_by structural l => l

end

mutual

def sizeItem : CItem → Nat
  | .ctext _ => 1
  | .ccomment _ => 1
  | .ctag _ _ kids => 1 + sizeItems kids
termination_by structural it => it

def sizeItems : List CItem → Nat
  | [] => 0
  | it :: t => sizeItem it + sizeItems t
termination_by structural l => l

end

/-- Substring-occurrence test (`indexOf !== -1`). -/
def hasSub (p s : List Char) : Bool :=
  (idxOfSub p s).isSome

/-- A comment body that the tokenizer closes exactly at its own `-->`:
no earlier `-->` can be formed, including at the boundaries with the
delimiters. -/
def wfComment (c : List Char) : Bool :=
  !hasSub ['-', '-', '>'] (['-', '-'] ++ c ++ ['-', '-'])

def wfAttr : CAttr → Bool
  | .aval k v =>
    !k.isEmpty && k.all isWordChar && !v.isEmpty
      && v.all (fun c => !(c = '"') && !(c = '>')) && !(v = EMPVAL)
  | .abare k => !k.isEmpty && k.all isWordChar

def attrKey : CAttr → List Char
  | .aval k _ => k
  | .abare k => k

def distinctKeys : List (List Char) → Bool
  | [] => true
  | k :: t => !t.contains k && distinctKeys t

def wfAttrList (attrs : List CAttr) : Bool :=
  attrs.all wfAttr && distinctKeys (attrs.map attrKey)

def isTextItem : CItem → Bool
  | .ctext _ => true
  | _ => false

mutual

/-- Well-formedness of one canonical item with respect to the parser\x27s
special-tag list. -/
def wfItem (tags : List (List Char)) : CItem → Bool
  | .ctext s => !s.isEmpty && s.all (fun c => !(c = '<'))
  | .ccomment c => wfComment c
  | .ctag nm attrs kids =>
    !nm.isEmpty && nm.all isWordChar && !(tags.contains nm)
      && wfAttrList attrs && wfItems tags kids
termination_by structural it => it

/-- Well-formedness of a canonical item list: items well-formed and no two
adjacent text items (the tokenizer consumes a maximal text run at once). -/
def wfItems (tags : List (List Char)) : List CItem → Bool
  | [] => true
  | [it] => wfItem tags it
  | it :: it2 :: t =>
    wfItem tags it && !(isTextItem it && isTextItem it2) && wfItems tags (it2 :: t)
termination_by structural l => l

end

def pushChildren (st : PState) (ns : List PNode) : PState :=
  ns.foldl pushChild st

/-- The body of one `parseLoop` iteration on a non-empty remainder,
factored for reasoning; `parseLoop` at `fuel + 1` on a cons agrees with it
definitionally. -/
def parseLoopBody (tags : List (List Char)) (fuel : Nat) (rem : List Char)
    (st : PState) : PState :=
  if ['<', '!', '-', '-'].isPrefixOf rem then
    match idxOfSub ['-', '-', '>'] rem with
    | none => parseLoop tags fuel (rem.drop 1) st
    | some ce =>
      parseLoop tags fuel (rem.drop (ce + 3))
        (pushChild st (.comment .htmlC (jsSub rem 4 ce)))
  else if rem.head? = some '<' ∧ ¬ rem.tail.head? = some '/' then
    match idxOfSub ['>'] rem with
    | none => parseLoop tags fuel (rem.drop 1) st
    | some te =>
      let tagContent := jsSub rem 1 te
      let tagName := tagContent.takeWhile (fun c => !jsWs c)
      let attrStr := tagContent.drop tagName.length
      let attributes := attrScan (attrStr.length + 1) attrStr []
      if tags.contains tagName then
        let closeTag := '<' :: '/' :: (tagName ++ ['>'])
        match idxOfSub closeTag (rem.drop te) with
        | some ctpr =>
          let ctp := te + ctpr
          let scriptContent := jsSub rem (te + 1) ctp
          let kids := scriptScan (scriptContent.length + 1) scriptContent []
          parseLoop tags fuel (rem.drop (ctp + closeTag.length))
            (pushChild (pushChild st (.tagOpen tagName attributes true kids))
              (.tagClose tagName))
        | none =>
          parseLoop tags fuel (rem.drop (te + 1))
            { stk := ⟨tagName, attributes, true, []⟩ :: st.stk, rootCs := st.rootCs }
      else
        parseLoop tags fuel (rem.drop (te + 1))
          { stk := ⟨tagName, attributes, false, []⟩ :: st.stk, rootCs := st.rootCs }
  else if rem.head? = some '<' ∧ rem.tail.head? = some '/' then
    match idxOfSub ['>'] rem with
    | none => parseLoop tags fuel (rem.drop 1) st
    | some te =>
      let tagName := jsSub rem 2 te
      let st2 :=
        if hasOpen st.stk tagName then
          pushChild (popN (idxOpen st.stk tagName + 1) st) (.tagClose tagName)
        else pushChild st (.tagClose tagName)
      parseLoop tags fuel (rem.drop (te + 1)) st2
  else
    let textEnd := match idxOfSub ['<'] rem with
      | none => rem.length
      | some i => i
    let st2 := if 0 < textEnd then pushChild st (.text (rem.take textEnd)) else st
    parseLoop tags fuel (rem.drop textEnd) st2

def jhpTags : List (List Char) := [['j', 'h', 'p'], ['s', '_']]
/-! ## Theorems -/

theorem processTemplateRun_chain_matched (branches : List (Bool × String)) :
    ∀ (prev elseRegion tailMarkup : String) (x o : Bool),
    processTemplateRun ⟨x, true, o⟩ (condChain prev branches elseRegion) tailMarkup
      = ((if x then [prev] else []) ++ [tailMarkup], ⟨true, false, false⟩) := by
  induction branches with
  | nil =>
    intro prev elseRegion tailMarkup x o
    simp [condChain, processTemplateRun, applyDirective, condBlock]
  | cons hd tl ih =>
    intro prev elseRegion tailMarkup x o
    obtain ⟨b, r⟩ := hd
    simp [condChain, processTemplateRun, applyDirective, condBlock, ih]

theorem processTemplateRun_chain_unmatched (branches : List (Bool × String)) :
    ∀ (prev elseRegion tailMarkup : String),
    processTemplateRun ⟨false, false, false⟩
        (condChain prev branches elseRegion) tailMarkup
      = ([firstTruthy branches elseRegion, tailMarkup], ⟨true, false, false⟩) := by
  induction branches with
  | nil =>
    intro prev elseRegion tailMarkup
    simp [condChain, processTemplateRun, applyDirective, condBlock, firstTruthy]
  | cons hd tl ih =>
    intro prev elseRegion tailMarkup
    obtain ⟨b, r⟩ := hd
    cases b with
    | false =>
      simp [condChain, processTemplateRun, applyDirective, condBlock, firstTruthy, ih]
    | true =>
      simp [condChain, processTemplateRun, applyDirective, condBlock, firstTruthy,
        processTemplateRun_chain_matched]

/-- C1: for a document whose script blocks drive the machine with
`if(a); …; elseif(b_i); …; else(); …; end();` and markup regions between the
blocks, exactly one region reaches the buffer — the region after the first
truthy predicate, the `else` region when none is truthy — the pre-`if` markup
and the trailing markup always reach it, and after `end()` the machine is
back at `(true, false, false)`.  The second conjunct instantiates this at the
document `<s>if(false);</s>A<s>elseif(true);</s>B<s>else();</s>C<s>end();</s>D`,
whose pushed segments join to `BD`. -/
theorem conditional_exclusivity :
    (∀ (a : Bool) (rPre r0 : String) (branches : List (Bool × String))
        (elseRegion tailMarkup : String),
      processTemplateRun ⟨true, false, false⟩
          ((rPre, .dIf a) :: condChain r0 branches elseRegion) tailMarkup
        = ([rPre, selectRegion a r0 branches elseRegion, tailMarkup],
            ⟨true, false, false⟩))
    ∧ jsJoin ""
        (processTemplateRun ⟨true, false, false⟩
          [("", .dIf false), ("A", .dElseif true), ("B", .dElse), ("C", .dEnd)]
          "D").1
        = "BD"
      ∧ (processTemplateRun ⟨true, false, false⟩
          [("", .dIf false), ("A", .dElseif true), ("B", .dElse), ("C", .dEnd)]
          "D").2
        = ⟨true, false, false⟩ := by
  constructor
  · intro a rPre r0 branches elseRegion tailMarkup
    cases a with
    | false =>
      simp [processTemplateRun, applyDirective, condBlock, selectRegion,
        processTemplateRun_chain_unmatched]
    | true =>
      simp [processTemplateRun, applyDirective, condBlock, selectRegion,
        processTemplateRun_chain_matched]
  · constructor <;> decide

/-- C2 (refuting the general claim about `obClose`): with two segments in the
open buffer, `obClose` returns them joined with a comma — `value.join()`
defaults to separator `","` — not their concatenation; the claim's
single-segment example still works (second and third conjuncts). -/
theorem obClose_comma_join :
    obClose ⟨true, ["A", "B"]⟩ = ("A,B", ⟨false, ["A", "B"]⟩)
    ∧ ("A,B" : String) ≠ "AB"
    ∧ obClose ⟨true, ["Hello"]⟩ = ("Hello", ⟨false, ["Hello"]⟩)
    ∧ (obClose ⟨true, ["A", "B"]⟩).2.isOpen = false := by
  refine ⟨by decide, by decide, by decide, by decide⟩

theorem pushOut_currentContext {α : Type} (st : DocState α) (s : String) :
    (pushOut st s).currentContext = st.currentContext := by
  unfold pushOut
  split <;> rfl

theorem pushOut_constants {α : Type} (st : DocState α) (s : String) :
    (pushOut st s).constants = st.constants := by
  unfold pushOut
  split <;> rfl

/-- C6: `define(name, value)` — when the name is already a context variable,
an error envelope is pushed to the active buffer and constants are unchanged;
when the name is fresh it is bound as a constant; when it is a constant bound
to an equal value the call is a silent no-op; when bound to a different value
an error envelope is pushed and the binding is unchanged; and `define` never
modifies the variable context. -/
theorem define_semantics {α : Type} [DecidableEq α] (st : DocState α)
    (key : String) (value : α) :
    ((define st key value).currentContext = st.currentContext)
    ∧ (mapHas st.currentContext key = true →
        define st key value
          = pushOut st ("<< Error: Variable \x27" ++ key
              ++ "\x27 already declared, unable to declare as constant. >>")
        ∧ (define st key value).constants = st.constants)
    ∧ (mapHas st.currentContext key = false → mapHas st.constants key = false →
        define st key value = { st with constants := mapSet st.constants key value })
    ∧ (mapHas st.currentContext key = false → mapHas st.constants key = true →
        mapGet st.constants key = some value →
        define st key value = st)
    ∧ (mapHas st.currentContext key = false → mapHas st.constants key = true →
        mapGet st.constants key ≠ some value →
        define st key value
          = pushOut st ("<< Error: Attempted to redeclare defined constant \x27"
              ++ key ++ "\x27. >>")
        ∧ (define st key value).constants = st.constants) := by
  refine ⟨?_, ?_, ?_, ?_, ?_⟩
  · unfold define
    split_ifs <;> simp [pushOut_currentContext]
  · intro h
    unfold define
    simp [h, pushOut_constants]
  · intro h1 h2
    unfold define
    simp [h1, h2]
  · intro h1 h2 h3
    unfold define
    simp [h1, h2, h3]
  · intro h1 h2 h3
    unfold define
    simp [h1, h2, h3, pushOut_constants]

/-- Witness for C6: defining a name that already exists as a variable pushes
the error envelope. -/
theorem define_semantics_witness :
    define (α := Bool) ⟨[], [("x", true)], ⟨false, []⟩, [], ""⟩ "x" false
      = pushOut ⟨[], [("x", true)], ⟨false, []⟩, [], ""⟩
          ("<< Error: Variable \x27x\x27 already declared, unable to declare as constant. >>") :=
  ((define_semantics ⟨[], [("x", true)], ⟨false, []⟩, [], ""⟩ "x" false).2.1
    (by decide)).1

/-- C7: `#resolvePath` implements exactly the claim's first-match-wins rule
list: root-relative references resolve under the root directory (failing if
absent), host-absolute references are returned iff they exist, then
`cwd/reference`, then — only when `cwd` differs from the root —
`root/reference`, else the not-found signal. -/
theorem resolvePath_firstMatch (existsFn : String → Bool)
    (isAbsolute : String → Bool) (pathResolve : String → String → String)
    (rootDir file currentDir : String) :
    resolvePath existsFn isAbsolute pathResolve rootDir file currentDir
      = firstMatch
          (resolvePathRules existsFn isAbsolute pathResolve rootDir file currentDir) := by
  unfold resolvePath resolvePathRules firstMatch
  split_ifs <;> simp_all [firstMatch]

/-- C10: with no conditional-scope argument, the gate in `echo` and
`#include` is bypassed — `echo` appends to the open output buffer, or to the
document buffer when closed, and `#include` proceeds to resolution and
processing (pushing an error envelope on failure); only an explicitly passed
scope whose `show()` is false suppresses them. -/
theorem echo_include_scope_bypass {α : Type}
    (resolvePathFn : String → String → Option String)
    (dirname : String → String)
    (processFileFn : String → DocState α → DocState α)
    (st : DocState α) (content file : String) (sc : CondState)
    (assignMode : Bool) :
    (echo st content none = pushOut st content)
    ∧ (st.htmlOutputBuffer.isOpen = true →
        echo st content none
          = { st with htmlOutputBuffer :=
                { st.htmlOutputBuffer with
                    value := st.htmlOutputBuffer.value ++ [content] } })
    ∧ (st.htmlOutputBuffer.isOpen = false →
        echo st content none
          = { st with currentBuffer := st.currentBuffer ++ [content] })
    ∧ (condShow sc = false → echo st content (some sc) = st)
    ∧ (condShow sc = true → echo st content (some sc) = pushOut st content)
    ∧ (resolvePathFn file st.cwd = none →
        includeFile resolvePathFn dirname processFileFn st file none assignMode
          = (some ("<< Error: Unable to resolve include path \x27" ++ file ++ "\x27 >>"),
              pushOut st
                ("<< Error: Unable to resolve include path \x27" ++ file ++ "\x27 >>")))
    ∧ (∀ p, resolvePathFn file st.cwd = some p →
        includeFile resolvePathFn dirname processFileFn st file none false
          = (none,
              { processFileFn p { st with cwd := dirname p } with cwd := st.cwd }))
    ∧ (condShow sc = false →
        includeFile resolvePathFn dirname processFileFn st file (some sc) assignMode
          = (none, st)) := by
  refine ⟨rfl, ?_, ?_, ?_, ?_, ?_, ?_, ?_⟩
  · intro h
    simp [echo, pushOut, h]
  · intro h
    simp [echo, pushOut, h]
  · intro h
    simp [echo, h]
  · intro h
    simp [echo, h]
  · intro h
    simp [includeFile, includeResolved, h, echo]
  · intro p h
    simp [includeFile, includeResolved, h]
  · intro h
    simp [includeFile, h]

/-- Witness for C10: with scope `undefined` and a failing resolver, the
include pushes and returns the error envelope. -/
theorem echo_include_scope_bypass_witness :
    includeFile (α := Bool) (fun _ _ => none) (fun _ => "") (fun _ s => s)
        ⟨[], [], ⟨false, []⟩, [], ""⟩ "f" none false
      = (some "<< Error: Unable to resolve include path \x27f\x27 >>",
          pushOut ⟨[], [], ⟨false, []⟩, [], ""⟩
            "<< Error: Unable to resolve include path \x27f\x27 >>") :=
  (echo_include_scope_bypass (fun _ _ => none) (fun _ => "") (fun _ s => s)
      ⟨[], [], ⟨false, []⟩, [], ""⟩ "c" "f" ⟨true, false, false⟩ false).2.2.2.2.2.1
    rfl

theorem setAdd_mem (l : List String) (x n : String) :
    n ∈ setAdd l x ↔ n ∈ l ∨ n = x := by
  unfold setAdd
  split
  · next hx =>
    constructor
    · exact Or.inl
    · rintro (h | rfl)
      · exact h
      · exact hx
  · simp

theorem walkStepKind_usedVars (node : Ast) (st : WalkSt) :
    (walkStepKind node st).usedVars = st.usedVars := by
  unfold walkStepKind
  split <;> rfl

theorem walkStepKind_declaredVars (node : Ast) (st : WalkSt) :
    (walkStepKind node st).declaredVars = st.declaredVars := by
  unfold walkStepKind
  split <;> rfl

theorem walkStepInclude_usedVars (node : Ast) (st : WalkSt) :
    (walkStepInclude node st).usedVars = st.usedVars := by
  unfold walkStepInclude
  repeat' split
  all_goals rfl

theorem walkStepInclude_declaredVars (node : Ast) (st : WalkSt) :
    (walkStepInclude node st).declaredVars = st.declaredVars := by
  unfold walkStepInclude
  repeat' split
  all_goals rfl

theorem walkStepDeclared_usedVars (node : Ast) (st : WalkSt) :
    (walkStepDeclared node st).usedVars = st.usedVars := by
  unfold walkStepDeclared
  split <;> rfl

theorem walkStepDeclared_declaredVars_mem (node : Ast) (st : WalkSt) (n : String) :
    n ∈ (walkStepDeclared node st).declaredVars
      ↔ n ∈ st.declaredVars ∨ n ∈ declaredSelf node := by
  unfold walkStepDeclared declaredSelf
  split
  · simp [setAdd_mem]
  · simp

theorem walkStepUsed_declaredVars (ctx : PCtx) (node : Ast) (st : WalkSt) :
    (walkStepUsed ctx node st).declaredVars = st.declaredVars := by
  unfold walkStepUsed
  repeat' split
  all_goals rfl

theorem walkStepUsed_usedVars_mem (ctx : PCtx) (node : Ast) (st : WalkSt) (n : String) :
    n ∈ (walkStepUsed ctx node st).usedVars
      ↔ n ∈ st.usedVars ∨ n ∈ usedSelf ctx node := by
  unfold walkStepUsed usedSelf
  split
  · split
    · simp
    · simp
    · simp
    · split
      · simp
      · simp [setAdd_mem]
  · simp

theorem walkSteps_usedVars_mem (ctx : PCtx) (node : Ast) (st : WalkSt) (n : String) :
    n ∈ (walkSteps ctx node st).usedVars ↔ n ∈ st.usedVars ∨ n ∈ usedSelf ctx node := by
  unfold walkSteps
  rw [walkStepUsed_usedVars_mem, walkStepDeclared_usedVars,
    walkStepInclude_usedVars, walkStepKind_usedVars]

theorem walkSteps_declaredVars_mem (ctx : PCtx) (node : Ast) (st : WalkSt) (n : String) :
    n ∈ (walkSteps ctx node st).declaredVars
      ↔ n ∈ st.declaredVars ∨ n ∈ declaredSelf node := by
  unfold walkSteps
  rw [walkStepUsed_declaredVars, walkStepDeclared_declaredVars_mem,
    walkStepInclude_declaredVars, walkStepKind_declaredVars]

theorem walk_mem :
    (∀ (ctx : PCtx) (node : Ast) (st : WalkSt), ∀ n : String,
      (n ∈ (walkAst ctx node st).usedVars
        ↔ n ∈ st.usedVars ∨ n ∈ usedIdents ctx node)
      ∧ (n ∈ (walkAst ctx node st).declaredVars
        ↔ n ∈ st.declaredVars ∨ n ∈ declaredIdents ctx node))
    ∧ (∀ (ctx : PCtx) (o : Option Ast) (st : WalkSt), ∀ n : String,
      (n ∈ (walkOpt ctx o st).usedVars
        ↔ n ∈ st.usedVars ∨ n ∈ usedIdentsOpt ctx o)
      ∧ (n ∈ (walkOpt ctx o st).declaredVars
        ↔ n ∈ st.declaredVars ∨ n ∈ declaredIdentsOpt ctx o))
    ∧ (∀ (ctx : PCtx) (ns : List Ast) (st : WalkSt), ∀ n : String,
      (n ∈ (walkList ctx ns st).usedVars
        ↔ n ∈ st.usedVars ∨ n ∈ usedIdentsList ctx ns)
      ∧ (n ∈ (walkList ctx ns st).declaredVars
        ↔ n ∈ st.declaredVars ∨ n ∈ declaredIdentsList ctx ns)) := by
  set_option maxRecDepth 4096 in
  refine walkAst.mutual_induct
    (fun ctx node st => ∀ n : String,
      (n ∈ (walkAst ctx node st).usedVars
        ↔ n ∈ st.usedVars ∨ n ∈ usedIdents ctx node)
      ∧ (n ∈ (walkAst ctx node st).declaredVars
        ↔ n ∈ st.declaredVars ∨ n ∈ declaredIdents ctx node))
    (fun ctx o st => ∀ n : String,
      (n ∈ (walkOpt ctx o st).usedVars
        ↔ n ∈ st.usedVars ∨ n ∈ usedIdentsOpt ctx o)
      ∧ (n ∈ (walkOpt ctx o st).declaredVars
        ↔ n ∈ st.declaredVars ∨ n ∈ declaredIdentsOpt ctx o))
    (fun ctx ns st => ∀ n : String,
      (n ∈ (walkList ctx ns st).usedVars
        ↔ n ∈ st.usedVars ∨ n ∈ usedIdentsList ctx ns)
      ∧ (n ∈ (walkList ctx ns st).declaredVars
        ↔ n ∈ st.declaredVars ∨ n ∈ declaredIdentsList ctx ns))
    ?_ ?_ ?_ ?_ ?_ ?_ ?_ ?_ ?_ ?_ ?_ ?_ ?_ ?_ ?_ ?_ ?_ ?_ ?_ ?_ <;>
  intros <;>
  first
    | (rename PCtx => ctxv
       cases ctxv <;>
         simp_all [walkAst, walkList, walkOpt, usedIdents, usedIdentsList,
           usedIdentsOpt, declaredIdents, declaredIdentsList,
           declaredIdentsOpt, List.mem_append, or_assoc,
           walkSteps_usedVars_mem, walkSteps_declaredVars_mem])
    | (rename Ast => nodev
       cases nodev <;>
         simp_all [walkAst, walkList, walkOpt, usedIdents, usedIdentsList,
           usedIdentsOpt, declaredIdents, declaredIdentsList,
           declaredIdentsOpt, List.mem_append, or_assoc,
           walkSteps_usedVars_mem, walkSteps_declaredVars_mem])

theorem foldl_setAdd_mem (xs : List String) (init : List String) (n : String) :
    n ∈ xs.foldl setAdd init ↔ n ∈ init ∨ n ∈ xs := by
  induction xs generalizing init with
  | nil => simp
  | cons x t ih => simp [List.foldl, ih, setAdd_mem, or_assoc]

theorem strContains_iff_mem (l : List String) (x : String) :
    l.contains x = true ↔ x ∈ l := by
  induction l with
  | nil => simp
  | cons h t ih =>
    rw [List.contains_cons]
    simp only [Bool.or_eq_true, beq_iff_eq, ih, List.mem_cons]

theorem strContains_eq_false_iff (l : List String) (x : String) :
    l.contains x = false ↔ x ∉ l := by
  rw [← strContains_iff_mem]
  cases l.contains x <;> simp

/-- C8 (amended): a name receives the prepended sentinel declaration exactly
when it has a used-identifier occurrence, is not a declarator id, not
`$`-prefixed, not a built-in global, not in the context and not a constant —
function parameters are NOT in the declared set (see
`function_param_stubbed`); and the rewritten block of
`<s>$echo(missing);</s>` stubs exactly `missing`, which evaluation then
echoes as `<< Undefined: missing >>`. -/
theorem undefined_stub_classification :
    (∀ (contextNames constantNames : List String) (ast : Ast) (n : String),
      n ∈ stubbedNames contextNames constantNames ast
        ↔ (n ∈ usedIdents .top ast ∧ n ∉ declaredIdents .top ast
            ∧ jsStartsWith n "$" = false ∧ n ∉ builtInGlobals
            ∧ n ∉ contextNames ∧ n ∉ constantNames))
    ∧ stubbedNames [] [] astEchoMissing = ["missing"] := by
  constructor
  · intro contextNames constantNames ast n
    have hu := fun m => ((walk_mem.1 .top ast ⟨[], [], []⟩) m).1
    have hd := fun m => ((walk_mem.1 .top ast ⟨[], [], []⟩) m).2
    simp only [List.not_mem_nil, false_or] at hu hd
    unfold stubbedNames
    simp only [List.mem_filter, Bool.and_eq_true, strContains_eq_false_iff,
      Bool.not_eq_true', foldl_setAdd_mem, hu, hd]
    constructor
    · rintro ⟨⟨hused, ⟨hnd1, hb⟩, hc⟩, hk⟩
      refine ⟨hused, fun h => hnd1 (Or.inl h), ?_, hb, hc, hk⟩
      by_contra hdol
      simp only [Bool.not_eq_false] at hdol
      exact hnd1 (Or.inr ⟨hused, hdol⟩)
    · rintro ⟨hused, hnd, hdol, hb, hc, hk⟩
      refine ⟨⟨hused, ⟨?_, hb⟩, hc⟩, hk⟩
      rintro (hcon | ⟨-, hstart⟩)
      · exact hnd hcon
      · rw [hdol] at hstart
        exact Bool.false_ne_true hstart
  · decide

/-- Counterexample to C8 as stated: in `function f(x) \x7b return x; \x7d`
the parameter `x` is NOT classified as declared — the walk collects only
declarator ids — so it receives a sentinel stub, which the claim says a
function parameter must never do. -/
theorem function_param_stubbed :
    "x" ∈ topLevelFnParamNames astFnParam
    ∧ "x" ∈ stubbedNames [] [] astFnParam := by
  refine ⟨by decide, ?_⟩
  show "x" ∈ stubbedNames [] [] astFnParam
  decide

/-- C3: the capture-mode rewrite fires for a `$.include` call that is a
declarator initializer (`(27, 27, ", true")` is pushed, producing
`var p = $.include(…, true);`), but NOT for one on the right-hand side of an
assignment: the walk reads `node.init`, which an `AssignmentExpression` does
not have, so `p = $.include(…);` is rewritten without the trailing `true` —
only the undefined-variable stub for `p` is added. -/
theorem include_capture_assignment_dead_branch :
    ((walkAndReplaceParts [] [] astIncludeAssign []).all
        (fun t => t.2.2 != ", true") = true)
    ∧ walkAndReplaceScriptParts [] []
        ("p = $.include(\x27partial\x27);".toList) astIncludeAssign []
      = ("var p = \x60<< Undefined: p >>\x60;\np = $.include(\x27partial\x27);".toList)
    ∧ (27, 27, ", true") ∈ walkAndReplaceParts [] [] astIncludeDecl []
    ∧ walkAndReplaceScriptParts [] []
        ("let p = $.include(\x27partial\x27);".toList) astIncludeDecl []
      = ("var p = $.include(\x27partial\x27, true);".toList) := by
  refine ⟨by decide, by decide, by decide, by decide⟩

/-- C4: removing the currently-yielded node breaks the iterator.  On
`root → [A("a") → [X], B]` (ids 1, 2, 3), yielding A and calling
`A.remove()` makes the run yield `[A, A, X]`: A is yielded a second time,
the iterator then descends into X — a descendant of the removed node — and
B, the removed node's next sibling, is never visited.  (The `wasRemoved`
flag is reset by `next()` before it is consulted, so the removal branch is
dead, contradicting the iterator's own documentation and the claim.) -/
theorem iterator_removal_bug :
    iterRunRemoveFirst heapC4 0 10 = [1, 1, 2]
    ∧ (3 : Nat) ∉ iterRunRemoveFirst heapC4 0 10
    ∧ (2 : Nat) ∈ iterRunRemoveFirst heapC4 0 10
    ∧ (getNode heapC4 0).children = [1, 3]
    ∧ (getNode heapC4 2).parent = some 1 := by
  refine ⟨by decide, by decide, by decide, by decide, by decide⟩

theorem isPrefixOf_append_self (p r : List Char) : p.isPrefixOf (p ++ r) = true := by
  induction p with
  | nil => simp [List.isPrefixOf]
  | cons a t ih => simp [List.isPrefixOf, ih]

theorem isPrefixOf_cons_false (a b : Char) (p l : List Char) (h : ¬ a = b) :
    (a :: p).isPrefixOf (b :: l) = false := by
  simp [List.isPrefixOf, h]

theorem char_ofNat_digit (m : Nat) (h : m < 10) :
    (Char.ofNat (48 + m)).toNat = 48 + m ∧ (Char.ofNat (48 + m)).isDigit = true := by
  interval_cases m <;> exact ⟨by decide, by decide⟩

theorem isDigit_char_ne (c d : Char) (h : c.isDigit = true) (hd : d.isDigit = false) :
    ¬ c = d := by
  intro he
  subst he
  rw [h] at hd
  exact Bool.noConfusion hd

theorem decToNat_append_digit (ds : List Char) (c : Char) :
    decToNat (ds ++ [c]) = decToNat ds * 10 + (c.toNat - 48) := by
  simp [decToNat, List.foldl_append]

theorem natToDecAux_spec :
    ∀ (fuel n : Nat), n < fuel →
      decToNat (natToDecAux fuel n) = n
      ∧ (∀ c ∈ natToDecAux fuel n, c.isDigit = true)
      ∧ (natToDecAux fuel n = [] ↔ n = 0) := by
  intro fuel
  induction fuel with
  | zero => intro n h; exact absurd h (Nat.not_lt_zero n)
  | succ f ih =>
    intro n h
    by_cases h0 : n = 0
    · subst h0
      simp [natToDecAux, decToNat]
    · have hdiv : n / 10 < f := by
        have h1 : n / 10 < n := Nat.div_lt_self (Nat.pos_of_ne_zero h0) (by norm_num)
        omega
      obtain ⟨ih1, ih2, ih3⟩ := ih (n / 10) hdiv
      have hm : n % 10 < 10 := Nat.mod_lt _ (by norm_num)
      obtain ⟨hc1, hc2⟩ := char_ofNat_digit (n % 10) hm
      refine ⟨?_, ?_, ?_⟩
      · rw [natToDecAux, if_neg h0, decToNat_append_digit, ih1, hc1]
        omega
      · intro c hc
        rw [natToDecAux, if_neg h0] at hc
        rcases List.mem_append.mp hc with hx | hx
        · exact ih2 c hx
        · rw [List.mem_singleton] at hx
          subst hx
          exact hc2
      · rw [natToDecAux, if_neg h0]
        simp [h0]

theorem natToDec_spec (n : Nat) :
    decToNat (natToDec n) = n
    ∧ (∀ c ∈ natToDec n, c.isDigit = true)
    ∧ natToDec n ≠ [] := by
  by_cases h0 : n = 0
  · subst h0
    refine ⟨by decide, ?_, by decide⟩
    intro c hc
    rw [natToDec] at hc
    simp at hc
    subst hc
    decide
  · obtain ⟨h1, h2, h3⟩ := natToDecAux_spec (n + 1) n (Nat.lt_succ_self n)
    rw [natToDec, if_neg h0]
    exact ⟨h1, h2, fun he => h0 (h3.mp he)⟩

theorem takeWhile_digits_append (ds rest : List Char)
    (hds : ∀ c ∈ ds, c.isDigit = true) (hr : headNotDigit rest = true) :
    (ds ++ rest).takeWhile (fun c => c.isDigit) = ds
    ∧ (ds ++ rest).dropWhile (fun c => c.isDigit) = rest := by
  induction ds with
  | nil =>
    simp only [List.nil_append]
    cases rest with
    | nil => exact ⟨rfl, rfl⟩
    | cons c t =>
      unfold headNotDigit at hr
      simp only [List.head?_cons, Bool.not_eq_true'] at hr
      simp [List.takeWhile_cons, List.dropWhile_cons, hr]
  | cons d t ih =>
    have hd := hds d (List.mem_cons_self d t)
    obtain ⟨ih1, ih2⟩ := ih (fun c hc => hds c (List.mem_cons_of_mem d hc))
    simp [List.takeWhile_cons, List.dropWhile_cons, hd, ih1, ih2]

theorem parseIntDec_roundtrip (n : Int) (rest : List Char)
    (hr : headNotDigit rest = true) :
    parseIntDec (intToDec n ++ rest) = some (n, rest) := by
  obtain ⟨h1, h2, h3⟩ := natToDec_spec n.natAbs
  obtain ⟨tw, dw⟩ := takeWhile_digits_append (natToDec n.natAbs) rest h2 hr
  have hne : (natToDec n.natAbs).isEmpty = false := by
    cases hx : natToDec n.natAbs with
    | nil => exact absurd hx h3
    | cons a b => rfl
  by_cases hneg : n < 0
  · rw [intToDec, if_pos hneg]
    rw [show parseIntDec ('-' :: natToDec n.natAbs ++ rest)
        = (if ((natToDec n.natAbs ++ rest).takeWhile (fun c => c.isDigit)).isEmpty = true
            then none
            else some (-(decToNat ((natToDec n.natAbs ++ rest).takeWhile (fun c => c.isDigit)) : Int),
              (natToDec n.natAbs ++ rest).dropWhile (fun c => c.isDigit))) from rfl]
    rw [tw, dw, hne, if_neg (by decide), h1]
    have : -(n.natAbs : Int) = n := by omega
    rw [this]
  · rw [intToDec, if_neg hneg]
    have hhead : ((natToDec n.natAbs ++ rest).head? = some '-') = False := by
      cases hx : natToDec n.natAbs with
      | nil => exact absurd hx h3
      | cons a b =>
        have ha : a.isDigit = true := h2 a (by rw [hx]; exact List.mem_cons_self a b)
        simp only [List.cons_append, List.head?_cons, Option.some.injEq, eq_iff_iff,
          iff_false]
        exact isDigit_char_ne a '-' ha (by decide)
    rw [show parseIntDec (natToDec n.natAbs ++ rest)
        = (if (natToDec n.natAbs ++ rest).head? = some '-' then
            (if (((natToDec n.natAbs ++ rest).tail.takeWhile (fun c => c.isDigit)).isEmpty = true)
              then none
              else some (-(decToNat ((natToDec n.natAbs ++ rest).tail.takeWhile (fun c => c.isDigit)) : Int),
                (natToDec n.natAbs ++ rest).tail.dropWhile (fun c => c.isDigit)))
           else
            (if ((natToDec n.natAbs ++ rest).takeWhile (fun c => c.isDigit)).isEmpty = true
              then none
              else some ((decToNat ((natToDec n.natAbs ++ rest).takeWhile (fun c => c.isDigit)) : Int),
                (natToDec n.natAbs ++ rest).dropWhile (fun c => c.isDigit)))) from rfl]
    rw [if_neg (by rw [hhead]; exact id)]
    rw [tw, dw, hne, if_neg (by decide), h1]
    have : ((n.natAbs : Int)) = n := by omega
    rw [this]

theorem escTemplate_cons_of_ne (c : Char) (X : List Char) (h : ¬ c = '$') :
    escTemplate (c :: X) = c :: escTemplate X := by
  cases X with
  | nil => rfl
  | cons d t =>
    rw [escTemplate, if_neg (by intro hh; exact h hh.1)]

theorem escTemplate_dollar_of_head_ne (X : List Char) (h : X.head? ≠ some '\x7b') :
    escTemplate ('$' :: X) = '$' :: escTemplate X := by
  cases X with
  | nil => rfl
  | cons d t =>
    rw [escTemplate, if_neg (by
      intro hh
      exact h (by rw [List.head?_cons, hh.2]))]

theorem escBacktick_cons_of_ne (c : Char) (t : List Char) (h : ¬ c = '\x60') :
    escBacktick (c :: t) = c :: escBacktick t := by
  rw [escBacktick, if_neg h]

theorem escE_append_head_ne_brace (t rest : List Char) (h : t.head? ≠ some '\x7b') :
    ((escTemplate (escBacktick t)) ++ '\x60' :: rest).head? ≠ some '\x7b' := by
  cases t with
  | nil => simp [escBacktick, escTemplate]
  | cons c t2 =>
    by_cases hbt : c = '\x60'
    · subst hbt
      rw [show escBacktick ('\x60' :: t2) = '\\' :: '\x60' :: escBacktick t2 from by
        rw [escBacktick, if_pos rfl]]
      rw [escTemplate_cons_of_ne '\\' _ (by decide)]
      simp
    · rw [escBacktick_cons_of_ne c t2 hbt]
      rw [List.head?_cons] at h
      by_cases hdl : c = '$'
      · subst hdl
        cases hx : (escBacktick t2).head? with
        | none =>
          rw [List.head?_eq_none_iff] at hx
          rw [hx]
          simp [escTemplate]
        | some d =>
          by_cases hd : d = '\x7b'
          · subst hd
            obtain ⟨b, hb⟩ : ∃ b, escBacktick t2 = '\x7b' :: b := by
              cases hy : escBacktick t2 with
              | nil => rw [hy] at hx; simp at hx
              | cons a b =>
                rw [hy, List.head?_cons] at hx
                exact ⟨b, by rw [Option.some.injEq] at hx; rw [hx]⟩
            rw [hb, escTemplate]
            simp
          · have heq : escTemplate ('$' :: escBacktick t2) = '$' :: escTemplate (escBacktick t2) := by
              refine escTemplate_dollar_of_head_ne _ ?_
              rw [hx]
              intro hh
              rw [Option.some.injEq] at hh
              exact hd hh
            rw [heq]
            simp
      · rw [escTemplate_cons_of_ne c _ hdl]
        simp only [List.cons_append, List.head?_cons, ne_eq, Option.some.injEq]
        intro hh
        exact h (by rw [hh])

theorem unescapeChar_backtick : unescapeChar '\x60' = '\x60' := by decide

theorem unescapeChar_dollar : unescapeChar '$' = '$' := by decide

theorem parseTemplateBody_close (f : Nat) (rest : List Char) :
    parseTemplateBody (f + 1) ('\x60' :: rest) = some ([], rest) := by
  simp [parseTemplateBody]

theorem parseTemplateBody_esc (f : Nat) (e : Char) (r2 : List Char) :
    parseTemplateBody (f + 1) ('\\' :: e :: r2)
      = (parseTemplateBody f r2).map (fun p => (unescapeChar e :: p.1, p.2)) := by
  simp [parseTemplateBody]

theorem parseTemplateBody_raw (f : Nat) (c : Char) (r : List Char) (h1 : ¬ c = '\x60')
    (h2 : ¬ c = '\\') (h3 : ¬ c = '\r') (h4 : ¬ (c = '$' ∧ r.head? = some '\x7b')) :
    parseTemplateBody (f + 1) (c :: r)
      = (parseTemplateBody f r).map (fun p => (c :: p.1, p.2)) := by
  simp only [parseTemplateBody]
  rw [if_neg h1, if_neg h2, if_neg h3, if_neg h4]

theorem parseTemplateBody_roundtrip :
    ∀ (k : Nat) (s : List Char) (fuel : Nat) (rest : List Char),
      s.length ≤ k →
      (∀ c ∈ s, (¬ c = '\\') ∧ (¬ c = '\r')) →
      s.length + 1 ≤ fuel →
      parseTemplateBody fuel (escTemplate (escBacktick s) ++ '\x60' :: rest)
        = some (s, rest) := by
  intro k
  induction k with
  | zero =>
    intro s fuel rest hk hg hf
    have hs : s = [] := List.length_eq_zero.mp (Nat.le_zero.mp hk)
    subst hs
    match fuel, hf with
    | f + 1, _ => simp [escBacktick, escTemplate, parseTemplateBody]
  | succ k ih =>
    intro s fuel rest hk hg hf
    match s with
    | [] =>
      match fuel, hf with
      | f + 1, _ => simp [escBacktick, escTemplate, parseTemplateBody]
    | c :: t =>
      obtain ⟨hc1, hc2⟩ := hg c (List.mem_cons_self c t)
      have hgt : ∀ x ∈ t, (¬ x = '\\') ∧ (¬ x = '\r') :=
        fun x hx => hg x (List.mem_cons_of_mem c hx)
      match fuel, hf with
      | f + 1, hf =>
        have hlen : t.length + 1 ≤ f := by
          rw [List.length_cons] at hf
          omega
        have hk2 : t.length ≤ k := by
          rw [List.length_cons] at hk
          omega
        by_cases hbt : c = '\x60'
        · subst hbt
          rw [show escBacktick ('\x60' :: t) = '\\' :: '\x60' :: escBacktick t from by
            rw [escBacktick, if_pos rfl]]
          rw [escTemplate_cons_of_ne '\\' _ (by decide)]
          rw [escTemplate_cons_of_ne '\x60' _ (by decide)]
          rw [show ('\\' :: '\x60' :: escTemplate (escBacktick t) ++ '\x60' :: rest)
              = '\\' :: '\x60' :: (escTemplate (escBacktick t) ++ '\x60' :: rest) from rfl]
          rw [parseTemplateBody_esc]
          rw [ih t f rest hk2 hgt hlen]
          rw [unescapeChar_backtick]
          rfl
        · by_cases hdl : c = '$'
          · subst hdl
            cases t with
            | nil =>
              rw [show escBacktick ['$'] = ['$'] from rfl,
                show escTemplate ['$'] = ['$'] from rfl]
              rw [show ((['$'] : List Char) ++ '\x60' :: rest) = '$' :: '\x60' :: rest from rfl]
              rw [parseTemplateBody_raw f '$' ('\x60' :: rest) (by decide) (by decide) (by decide)
                (by intro hh; rw [List.head?_cons] at hh; exact absurd hh.2 (by decide))]
              match f, hlen with
              | f2 + 1, _ =>
                rw [parseTemplateBody_close]
                rfl
            | cons d t2 =>
              by_cases hbr : d = '\x7b'
              · subst hbr
                have hgt2 : ∀ x ∈ t2, (¬ x = '\\') ∧ (¬ x = '\r') :=
                  fun x hx => hgt x (List.mem_cons_of_mem _ hx)
                rw [show escBacktick ('$' :: '\x7b' :: t2) = '$' :: '\x7b' :: escBacktick t2 from by
                  rw [escBacktick_cons_of_ne '$' _ (by decide),
                    escBacktick_cons_of_ne '\x7b' _ (by decide)]]
                rw [show escTemplate ('$' :: '\x7b' :: escBacktick t2)
                    = '\\' :: '$' :: '\x7b' :: escTemplate (escBacktick t2) from by
                  rw [escTemplate, if_pos ⟨rfl, rfl⟩]]
                rw [show ('\\' :: '$' :: '\x7b' :: escTemplate (escBacktick t2) ++ '\x60' :: rest)
                    = '\\' :: '$' :: ('\x7b' :: (escTemplate (escBacktick t2) ++ '\x60' :: rest))
                    from rfl]
                rw [parseTemplateBody_esc]
                match f, hlen with
                | f2 + 1, hlen =>
                  rw [parseTemplateBody_raw f2 '\x7b'
                    (escTemplate (escBacktick t2) ++ '\x60' :: rest) (by decide) (by decide)
                    (by decide) (by intro hh; exact absurd hh.1 (by decide))]
                  have hk3 : t2.length ≤ k := by
                    rw [List.length_cons, List.length_cons] at hk
                    omega
                  have hlen3 : t2.length + 1 ≤ f2 := by
                    rw [List.length_cons] at hlen
                    omega
                  rw [ih t2 f2 rest hk3 hgt2 hlen3]
                  rw [unescapeChar_dollar]
                  rfl
              · rw [escBacktick_cons_of_ne '$' _ (by decide)]
                have hE : escTemplate ('$' :: escBacktick (d :: t2))
                    = '$' :: escTemplate (escBacktick (d :: t2)) := by
                  refine escTemplate_dollar_of_head_ne _ ?_
                  by_cases hdbt : d = '\x60'
                  · subst hdbt
                    rw [show escBacktick ('\x60' :: t2) = '\\' :: '\x60' :: escBacktick t2 from by
                      rw [escBacktick, if_pos rfl]]
                    simp
                  · rw [escBacktick_cons_of_ne d _ hdbt]
                    rw [List.head?_cons]
                    intro hh
                    rw [Option.some.injEq] at hh
                    exact hbr hh
                rw [hE]
                have hhead := escE_append_head_ne_brace (d :: t2) rest (by
                  rw [List.head?_cons]
                  intro hh
                  rw [Option.some.injEq] at hh
                  exact hbr hh)
                rw [show ('$' :: escTemplate (escBacktick (d :: t2)) ++ '\x60' :: rest)
                    = '$' :: (escTemplate (escBacktick (d :: t2)) ++ '\x60' :: rest) from rfl]
                rw [parseTemplateBody_raw f '$'
                  (escTemplate (escBacktick (d :: t2)) ++ '\x60' :: rest) (by decide) (by decide)
                  (by decide) (by intro hh; exact hhead hh.2)]
                rw [ih (d :: t2) f rest hk2 hgt hlen]
                rfl
          · have hbE : escBacktick (c :: t) = c :: escBacktick t :=
              escBacktick_cons_of_ne c t hbt
            rw [hbE, escTemplate_cons_of_ne c _ hdl]
            rw [show (c :: escTemplate (escBacktick t) ++ '\x60' :: rest)
                = c :: (escTemplate (escBacktick t) ++ '\x60' :: rest) from rfl]
            rw [parseTemplateBody_raw f c (escTemplate (escBacktick t) ++ '\x60' :: rest)
              hbt hc1 hc2 (by intro hh; exact hdl hh.1)]
            rw [ih t f rest hk2 hgt hlen]
            rfl

theorem jsonEscChar_id (c : Char) (h1 : ¬ c = '"') (h2 : ¬ c = '\\') (h3 : 31 < c.toNat) :
    jsonEscChar c = [c] := by
  rw [jsonEscChar, if_neg h1, if_neg h2,
    if_neg (by intro hc; rw [hc] at h3; exact absurd h3 (by decide)),
    if_neg (by intro hc; rw [hc] at h3; exact absurd h3 (by decide)),
    if_neg (by intro hc; rw [hc] at h3; exact absurd h3 (by decide)),
    if_neg (by intro hc; rw [hc] at h3; exact absurd h3 (by decide)),
    if_neg (by intro hc; rw [hc] at h3; exact absurd h3 (by decide))]

theorem parseKeyBody_roundtrip :
    ∀ (s rest : List Char),
      (∀ c ∈ s, (¬ c = '"') ∧ (¬ c = '\\') ∧ 31 < c.toNat) →
      parseKeyBody (jsonEscStr s ++ '"' :: rest) = some (s, rest) := by
  intro s
  induction s with
  | nil =>
    intro rest hg
    rw [show jsonEscStr [] = [] from rfl, List.nil_append]
    rw [parseKeyBody.eq_def]
    simp
  | cons c t ih =>
    intro rest hg
    obtain ⟨h1, h2, h3⟩ := hg c (List.mem_cons_self c t)
    have hgt : ∀ x ∈ t, (¬ x = '"') ∧ (¬ x = '\\') ∧ 31 < x.toNat :=
      fun x hx => hg x (List.mem_cons_of_mem c hx)
    rw [jsonEscStr, jsonEscChar_id c h1 h2 h3]
    rw [show (([c] ++ jsonEscStr t) ++ '"' :: rest) = c :: (jsonEscStr t ++ '"' :: rest) from by
      simp]
    rw [show parseKeyBody (c :: (jsonEscStr t ++ '"' :: rest))
        = (parseKeyBody (jsonEscStr t ++ '"' :: rest)).map (fun p => (c :: p.1, p.2)) from by
      rw [parseKeyBody.eq_def]
      simp only
      rw [if_neg h1, if_neg h2]]
    rw [ih rest hgt]
    rfl

theorem parseKey_roundtrip (k rest : List Char)
    (hg : ∀ c ∈ k, (¬ c = '"') ∧ (¬ c = '\\') ∧ 31 < c.toNat) :
    parseKey (jsonQuote k ++ rest) = some (k, rest) := by
  rw [jsonQuote]
  rw [show (('"' :: jsonEscStr k ++ ['"']) ++ rest) = '"' :: (jsonEscStr k ++ '"' :: rest) from by
    simp]
  rw [show parseKey ('"' :: (jsonEscStr k ++ '"' :: rest))
      = parseKeyBody (jsonEscStr k ++ '"' :: rest) from by
    rw [parseKey.eq_def]
    simp]
  exact parseKeyBody_roundtrip k rest hg

theorem intToDec_head (n : Int) :
    ∃ c X, intToDec n = c :: X ∧ (c = '-' ∨ c.isDigit = true) := by
  obtain ⟨-, h2, h3⟩ := natToDec_spec n.natAbs
  by_cases hneg : n < 0
  · exact ⟨'-', natToDec n.natAbs, by rw [intToDec, if_pos hneg], Or.inl rfl⟩
  · cases hx : natToDec n.natAbs with
    | nil => exact absurd hx h3
    | cons a b =>
      refine ⟨a, b, by rw [intToDec, if_neg hneg, hx], Or.inr ?_⟩
      exact h2 a (by rw [hx]; exact List.mem_cons_self a b)

theorem serializeValue_head (v : Value) :
    ∃ hd tl, serializeValue v = hd :: tl ∧ ¬ hd = ']' ∧ ¬ hd = '\x7d' := by
  cases v with
  | vNull => exact ⟨'n', _, rfl, by decide, by decide⟩
  | vUndefined => exact ⟨'u', _, rfl, by decide, by decide⟩
  | vStr s => exact ⟨'\x60', _, rfl, by decide, by decide⟩
  | vInt n =>
    obtain ⟨c, X, hx, hc⟩ := intToDec_head n
    refine ⟨c, X, by rw [serializeValue, hx], ?_, ?_⟩
    · rcases hc with hc | hc
      · rw [hc]; decide
      · exact isDigit_char_ne c ']' hc (by decide)
    · rcases hc with hc | hc
      · rw [hc]; decide
      · exact isDigit_char_ne c '\x7d' hc (by decide)
  | vBool b =>
    cases b with
    | true => exact ⟨'t', _, by rw [serializeValue]; rfl, by decide, by decide⟩
    | false => exact ⟨'f', _, by rw [serializeValue]; rfl, by decide, by decide⟩
  | vDate ms => exact ⟨'n', _, rfl, by decide, by decide⟩
  | vArr elems => exact ⟨'[', _, rfl, by decide, by decide⟩
  | vObj fields => exact ⟨'\x7b', _, rfl, by decide, by decide⟩

theorem parseValue_succ (f : Nat) (l : List Char) :
    parseValue (f + 1) l
      = (if ['n', 'u', 'l', 'l'].isPrefixOf l then some (.vNull, l.drop 4)
          else if ['u', 'n', 'd', 'e', 'f', 'i', 'n', 'e', 'd'].isPrefixOf l then
            some (.vUndefined, l.drop 9)
          else if ['t', 'r', 'u', 'e'].isPrefixOf l then some (.vBool true, l.drop 4)
          else if ['f', 'a', 'l', 's', 'e'].isPrefixOf l then some (.vBool false, l.drop 5)
          else if ['n', 'e', 'w', ' ', 'D', 'a', 't', 'e', '('].isPrefixOf l then
            match parseIntDec (l.drop 9) with
            | none => none
            | some (n, r) =>
              if r.head? = some ')' then some (.vDate n, r.tail) else none
          else
            match l with
            | [] => none
            | c :: rest =>
              if c = '\x60' then
                (parseTemplateBody f rest).map (fun p => (.vStr p.1, p.2))
              else if c = '[' then
                if rest.head? = some ']' then some (.vArr [], rest.tail)
                else (parseElems f rest).map (fun p => (.vArr p.1, p.2))
              else if c = '\x7b' then
                if rest.head? = some '\x7d' then some (.vObj [], rest.tail)
                else (parseFields f rest).map (fun p => (.vObj p.1, p.2))
              else
                (parseIntDec (c :: rest)).map (fun p => (.vInt p.1, p.2))) := rfl

theorem parseValue_null (f : Nat) (rest : List Char) :
    parseValue (f + 1) ('n' :: 'u' :: 'l' :: 'l' :: rest) = some (.vNull, rest) := by
  rw [parseValue_succ]
  simp [List.isPrefixOf]

theorem parseValue_undefined (f : Nat) (rest : List Char) :
    parseValue (f + 1) ('u' :: 'n' :: 'd' :: 'e' :: 'f' :: 'i' :: 'n' :: 'e' :: 'd' :: rest)
      = some (.vUndefined, rest) := by
  rw [parseValue_succ]
  simp [List.isPrefixOf]

theorem parseValue_true (f : Nat) (rest : List Char) :
    parseValue (f + 1) ('t' :: 'r' :: 'u' :: 'e' :: rest) = some (.vBool true, rest) := by
  rw [parseValue_succ]
  simp [List.isPrefixOf]

theorem parseValue_false (f : Nat) (rest : List Char) :
    parseValue (f + 1) ('f' :: 'a' :: 'l' :: 's' :: 'e' :: rest) = some (.vBool false, rest) := by
  rw [parseValue_succ]
  simp [List.isPrefixOf]

theorem parseValue_date (f : Nat) (X : List Char) :
    parseValue (f + 1) ('n' :: 'e' :: 'w' :: ' ' :: 'D' :: 'a' :: 't' :: 'e' :: '(' :: X)
      = (match parseIntDec X with
          | none => none
          | some (n, r) =>
            if r.head? = some ')' then some (.vDate n, r.tail) else none) := by
  rw [parseValue_succ]
  simp [List.isPrefixOf]

theorem parseValue_str (f : Nat) (X : List Char) :
    parseValue (f + 1) ('\x60' :: X)
      = (parseTemplateBody f X).map (fun p => (.vStr p.1, p.2)) := by
  rw [parseValue_succ]
  simp [List.isPrefixOf]

theorem parseValue_arr (f : Nat) (X : List Char) :
    parseValue (f + 1) ('[' :: X)
      = (if X.head? = some ']' then some (.vArr [], X.tail)
          else (parseElems f X).map (fun p => (.vArr p.1, p.2))) := by
  rw [parseValue_succ]
  simp [List.isPrefixOf]

theorem parseValue_obj (f : Nat) (X : List Char) :
    parseValue (f + 1) ('\x7b' :: X)
      = (if X.head? = some '\x7d' then some (.vObj [], X.tail)
          else (parseFields f X).map (fun p => (.vObj p.1, p.2))) := by
  rw [parseValue_succ]
  simp [List.isPrefixOf]

theorem parseValue_num (f : Nat) (c : Char) (X : List Char)
    (hn : ¬ c = 'n') (hu : ¬ c = 'u') (ht : ¬ c = 't') (hf : ¬ c = 'f')
    (hb : ¬ c = '\x60') (ha : ¬ c = '[') (ho : ¬ c = '\x7b') :
    parseValue (f + 1) (c :: X)
      = (parseIntDec (c :: X)).map (fun p => (.vInt p.1, p.2)) := by
  rw [parseValue_succ]
  simp only [List.isPrefixOf, Bool.and_eq_true, beq_iff_eq]
  rw [if_neg (by intro hh; exact hn hh.1.symm), if_neg (by intro hh; exact hu hh.1.symm),
    if_neg (by intro hh; exact ht hh.1.symm), if_neg (by intro hh; exact hf hh.1.symm),
    if_neg (by intro hh; exact hn hh.1.symm)]
  rw [if_neg hb, if_neg ha, if_neg ho]

theorem parseElems_step (f : Nat) (l : List Char) :
    parseElems (f + 1) l
      = (match parseValue f l with
          | none => none
          | some (v, r) =>
            if r.head? = some ']' then some ([v], r.tail)
            else if r.head? = some ',' ∧ r.tail.head? = some ' ' then
              (parseElems f r.tail.tail).map (fun p => (v :: p.1, p.2))
            else none) := rfl

theorem parseFields_step (f : Nat) (l : List Char) :
    parseFields (f + 1) l
      = (match parseKey l with
          | none => none
          | some (k, r) =>
            if r.head? = some ':' ∧ r.tail.head? = some ' ' then
              match parseValue f r.tail.tail with
              | none => none
              | some (v, r2) =>
                if r2.head? = some '\x7d' then some ([(k, v)], r2.tail)
                else if r2.head? = some ',' ∧ r2.tail.head? = some ' ' then
                  (parseFields f r2.tail.tail).map (fun p => ((k, v) :: p.1, p.2))
                else none
            else none) := rfl

theorem parseElems_step_some (f : Nat) (l : List Char) (v : Value) (r : List Char)
    (h : parseValue f l = some (v, r)) :
    parseElems (f + 1) l
      = (if r.head? = some ']' then some ([v], r.tail)
          else if r.head? = some ',' ∧ r.tail.head? = some ' ' then
            (parseElems f r.tail.tail).map (fun p => (v :: p.1, p.2))
          else none) := by
  rw [parseElems_step, h]

theorem parseFields_step_some (f : Nat) (l : List Char) (k : List Char) (r : List Char)
    (v : Value) (r2 : List Char)
    (hk : parseKey l = some (k, r))
    (hc : r.head? = some ':' ∧ r.tail.head? = some ' ')
    (hv : parseValue f r.tail.tail = some (v, r2)) :
    parseFields (f + 1) l
      = (if r2.head? = some '\x7d' then some ([(k, v)], r2.tail)
          else if r2.head? = some ',' ∧ r2.tail.head? = some ' ' then
            (parseFields f r2.tail.tail).map (fun p => ((k, v) :: p.1, p.2))
          else none) := by
  rw [parseFields_step, hk]
  show (if r.head? = some ':' ∧ r.tail.head? = some ' ' then
      match parseValue f r.tail.tail with
      | none => none
      | some (w, q) =>
        if q.head? = some '\x7d' then some ([(k, w)], q.tail)
        else if q.head? = some ',' ∧ q.tail.head? = some ' ' then
          (parseFields f q.tail.tail).map (fun p => ((k, w) :: p.1, p.2))
        else none
      else none)
    = (if r2.head? = some '\x7d' then some ([(k, v)], r2.tail)
        else if r2.head? = some ',' ∧ r2.tail.head? = some ' ' then
          (parseFields f r2.tail.tail).map (fun p => ((k, v) :: p.1, p.2))
        else none)
  rw [if_pos hc, hv]

theorem headNotDigit_cons (c : Char) (r : List Char) :
    headNotDigit (c :: r) = !c.isDigit := rfl

theorem joinCommaSep_serializeList_head (v : Value) (t : List Value) :
    ∃ hd tl, joinCommaSep (serializeList (v :: t)) = hd :: tl
      ∧ ¬ hd = ']' ∧ ¬ hd = '\x7d' := by
  obtain ⟨hd, tl, hv, h1, h2⟩ := serializeValue_head v
  cases t with
  | nil =>
    exact ⟨hd, tl, by rw [show serializeList [v] = [serializeValue v] from rfl,
      show joinCommaSep [serializeValue v] = serializeValue v from rfl, hv], h1, h2⟩
  | cons w t2 =>
    refine ⟨hd, tl ++ ',' :: ' ' :: joinCommaSep (serializeList (w :: t2)), ?_, h1, h2⟩
    rw [show serializeList (v :: w :: t2) = serializeValue v :: serializeList (w :: t2) from rfl]
    rw [show serializeList (w :: t2) = serializeValue w :: serializeList t2 from rfl]
    rw [show joinCommaSep (serializeValue v :: serializeValue w :: serializeList t2)
        = serializeValue v ++ ',' :: ' ' :: joinCommaSep (serializeValue w :: serializeList t2)
        from rfl]
    rw [hv]
    rfl

theorem joinCommaSep_serializeFields_head (kv : List Char × Value)
    (t : List (List Char × Value)) :
    ∃ tl, joinCommaSep (serializeFields (kv :: t)) = '"' :: tl := by
  obtain ⟨k, v⟩ := kv
  cases t with
  | nil =>
    refine ⟨jsonEscStr k ++ '"' :: ':' :: ' ' :: serializeValue v, ?_⟩
    rw [show serializeFields [(k, v)] = [jsonQuote k ++ ':' :: ' ' :: serializeValue v] from rfl]
    rw [show joinCommaSep [jsonQuote k ++ ':' :: ' ' :: serializeValue v]
        = jsonQuote k ++ ':' :: ' ' :: serializeValue v from rfl]
    rw [jsonQuote]
    simp
  | cons kw t2 =>
    refine ⟨jsonEscStr k ++ '"' :: ':' :: ' ' :: serializeValue v
      ++ ',' :: ' ' :: joinCommaSep (serializeFields (kw :: t2)), ?_⟩
    rw [show serializeFields ((k, v) :: kw :: t2)
        = (jsonQuote k ++ ':' :: ' ' :: serializeValue v) :: serializeFields (kw :: t2) from rfl]
    obtain ⟨kw2, v2⟩ := kw
    rw [show serializeFields ((kw2, v2) :: t2)
        = (jsonQuote kw2 ++ ':' :: ' ' :: serializeValue v2) :: serializeFields t2 from rfl]
    rw [show joinCommaSep ((jsonQuote k ++ ':' :: ' ' :: serializeValue v)
          :: (jsonQuote kw2 ++ ':' :: ' ' :: serializeValue v2) :: serializeFields t2)
        = (jsonQuote k ++ ':' :: ' ' :: serializeValue v)
          ++ ',' :: ' ' :: joinCommaSep ((jsonQuote kw2 ++ ':' :: ' ' :: serializeValue v2)
            :: serializeFields t2) from rfl]
    rw [jsonQuote]
    simp

theorem goodKey_chars (k : List Char) (hk : goodKey k = true) :
    ∀ c ∈ k, (¬ c = '"') ∧ (¬ c = '\\') ∧ 31 < c.toNat := by
  rw [goodKey, Bool.and_eq_true] at hk
  intro c hcm
  have h2 := List.all_eq_true.mp hk.2 c hcm
  simp only [Bool.and_eq_true, decide_eq_true_eq, bne_iff_ne, ne_eq] at h2
  exact ⟨h2.1.1, h2.1.2, h2.2⟩

theorem parse_serialize_aux :
    ∀ fuel : Nat,
      (∀ (v : Value) (rest : List Char), goodV v = true → sizeV v < fuel →
         headNotDigit rest = true →
         parseValue fuel (serializeValue v ++ rest) = some (v, rest)) ∧
      (∀ (elems : List Value) (rest : List Char), elems ≠ [] → goodVList elems = true →
         sizeVList elems < fuel →
         parseElems fuel (joinCommaSep (serializeList elems) ++ ']' :: rest)
           = some (elems, rest)) ∧
      (∀ (fields : List (List Char × Value)) (rest : List Char), fields ≠ [] →
         goodVFields fields = true → sizeVFields fields < fuel →
         parseFields fuel (joinCommaSep (serializeFields fields) ++ '\x7d' :: rest)
           = some (fields, rest)) := by
  intro fuel
  induction fuel with
  | zero =>
    refine ⟨fun v rest _ hs _ => absurd hs (by omega),
      fun elems rest _ _ hs => absurd hs (by omega),
      fun fields rest _ _ hs => absurd hs (by omega)⟩
  | succ f ih =>
    obtain ⟨ih1, ih2, ih3⟩ := ih
    refine ⟨?_, ?_, ?_⟩
    · intro v rest hg hs hr
      cases v with
      | vNull =>
        rw [show serializeValue .vNull ++ rest = 'n' :: 'u' :: 'l' :: 'l' :: rest from rfl]
        exact parseValue_null f rest
      | vUndefined =>
        rw [show serializeValue .vUndefined ++ rest
            = 'u' :: 'n' :: 'd' :: 'e' :: 'f' :: 'i' :: 'n' :: 'e' :: 'd' :: rest from rfl]
        exact parseValue_undefined f rest
      | vBool b =>
        cases b with
        | true =>
          rw [show serializeValue (.vBool true) ++ rest = 't' :: 'r' :: 'u' :: 'e' :: rest
            from rfl]
          exact parseValue_true f rest
        | false =>
          rw [show serializeValue (.vBool false) ++ rest
              = 'f' :: 'a' :: 'l' :: 's' :: 'e' :: rest from rfl]
          exact parseValue_false f rest
      | vInt n =>
        obtain ⟨c, X, hx, hc⟩ := intToDec_head n
        have hkw : ∀ d : Char, d.isDigit = false → ¬ d = '-' → ¬ c = d := by
          intro d hd hdneg he
          subst he
          rcases hc with hc | hc
          · exact hdneg hc
          · simp [hd] at hc
        rw [show serializeValue (.vInt n) = intToDec n from rfl, hx, List.cons_append]
        rw [parseValue_num f c (X ++ rest)
          (hkw 'n' (by decide) (by decide)) (hkw 'u' (by decide) (by decide))
          (hkw 't' (by decide) (by decide)) (hkw 'f' (by decide) (by decide))
          (hkw '\x60' (by decide) (by decide)) (hkw '[' (by decide) (by decide))
          (hkw '\x7b' (by decide) (by decide))]
        rw [show c :: (X ++ rest) = intToDec n ++ rest from by rw [hx, List.cons_append]]
        rw [parseIntDec_roundtrip n rest hr]
        rfl
      | vDate ms =>
        rw [show serializeValue (.vDate ms) ++ rest
            = 'n' :: 'e' :: 'w' :: ' ' :: 'D' :: 'a' :: 't' :: 'e' :: '('
              :: (intToDec ms ++ ')' :: rest) from by
          rw [show serializeValue (.vDate ms)
              = ['n', 'e', 'w', ' ', 'D', 'a', 't', 'e', '('] ++ intToDec ms ++ [')'] from rfl]
          simp]
        rw [parseValue_date]
        rw [parseIntDec_roundtrip ms (')' :: rest) (by rw [headNotDigit_cons]; decide)]
        simp
      | vStr s =>
        rw [show serializeValue (.vStr s) ++ rest
            = '\x60' :: (escTemplate (escBacktick s) ++ '\x60' :: rest) from by
          rw [show serializeValue (.vStr s)
              = '\x60' :: escTemplate (escBacktick s) ++ ['\x60'] from rfl]
          simp]
        rw [parseValue_str]
        have hga : s.all (fun c => c ≠ '\\' && c ≠ '\r') = true := hg
        have hg2 : ∀ c ∈ s, (¬ c = '\\') ∧ (¬ c = '\r') := by
          intro c hcm
          have h2 := List.all_eq_true.mp hga c hcm
          simp only [Bool.and_eq_true, bne_iff_ne, ne_eq, decide_eq_true_eq] at h2
          exact h2
        have hsz : s.length + 1 ≤ f := by
          have hs2 : 2 + s.length < f + 1 := by
            rw [show sizeV (.vStr s) = 2 + s.length from rfl] at hs
            exact hs
          omega
        rw [parseTemplateBody_roundtrip s.length s f rest le_rfl hg2 hsz]
        rfl
      | vArr elems =>
        cases elems with
        | nil =>
          rw [show serializeValue (.vArr []) ++ rest = '[' :: ']' :: rest from rfl]
          rw [parseValue_arr]
          simp
        | cons v t =>
          rw [show serializeValue (.vArr (v :: t)) ++ rest
              = '[' :: (joinCommaSep (serializeList (v :: t)) ++ ']' :: rest) from by
            rw [show serializeValue (.vArr (v :: t))
                = '[' :: joinCommaSep (serializeList (v :: t)) ++ [']'] from rfl]
            simp]
          rw [parseValue_arr]
          obtain ⟨hd, tl, hj, h1, h2⟩ := joinCommaSep_serializeList_head v t
          rw [if_neg (by
            rw [hj, List.cons_append, List.head?_cons]
            intro hh
            rw [Option.some.injEq] at hh
            exact h1 hh)]
          rw [ih2 (v :: t) rest (by simp)
            (show goodVList (v :: t) = true from hg)
            (by
              have hs2 : 1 + sizeVList (v :: t) < f + 1 := by
                rw [show sizeV (.vArr (v :: t)) = 1 + sizeVList (v :: t) from rfl] at hs
                exact hs
              omega)]
          rfl
      | vObj fields =>
        cases fields with
        | nil =>
          rw [show serializeValue (.vObj []) ++ rest = '\x7b' :: '\x7d' :: rest from rfl]
          rw [parseValue_obj]
          simp
        | cons kv t =>
          rw [show serializeValue (.vObj (kv :: t)) ++ rest
              = '\x7b' :: (joinCommaSep (serializeFields (kv :: t)) ++ '\x7d' :: rest) from by
            rw [show serializeValue (.vObj (kv :: t))
                = '\x7b' :: joinCommaSep (serializeFields (kv :: t)) ++ ['\x7d'] from rfl]
            simp]
          rw [parseValue_obj]
          obtain ⟨tl, hj⟩ := joinCommaSep_serializeFields_head kv t
          rw [if_neg (by
            rw [hj, List.cons_append, List.head?_cons]
            intro hh
            rw [Option.some.injEq] at hh
            exact absurd hh (by decide))]
          rw [ih3 (kv :: t) rest (by simp)
            (show goodVFields (kv :: t) = true from hg)
            (by
              have hs2 : 1 + sizeVFields (kv :: t) < f + 1 := by
                rw [show sizeV (.vObj (kv :: t)) = 1 + sizeVFields (kv :: t) from rfl] at hs
                exact hs
              omega)]
          rfl
    · intro elems rest hne hg hs
      cases elems with
      | nil => exact absurd rfl hne
      | cons v t =>
        have hgv : goodV v = true ∧ goodVList t = true := by
          have h2 : (goodV v && goodVList t) = true := hg
          simp only [Bool.and_eq_true] at h2
          exact h2
        have hsv : 1 + sizeV v + sizeVList t < f + 1 := by
          rw [show sizeVList (v :: t) = 1 + sizeV v + sizeVList t from rfl] at hs
          exact hs
        cases t with
        | nil =>
          rw [show joinCommaSep (serializeList [v]) ++ ']' :: rest
              = serializeValue v ++ ']' :: rest from by
            rw [show serializeList [v] = [serializeValue v] from rfl,
              show joinCommaSep [serializeValue v] = serializeValue v from rfl]]
          rw [parseElems_step_some f _ v (']' :: rest)
            (ih1 v (']' :: rest) hgv.1 (by omega) (by rw [headNotDigit_cons]; decide))]
          rw [if_pos (by rw [List.head?_cons])]
          rfl
        | cons w t2 =>
          rw [show joinCommaSep (serializeList (v :: w :: t2)) ++ ']' :: rest
              = serializeValue v
                ++ ',' :: ' ' :: (joinCommaSep (serializeList (w :: t2)) ++ ']' :: rest) from by
            rw [show serializeList (v :: w :: t2)
                = serializeValue v :: serializeList (w :: t2) from rfl]
            rw [show serializeList (w :: t2) = serializeValue w :: serializeList t2 from rfl]
            rw [show joinCommaSep (serializeValue v :: serializeValue w :: serializeList t2)
                = serializeValue v
                  ++ ',' :: ' ' :: joinCommaSep (serializeValue w :: serializeList t2) from rfl]
            simp]
          rw [parseElems_step_some f _ v
            (',' :: ' ' :: (joinCommaSep (serializeList (w :: t2)) ++ ']' :: rest))
            (ih1 v (',' :: ' ' :: (joinCommaSep (serializeList (w :: t2)) ++ ']' :: rest))
              hgv.1 (by omega) (by rw [headNotDigit_cons]; decide))]
          rw [if_neg (by simp)]
          rw [if_pos (by simp)]
          rw [show (',' :: ' ' :: (joinCommaSep (serializeList (w :: t2)) ++ ']' :: rest)).tail.tail
              = joinCommaSep (serializeList (w :: t2)) ++ ']' :: rest from rfl]
          rw [ih2 (w :: t2) rest (by simp) hgv.2 (by
            rw [show sizeVList (w :: t2) = 1 + sizeV w + sizeVList t2 from rfl]
            rw [show sizeVList (w :: t2) = 1 + sizeV w + sizeVList t2 from rfl] at hsv
            omega)]
          rfl
    · intro fields rest hne hg hs
      cases fields with
      | nil => exact absurd rfl hne
      | cons kv t =>
        obtain ⟨k, v⟩ := kv
        have hgv : goodKey k = true ∧ goodV v = true ∧ goodVFields t = true := by
          have : (goodKey k && goodV v && goodVFields t) = true := hg
          simp only [Bool.and_eq_true] at this
          exact ⟨this.1.1, this.1.2, this.2⟩
        have hsv : 1 + sizeV v + sizeVFields t < f + 1 := by
          rw [show sizeVFields ((k, v) :: t) = 1 + sizeV v + sizeVFields t from rfl] at hs
          exact hs
        cases t with
        | nil =>
          rw [show joinCommaSep (serializeFields [(k, v)]) ++ '\x7d' :: rest
              = jsonQuote k ++ ':' :: ' ' :: (serializeValue v ++ '\x7d' :: rest) from by
            rw [show serializeFields [(k, v)]
                = [jsonQuote k ++ ':' :: ' ' :: serializeValue v] from rfl]
            rw [show joinCommaSep [jsonQuote k ++ ':' :: ' ' :: serializeValue v]
                = jsonQuote k ++ ':' :: ' ' :: serializeValue v from rfl]
            simp]
          rw [parseFields_step_some f _ k
            (':' :: ' ' :: (serializeValue v ++ '\x7d' :: rest)) v ('\x7d' :: rest)
            (parseKey_roundtrip k (':' :: ' ' :: (serializeValue v ++ '\x7d' :: rest))
              (goodKey_chars k hgv.1))
            (by simp)
            (by
              rw [show (':' :: ' ' :: (serializeValue v ++ '\x7d' :: rest)).tail.tail
                  = serializeValue v ++ '\x7d' :: rest from rfl]
              exact ih1 v ('\x7d' :: rest) hgv.2.1 (by omega)
                (by rw [headNotDigit_cons]; decide))]
          rw [if_pos (by rw [List.head?_cons])]
          rfl
        | cons kw t2 =>
          obtain ⟨k2, v2⟩ := kw
          rw [show joinCommaSep (serializeFields ((k, v) :: (k2, v2) :: t2)) ++ '\x7d' :: rest
              = jsonQuote k ++ ':' :: ' ' :: (serializeValue v ++ ',' :: ' '
                :: (joinCommaSep (serializeFields ((k2, v2) :: t2)) ++ '\x7d' :: rest)) from by
            rw [show serializeFields ((k, v) :: (k2, v2) :: t2)
                = (jsonQuote k ++ ':' :: ' ' :: serializeValue v)
                  :: serializeFields ((k2, v2) :: t2) from rfl]
            rw [show serializeFields ((k2, v2) :: t2)
                = (jsonQuote k2 ++ ':' :: ' ' :: serializeValue v2) :: serializeFields t2 from rfl]
            rw [show joinCommaSep ((jsonQuote k ++ ':' :: ' ' :: serializeValue v)
                  :: (jsonQuote k2 ++ ':' :: ' ' :: serializeValue v2) :: serializeFields t2)
                = (jsonQuote k ++ ':' :: ' ' :: serializeValue v)
                  ++ ',' :: ' ' :: joinCommaSep ((jsonQuote k2 ++ ':' :: ' ' :: serializeValue v2)
                    :: serializeFields t2) from rfl]
            simp]
          rw [parseFields_step_some f _ k
            (':' :: ' ' :: (serializeValue v ++ ',' :: ' '
              :: (joinCommaSep (serializeFields ((k2, v2) :: t2)) ++ '\x7d' :: rest)))
            v (',' :: ' ' :: (joinCommaSep (serializeFields ((k2, v2) :: t2))
              ++ '\x7d' :: rest))
            (parseKey_roundtrip k (':' :: ' ' :: (serializeValue v ++ ',' :: ' '
              :: (joinCommaSep (serializeFields ((k2, v2) :: t2)) ++ '\x7d' :: rest)))
              (goodKey_chars k hgv.1))
            (by simp)
            (by
              rw [show (':' :: ' ' :: (serializeValue v ++ ',' :: ' '
                  :: (joinCommaSep (serializeFields ((k2, v2) :: t2))
                    ++ '\x7d' :: rest))).tail.tail
                  = serializeValue v ++ ',' :: ' '
                    :: (joinCommaSep (serializeFields ((k2, v2) :: t2)) ++ '\x7d' :: rest)
                  from rfl]
              exact ih1 v (',' :: ' ' :: (joinCommaSep (serializeFields ((k2, v2) :: t2))
                ++ '\x7d' :: rest)) hgv.2.1 (by omega)
                (by rw [headNotDigit_cons]; decide))]
          rw [if_neg (by simp)]
          rw [if_pos (by simp)]
          rw [show (',' :: ' ' :: (joinCommaSep (serializeFields ((k2, v2) :: t2))
              ++ '\x7d' :: rest)).tail.tail
              = joinCommaSep (serializeFields ((k2, v2) :: t2)) ++ '\x7d' :: rest from rfl]
          rw [ih3 ((k2, v2) :: t2) rest (by simp) (by
            have h3 : (goodKey k2 && goodV v2 && goodVFields t2) = true := hgv.2.2
            exact h3) (by
            rw [show sizeVFields ((k2, v2) :: t2) = 1 + sizeV v2 + sizeVFields t2 from rfl]
            rw [show sizeVFields ((k2, v2) :: t2) = 1 + sizeV v2 + sizeVFields t2 from rfl] at hsv
            omega)]
          rfl

/-- C9 (amended): for every supported host value in the faithful class —
`goodV`: strings free of backslash and carriage return, integers and date
timestamps in plain-decimal range, object keys that are non-integer-like and
control-free — evaluating the fragment produced by `#serializeValue` yields
the original value, for any evaluator depth bound exceeding the value's
nesting size. -/
theorem serializeValue_eval_roundtrip (v : Value) (fuel : Nat) (hg : goodV v = true)
    (hf : sizeV v < fuel) :
    evalFragment fuel (serializeValue v) = some v := by
  have h := (parse_serialize_aux fuel).1 v [] hg hf rfl
  rw [List.append_nil] at h
  rw [evalFragment, h]

/-- C9 witness: the round trip evaluated on a concrete nested object
`{"a": [5, `hi`, -3], "bc": new Date(99)}`. -/
theorem serializeValue_eval_roundtrip_witness :
    goodV (.vObj [(['a'], .vArr [.vInt 5, .vStr ['h', 'i'], .vInt (-3)]),
      (['b', 'c'], .vDate 99)]) = true
    ∧ evalFragment 50 (serializeValue (.vObj [(['a'],
        .vArr [.vInt 5, .vStr ['h', 'i'], .vInt (-3)]), (['b', 'c'], .vDate 99)]))
      = some (.vObj [(['a'], .vArr [.vInt 5, .vStr ['h', 'i'], .vInt (-3)]),
        (['b', 'c'], .vDate 99)]) :=
  ⟨by decide, serializeValue_eval_roundtrip _ 50 (by decide) (by decide)⟩

/-- C9 counterexample to the unamended claim: the serializer escapes only
backtick and dollar-brace in strings, so the one-character string `\` is
rendered as ``\``, where the backslash escapes the closing backtick;
the fragment does not evaluate back to the original value (the evaluator
rejects it). -/
theorem serializeValue_backslash_counterexample :
    serializeValue (.vStr ['\\']) = ['\x60', '\\', '\x60']
    ∧ evalFragment 10 (serializeValue (.vStr ['\\'])) = none
    ∧ evalFragment 10 (serializeValue (.vStr ['\\'])) ≠ some (.vStr ['\\']) :=
  ⟨rfl, rfl, fun h => Option.noConfusion h⟩

theorem pfx_append_self (p r : List Char) : p.isPrefixOf (p ++ r) = true := by
  induction p with
  | nil => simp [List.isPrefixOf]
  | cons a t ih => simp [List.isPrefixOf, ih]

theorem pfx_cons_false (a b : Char) (p l : List Char) (h : ¬ a = b) :
    (a :: p).isPrefixOf (b :: l) = false := by
  simp [List.isPrefixOf, h]

theorem idxOfSub_none_pfx (p : List Char) :
    ∀ s : List Char, idxOfSub p s = none → ∀ i, p.isPrefixOf (s.drop i) = false := by
  intro s
  induction s with
  | nil =>
    intro h i
    rw [idxOfSub] at h
    cases hp : p with
    | nil => rw [hp] at h; simp at h
    | cons a t => simp [List.drop_nil, List.isPrefixOf]
  | cons c t ih =>
    intro h i
    rw [idxOfSub] at h
    by_cases hp : p.isPrefixOf (c :: t) = true
    · rw [if_pos hp] at h; simp at h
    · rw [if_neg hp] at h
      cases i with
      | zero =>
        rw [List.drop_zero]
        exact Bool.eq_false_iff.mpr hp
      | succ j =>
        have h2 : idxOfSub p t = none := by
          cases hx : idxOfSub p t with
          | none => rfl
          | some v => rw [hx] at h; simp at h
        exact ih h2 j

theorem idxOfSub_first (p : List Char) :
    ∀ (i : Nat) (s : List Char), p.isPrefixOf (s.drop i) = true →
      (∀ j, j < i → p.isPrefixOf (s.drop j) = false) →
      idxOfSub p s = some i := by
  intro i
  induction i with
  | zero =>
    intro s hp _
    rw [List.drop_zero] at hp
    cases s with
    | nil =>
      rw [idxOfSub]
      have : p = [] := by
        cases p with
        | nil => rfl
        | cons a t => simp [List.isPrefixOf] at hp
      rw [this]
      rfl
    | cons c t => rw [idxOfSub, if_pos hp]
  | succ j ih =>
    intro s hp hmin
    cases s with
    | nil =>
      exfalso
      simp only [List.drop_nil] at hp
      have h0 := hmin 0 (Nat.succ_pos j)
      simp only [List.drop_nil] at h0
      rw [h0] at hp
      exact Bool.false_ne_true hp
    | cons c t =>
      rw [idxOfSub, if_neg (by
        have h0 := hmin 0 (Nat.succ_pos j)
        rw [List.drop_zero] at h0
        simp [h0])]
      rw [ih t (by simpa using hp) (fun k hk => by
        have := hmin (k + 1) (by omega)
        simpa using this)]
      rfl

theorem pfx_long (p : List Char) :
    ∀ (w z : List Char), p.length ≤ w.length →
      p.isPrefixOf (w ++ z) = p.isPrefixOf w := by
  induction p with
  | nil => intro w z _; simp [List.isPrefixOf]
  | cons a t ih =>
    intro w z hl
    cases w with
    | nil => simp at hl
    | cons b u =>
      simp only [List.cons_append, List.isPrefixOf, List.append_eq]
      rw [ih u z (by simpa using hl)]

theorem idx_single (ch : Char) :
    ∀ (x y : List Char), (∀ c ∈ x, ¬ c = ch) →
      idxOfSub [ch] (x ++ ch :: y) = some x.length := by
  intro x
  induction x with
  | nil =>
    intro y _
    rw [List.nil_append, idxOfSub, if_pos (by simp [List.isPrefixOf])]
    rfl
  | cons a t ih =>
    intro y hx
    rw [List.cons_append, idxOfSub,
      if_neg (by simp [List.isPrefixOf]; intro he; exact absurd he.symm (hx a (List.mem_cons_self a t)))]
    rw [ih y (fun c hc => hx c (List.mem_cons_of_mem a hc))]
    rfl

theorem idx_single_none (ch : Char) :
    ∀ x : List Char, (∀ c ∈ x, ¬ c = ch) → idxOfSub [ch] x = none := by
  intro x
  induction x with
  | nil => intro _; rfl
  | cons a t ih =>
    intro hx
    rw [idxOfSub,
      if_neg (by simp [List.isPrefixOf]; intro he; exact absurd he.symm (hx a (List.mem_cons_self a t)))]
    rw [ih (fun c hc => hx c (List.mem_cons_of_mem a hc))]
    rfl

theorem takeWhile_append_stop (p : Char → Bool) :
    ∀ (k z : List Char), (∀ c ∈ k, p c = true) →
      (∀ x, z.head? = some x → p x = false) →
      (k ++ z).takeWhile p = k ∧ (k ++ z).dropWhile p = z := by
  intro k
  induction k with
  | nil =>
    intro z _ hz
    cases z with
    | nil => exact ⟨rfl, rfl⟩
    | cons b u =>
      have hb := hz b (by rw [List.head?_cons])
      constructor
      · rw [List.nil_append]
        simp [List.takeWhile_cons, hb]
      · rw [List.nil_append]
        simp [List.dropWhile_cons, hb]
  | cons a t ih =>
    intro z hk hz
    have ha := hk a (List.mem_cons_self a t)
    obtain ⟨h1, h2⟩ := ih z (fun c hc => hk c (List.mem_cons_of_mem a hc)) hz
    constructor
    · rw [List.cons_append]
      simp [List.takeWhile_cons, ha, h1]
    · rw [List.cons_append]
      simp [List.dropWhile_cons, ha, h2]

theorem jsSub_mid (x y z : List Char) :
    jsSub (x ++ (y ++ z)) x.length (x.length + y.length) = y := by
  rw [jsSub, Nat.max_eq_right (by omega), Nat.min_eq_left (by omega)]
  rw [List.take_append, List.take_left, List.drop_left]

theorem objSet_fresh (k v : List Char) :
    ∀ acc : List (List Char × List Char), (∀ p ∈ acc, ¬ p.1 = k) →
      objSet acc k v = acc ++ [(k, v)] := by
  intro acc
  induction acc with
  | nil => intro _; rfl
  | cons p t ih =>
    intro hf
    rw [show objSet (p :: t) k v
        = (if p.1 = k then (p.1, v) :: t else (p.1, p.2) :: objSet t k v) from rfl]
    rw [if_neg (hf p (List.mem_cons_self p t))]
    rw [ih (fun q hq => hf q (List.mem_cons_of_mem p hq))]
    rfl

theorem wordChar_ne (c d : Char) (h : isWordChar c = true) (hd : isWordChar d = false) :
    ¬ c = d := by
  intro he
  rw [he, hd] at h
  exact Bool.false_ne_true h

theorem ws_space : jsWs ' ' = true := by decide

theorem notword_space : (fun c => !isWordChar c) ' ' = true := by decide

theorem dropWhile_nonword (k X : List Char) (hk : k ≠ []) (hkw : ∀ c ∈ k, isWordChar c = true) :
    (' ' :: (k ++ X)).dropWhile (fun c => !isWordChar c) = k ++ X := by
  rw [List.dropWhile_cons]
  rw [show (!isWordChar ' ') = true from by decide, if_pos rfl]
  cases k with
  | nil => exact absurd rfl hk
  | cons k0 k1 =>
    rw [List.cons_append, List.dropWhile_cons]
    have h0 : (!isWordChar k0) = false := by
      have := hkw k0 (List.mem_cons_self k0 k1)
      simp [this]
    rw [h0]
    simp

theorem takeWhile_word (k X : List Char) (hkw : ∀ c ∈ k, isWordChar c = true)
    (hX : ∀ x, X.head? = some x → isWordChar x = false) :
    (k ++ X).takeWhile isWordChar = k ∧ (k ++ X).dropWhile isWordChar = X :=
  takeWhile_append_stop isWordChar k X hkw hX

theorem attrScan_step_val (f : Nat) (k v R : List Char)
    (acc : List (List Char × List Char))
    (hk : k ≠ []) (hkw : ∀ c ∈ k, isWordChar c = true)
    (hv : v ≠ []) (hvq : ∀ c ∈ v, ¬ c = '"')
    (hfresh : ∀ p ∈ acc, ¬ p.1 = k) :
    attrScan (f + 1) (' ' :: (k ++ ('=' :: '"' :: (v ++ '"' :: R)))) acc
      = attrScan f R (acc ++ [(k, v)]) := by
  have hX : ∀ x : Char, ('=' :: '"' :: (v ++ '"' :: R)).head? = some x → isWordChar x = false := by
    intro x hx
    rw [List.head?_cons, Option.some.injEq] at hx
    rw [← hx]
    decide
  have htk := (takeWhile_append_stop isWordChar k ('=' :: '"' :: (v ++ '"' :: R)) hkw hX).1
  have hdk := (takeWhile_append_stop isWordChar k ('=' :: '"' :: (v ++ '"' :: R)) hkw hX).2
  rw [attrScan]
  rw [dropWhile_nonword k ('=' :: '"' :: (v ++ '"' :: R)) hk hkw]
  rw [htk, hdk]
  cases k with
  | nil => exact absurd rfl hk
  | cons k0 k1 =>
    rw [List.cons_append]
    simp only [List.head?_cons, List.tail_cons]
    rw [idx_single '"' v R hvq]
    simp only [List.take_left, Option.some.injEq]
    rw [if_pos trivial]
    show attrScan f (List.drop (v.length + 1) (v ++ '"' :: R))
        (objSet acc (k0 :: k1) (if v.isEmpty = true then EMPVAL else v))
      = attrScan f R (acc ++ [(k0 :: k1, v)])
    rw [show (if (v.isEmpty) = true then EMPVAL else v) = v from by
      rw [if_neg (by cases v with | nil => exact absurd rfl hv | cons a b => simp)]]
    rw [objSet_fresh (k0 :: k1) v acc hfresh]
    rw [show List.drop (v.length + 1) (v ++ '"' :: R) = R from by
      rw [List.drop_append 1]
      rfl]

theorem attrScan_end (f : Nat) (acc : List (List Char × List Char)) :
    attrScan (f + 1) [] acc = acc := rfl

theorem attrScan_step_bare (f : Nat) (k R : List Char)
    (acc : List (List Char × List Char))
    (hk : k ≠ []) (hkw : ∀ c ∈ k, isWordChar c = true)
    (hR : R = [] ∨ R.head? = some ' ')
    (hfresh : ∀ p ∈ acc, ¬ p.1 = k) :
    attrScan (f + 1) (' ' :: (k ++ R)) acc = attrScan f R (acc ++ [(k, EMPVAL)]) := by
  have hX : ∀ x : Char, R.head? = some x → isWordChar x = false := by
    intro x hx
    rcases hR with hR | hR
    · rw [hR] at hx; simp at hx
    · rw [hR, Option.some.injEq] at hx
      rw [← hx]
      decide
  have htk := (takeWhile_append_stop isWordChar k R hkw hX).1
  have hdk := (takeWhile_append_stop isWordChar k R hkw hX).2
  rw [attrScan]
  rw [dropWhile_nonword k R hk hkw]
  rw [htk, hdk]
  cases k with
  | nil => exact absurd rfl hk
  | cons k0 k1 =>
    rw [List.cons_append]
    rcases hR with hR | hR
    · subst hR
      show attrScan f [] (objSet acc (k0 :: k1) EMPVAL) = attrScan f [] (acc ++ [(k0 :: k1, EMPVAL)])
      rw [objSet_fresh (k0 :: k1) EMPVAL acc hfresh]
    · obtain ⟨R2, hR2⟩ : ∃ R2, R = ' ' :: R2 := by
        cases R with
        | nil => simp at hR
        | cons r0 r1 =>
          rw [List.head?_cons, Option.some.injEq] at hR
          exact ⟨r1, by rw [hR]⟩
      subst hR2
      show attrScan f (' ' :: R2) (objSet acc (k0 :: k1) EMPVAL)
        = attrScan f (' ' :: R2) (acc ++ [(k0 :: k1, EMPVAL)])
      rw [objSet_fresh (k0 :: k1) EMPVAL acc hfresh]

theorem renderAttrs_head (attrs : List CAttr) :
    renderAttrs attrs = [] ∨ (renderAttrs attrs).head? = some ' ' := by
  cases attrs with
  | nil => exact Or.inl rfl
  | cons a t =>
    right
    cases a with
    | aval k v => rfl
    | abare k => rfl

theorem keyContains_iff (x : List Char) (l : List (List Char)) :
    l.contains x = true ↔ x ∈ l := by
  induction l with
  | nil => simp
  | cons a t ih =>
    rw [List.contains_cons]
    simp only [Bool.or_eq_true, beq_iff_eq, ih, List.mem_cons]

theorem isEmpty_false_ne (l : List Char) (h : l.isEmpty = false) : l ≠ [] := by
  cases l with
  | nil => simp at h
  | cons a t => simp

theorem attrScan_render :
    ∀ (attrs : List CAttr) (fuel : Nat) (acc : List (List Char × List Char)),
      attrs.all wfAttr = true →
      distinctKeys (attrs.map attrKey) = true →
      (∀ a ∈ attrs, ∀ p ∈ acc, ¬ p.1 = attrKey a) →
      attrs.length < fuel →
      attrScan fuel (renderAttrs attrs) acc = acc ++ attrPairs attrs := by
  intro attrs
  induction attrs with
  | nil =>
    intro fuel acc _ _ _ hf
    match fuel, hf with
    | f + 1, _ =>
      rw [show renderAttrs [] = [] from rfl, attrScan_end]
      simp [attrPairs]
  | cons a t ih =>
    intro fuel acc hwf hdk hfr hf
    match fuel, hf with
    | f + 1, hf =>
      simp only [List.all_cons, Bool.and_eq_true] at hwf
      obtain ⟨ha, ht⟩ := hwf
      rw [show (a :: t).map attrKey = attrKey a :: t.map attrKey from rfl] at hdk
      rw [show distinctKeys (attrKey a :: t.map attrKey)
          = (!(t.map attrKey).contains (attrKey a) && distinctKeys (t.map attrKey)) from rfl,
        Bool.and_eq_true] at hdk
      obtain ⟨hnc, hdk2⟩ := hdk
      have hknotin : attrKey a ∉ t.map attrKey := by
        intro hmem
        have hcontains := (keyContains_iff (attrKey a) (t.map attrKey)).mpr hmem
        rw [hcontains] at hnc
        simp at hnc
      have hpfst : (attrPair a).1 = attrKey a := by cases a <;> rfl
      have hfr2 : ∀ b ∈ t, ∀ p ∈ acc ++ [attrPair a], ¬ p.1 = attrKey b := by
        intro b hb p hp
        rw [List.mem_append] at hp
        rcases hp with hp | hp
        · exact hfr b (List.mem_cons_of_mem a hb) p hp
        · rw [List.mem_singleton] at hp
          subst hp
          rw [hpfst]
          intro he
          exact hknotin (he ▸ List.mem_map_of_mem attrKey hb)
      have hfa := hfr a (List.mem_cons_self a t)
      cases a with
      | aval k v =>
        simp only [wfAttr, Bool.and_eq_true] at ha
        obtain ⟨⟨⟨⟨hk, hkw⟩, hv⟩, hvq⟩, hvne⟩ := ha
        have hkne : k ≠ [] := isEmpty_false_ne k (by simpa using hk)
        have hkw2 : ∀ c ∈ k, isWordChar c = true := List.all_eq_true.mp hkw
        have hvne2 : v ≠ [] := isEmpty_false_ne v (by simpa using hv)
        have hvq2 : ∀ c ∈ v, ¬ c = '"' := by
          intro c hc he
          have h2 := List.all_eq_true.mp hvq c hc
          subst he
          simp at h2
        rw [show renderAttrs (CAttr.aval k v :: t)
            = ' ' :: (k ++ ('=' :: '"' :: (v ++ '"' :: renderAttrs t))) from by
          rw [show renderAttrs (CAttr.aval k v :: t)
              = renderAttr (CAttr.aval k v) ++ renderAttrs t from rfl]
          rw [show renderAttr (CAttr.aval k v)
              = ' ' :: k ++ '=' :: '"' :: v ++ ['"'] from rfl]
          simp]
        rw [attrScan_step_val f k v (renderAttrs t) acc hkne hkw2 hvne2 hvq2
          (fun p hp => hfa p hp)]
        rw [ih f (acc ++ [(k, v)]) ht hdk2
          (fun b hb p hp => hfr2 b hb p
            (by rw [show attrPair (CAttr.aval k v) = (k, v) from rfl]; exact hp))
          (by simp at hf; omega)]
        simp [attrPairs, attrPair]
      | abare k =>
        simp only [wfAttr, Bool.and_eq_true] at ha
        obtain ⟨hk, hkw⟩ := ha
        have hkne : k ≠ [] := isEmpty_false_ne k (by simpa using hk)
        have hkw2 : ∀ c ∈ k, isWordChar c = true := List.all_eq_true.mp hkw
        rw [show renderAttrs (CAttr.abare k :: t) = ' ' :: (k ++ renderAttrs t) from by
          rw [show renderAttrs (CAttr.abare k :: t)
              = renderAttr (CAttr.abare k) ++ renderAttrs t from rfl]
          rw [show renderAttr (CAttr.abare k) = ' ' :: k from rfl]
          simp]
        rw [attrScan_step_bare f k (renderAttrs t) acc hkne hkw2 (renderAttrs_head t)
          (fun p hp => hfa p hp)]
        rw [ih f (acc ++ [(k, EMPVAL)]) ht hdk2
          (fun b hb p hp => hfr2 b hb p
            (by rw [show attrPair (CAttr.abare k) = (k, EMPVAL) from rfl]; exact hp))
          (by simp at hf; omega)]
        simp [attrPairs, attrPair]

theorem parseLoop_cons (tags : List (List Char)) (f : Nat) (c : Char) (r : List Char)
    (st : PState) :
    parseLoop tags (f + 1) (c :: r) st = parseLoopBody tags f (c :: r) st := rfl

theorem parseLoop_nil (tags : List (List Char)) :
    ∀ (fuel : Nat) (st : PState), parseLoop tags fuel [] st = st := by
  intro fuel st
  cases fuel with
  | zero => rfl
  | succ f => rfl

theorem parseLoop_stepText (tags : List (List Char)) (fuel : Nat) (st : PState)
    (s R : List Char) (hs : s ≠ []) (hlt : ∀ c ∈ s, ¬ c = '<')
    (hR : R = [] ∨ R.head? = some '<') :
    parseLoop tags (fuel + 1) (s ++ R) st
      = parseLoop tags fuel R (pushChild st (.text s)) := by
  obtain ⟨c, s2, rfl⟩ : ∃ c s2, s = c :: s2 := by
    cases s with
    | nil => exact absurd rfl hs
    | cons c s2 => exact ⟨c, s2, rfl⟩
  have hc : ¬ c = '<' := hlt c (List.mem_cons_self c s2)
  rw [parseLoop.eq_def]
  simp only [List.cons_append]
  rw [if_neg (by
    rw [pfx_cons_false '<' c ['!', '-', '-'] _ (fun he => hc he.symm)]
    simp)]
  rw [if_neg (by
    intro hcontra
    rw [List.head?_cons, Option.some.injEq] at hcontra
    exact hc hcontra.1)]
  rw [if_neg (by
    intro hcontra
    rw [List.head?_cons, Option.some.injEq] at hcontra
    exact hc hcontra.1)]
  rcases hR with hR | hR
  · subst hR
    rw [List.append_nil]
    rw [idx_single_none '<' (c :: s2) hlt]
    simp [parseLoop_nil]
  · obtain ⟨R2, rfl⟩ : ∃ R2, R = '<' :: R2 := by
      cases R with
      | nil => simp at hR
      | cons r0 r1 =>
        rw [List.head?_cons, Option.some.injEq] at hR
        exact ⟨r1, by rw [hR]⟩
    have h2 : idxOfSub ['<'] (c :: (s2 ++ '<' :: R2)) = some (s2.length + 1) := by
      rw [← List.cons_append]
      rw [idx_single '<' (c :: s2) R2 hlt]
      rfl
    have htake : List.take (s2.length + 1) (c :: (s2 ++ '<' :: R2)) = c :: s2 := by
      rw [← List.cons_append, List.take_left' (by simp)]
    have hdrop : List.drop (s2.length + 1) (c :: (s2 ++ '<' :: R2)) = '<' :: R2 := by
      rw [← List.cons_append]
      rw [show s2.length + 1 = (c :: s2).length from by simp]
      rw [List.drop_left]
    rw [h2]
    simp [htake, hdrop]

theorem comment_idx (c R : List Char) (hwf : wfComment c = true) :
    idxOfSub ['-', '-', '>'] ('<' :: '!' :: '-' :: '-' :: (c ++ '-' :: '-' :: '>' :: R))
      = some (4 + c.length) := by
  have hwin : idxOfSub ['-', '-', '>'] ('-' :: '-' :: (c ++ ['-', '-'])) = none := by
    rw [wfComment] at hwf
    cases hx : idxOfSub ['-', '-', '>'] (['-', '-'] ++ c ++ ['-', '-']) with
    | none => simpa using hx
    | some v =>
      rw [hasSub, hx] at hwf
      simp at hwf
  apply idxOfSub_first
  · rw [show ('<' :: '!' :: '-' :: '-' :: (c ++ '-' :: '-' :: '>' :: R))
        = ['<', '!', '-', '-'] ++ (c ++ ('-' :: '-' :: '>' :: R)) from by simp]
    rw [show (4 : Nat) + c.length = (['<', '!', '-', '-'] : List Char).length + c.length from rfl]
    rw [List.drop_append]
    rw [List.drop_left]
    rw [show ('-' :: '-' :: '>' :: R) = ['-', '-', '>'] ++ R from rfl]
    exact pfx_append_self _ _
  · intro j hj
    match j with
    | 0 => rw [List.drop_zero]; exact pfx_cons_false '-' '<' _ _ (by decide)
    | 1 => exact pfx_cons_false '-' '!' _ _ (by decide)
    | (k + 2) =>
      have hk : k < c.length + 2 := by omega
      rw [show ('<' :: '!' :: '-' :: '-' :: (c ++ '-' :: '-' :: '>' :: R))
          = '<' :: '!' :: (('-' :: '-' :: (c ++ ['-', '-'])) ++ '>' :: R) from by simp]
      rw [show List.drop (k + 2) ('<' :: '!' :: (('-' :: '-' :: (c ++ ['-', '-'])) ++ '>' :: R))
          = List.drop k (('-' :: '-' :: (c ++ ['-', '-'])) ++ '>' :: R) from rfl]
      rw [List.drop_append_of_le_length (by simp; omega)]
      rw [pfx_long _ _ _ (by simp; omega)]
      exact idxOfSub_none_pfx _ _ hwin k

theorem parseLoop_stepComment (tags : List (List Char)) (fuel : Nat) (st : PState)
    (c R : List Char) (hwf : wfComment c = true) :
    parseLoop tags (fuel + 1) ('<' :: '!' :: '-' :: '-' :: (c ++ '-' :: '-' :: '>' :: R)) st
      = parseLoop tags fuel R (pushChild st (.comment .htmlC c)) := by
  rw [parseLoop_cons, parseLoopBody]
  rw [if_pos (show (['<', '!', '-', '-'].isPrefixOf
      ('<' :: '!' :: '-' :: '-' :: (c ++ '-' :: '-' :: '>' :: R))) = true from
    pfx_append_self ['<', '!', '-', '-'] (c ++ '-' :: '-' :: '>' :: R))]
  rw [comment_idx c R hwf]
  have hsub : jsSub ('<' :: '!' :: '-' :: '-' :: (c ++ '-' :: '-' :: '>' :: R)) 4
      (4 + c.length) = c := by
    rw [jsSub, Nat.max_eq_right (by omega), Nat.min_eq_left (by omega)]
    rw [show ('<' :: '!' :: '-' :: '-' :: (c ++ '-' :: '-' :: '>' :: R))
        = ['<', '!', '-', '-'] ++ (c ++ ('-' :: '-' :: '>' :: R)) from by simp]
    rw [show (4 : Nat) + c.length = (['<', '!', '-', '-'] : List Char).length + c.length
      from rfl]
    rw [List.take_append]
    rw [List.take_left]
    rw [show (4 : Nat) = (['<', '!', '-', '-'] : List Char).length from rfl]
    rw [List.drop_left]
  have hdrop : List.drop (4 + c.length + 3)
      ('<' :: '!' :: '-' :: '-' :: (c ++ '-' :: '-' :: '>' :: R)) = R := by
    rw [show ('<' :: '!' :: '-' :: '-' :: (c ++ '-' :: '-' :: '>' :: R))
        = (['<', '!', '-', '-'] ++ (c ++ ['-', '-', '>'])) ++ R from by simp]
    rw [show 4 + c.length + 3 = (['<', '!', '-', '-'] ++ (c ++ ['-', '-', '>'])).length from by
      simp
      omega]
    rw [List.drop_left]
  simp only [hsub, hdrop]

theorem wordChar_not_ws (c : Char) (h : isWordChar c = true) : jsWs c = false := by
  cases hw : jsWs c
  · rfl
  · exfalso
    rw [jsWs] at hw
    simp only [Bool.or_eq_true, decide_eq_true_eq] at hw
    rcases hw with ((((h1 | h1) | h1) | h1) | h1) | h1 <;> (subst h1; exact absurd h (by decide))

theorem pfx4_false (d : Char) (x : List Char) (hd : ¬ d = '!') :
    (['<', '!', '-', '-'].isPrefixOf ('<' :: d :: x)) = false := by
  have h1 : ('!' == d) = false := by
    rw [beq_eq_false_iff_ne]
    exact fun he => hd he.symm
  simp [List.isPrefixOf, h1]

theorem renderAttrs_no_gt (attrs : List CAttr) (h : attrs.all wfAttr = true) :
    ∀ c ∈ renderAttrs attrs, ¬ c = '>' := by
  induction attrs with
  | nil => intro c hc; simp [renderAttrs] at hc
  | cons a t ih =>
    simp only [List.all_cons, Bool.and_eq_true] at h
    obtain ⟨ha, ht⟩ := h
    intro c hc
    rw [show renderAttrs (a :: t) = renderAttr a ++ renderAttrs t from rfl,
      List.mem_append] at hc
    rcases hc with hc | hc
    · cases a with
      | aval k v =>
        simp only [wfAttr, Bool.and_eq_true] at ha
        obtain ⟨⟨⟨⟨-, hkw⟩, -⟩, hvq⟩, -⟩ := ha
        rw [show renderAttr (CAttr.aval k v) = ' ' :: k ++ '=' :: '"' :: v ++ ['"'] from rfl] at hc
        simp only [List.cons_append, List.mem_cons, List.mem_append, List.mem_singleton,
          or_assoc] at hc
        rcases hc with hc | hc | hc | hc | hc | hc
        · subst hc; decide
        · exact wordChar_ne c '>' (List.all_eq_true.mp hkw c hc) (by decide)
        · subst hc; decide
        · subst hc; decide
        · intro he
          have h2 := List.all_eq_true.mp hvq c hc
          subst he
          simp at h2
        · rcases hc with hc | hc
          · subst hc; decide
          · simp at hc
      | abare k =>
        simp only [wfAttr, Bool.and_eq_true] at ha
        obtain ⟨-, hkw⟩ := ha
        rw [show renderAttr (CAttr.abare k) = ' ' :: k from rfl] at hc
        rw [List.mem_cons] at hc
        rcases hc with hc | hc
        · subst hc; decide
        · exact wordChar_ne c '>' (List.all_eq_true.mp hkw c hc) (by decide)
    · exact ih ht c hc

theorem renderAttrs_len (attrs : List CAttr) :
    attrs.length ≤ (renderAttrs attrs).length := by
  induction attrs with
  | nil => simp [renderAttrs]
  | cons a t ih =>
    rw [show renderAttrs (a :: t) = renderAttr a ++ renderAttrs t from rfl]
    rw [List.length_append, List.length_cons]
    have : 1 ≤ (renderAttr a).length := by
      cases a with
      | aval k v => simp [renderAttr]
      | abare k => simp [renderAttr]
    omega

theorem parseLoop_stepOpen (tags : List (List Char)) (fuel : Nat) (st : PState)
    (nm : List Char) (attrs : List CAttr) (R : List Char)
    (hnm : nm ≠ []) (hnw : ∀ c ∈ nm, isWordChar c = true)
    (hsp : tags.contains nm = false)
    (hwfa : attrs.all wfAttr = true)
    (hdk : distinctKeys (attrs.map attrKey) = true) :
    parseLoop tags (fuel + 1) ('<' :: ((nm ++ renderAttrs attrs) ++ '>' :: R)) st
      = parseLoop tags fuel R
          { stk := ⟨nm, attrPairs attrs, false, []⟩ :: st.stk, rootCs := st.rootCs } := by
  obtain ⟨n0, nm2, rfl⟩ : ∃ n0 nm2, nm = n0 :: nm2 := by
    cases nm with
    | nil => exact absurd rfl hnm
    | cons n0 nm2 => exact ⟨n0, nm2, rfl⟩
  have hn0 := hnw n0 (List.mem_cons_self n0 nm2)
  have hgt : ∀ c ∈ (n0 :: nm2) ++ renderAttrs attrs, ¬ c = '>' := by
    intro c hc
    rw [List.mem_append] at hc
    rcases hc with hc | hc
    · exact wordChar_ne c '>' (hnw c hc) (by decide)
    · exact renderAttrs_no_gt attrs hwfa c hc
  have hshape : (((n0 :: nm2) ++ renderAttrs attrs) ++ '>' :: R)
      = n0 :: ((nm2 ++ renderAttrs attrs) ++ '>' :: R) := by simp
  rw [parseLoop_cons, parseLoopBody]
  rw [if_neg (by
    rw [hshape]
    rw [pfx4_false n0 _ (wordChar_ne n0 '!' hn0 (by decide))]
    simp)]
  have hcond2 : ('<' :: (((n0 :: nm2) ++ renderAttrs attrs) ++ '>' :: R)).head? = some '<'
      ∧ ¬ ('<' :: (((n0 :: nm2) ++ renderAttrs attrs) ++ '>' :: R)).tail.head? = some '/' := by
    constructor
    · rw [List.head?_cons]
    · rw [List.tail_cons, hshape, List.head?_cons]
      intro hcontra
      rw [Option.some.injEq] at hcontra
      exact wordChar_ne n0 '/' hn0 (by decide) hcontra
  rw [if_pos hcond2]
  have hidx : idxOfSub ['>'] ('<' :: (((n0 :: nm2) ++ renderAttrs attrs) ++ '>' :: R))
      = some (1 + ((n0 :: nm2) ++ renderAttrs attrs).length) := by
    rw [show ('<' :: (((n0 :: nm2) ++ renderAttrs attrs) ++ '>' :: R))
        = (('<' :: ((n0 :: nm2) ++ renderAttrs attrs)) ++ '>' :: R) from by simp]
    rw [idx_single '>' ('<' :: ((n0 :: nm2) ++ renderAttrs attrs)) R (by
      intro c hc
      rw [List.mem_cons] at hc
      rcases hc with hc | hc
      · subst hc; decide
      · exact hgt c hc)]
    rw [List.length_cons]
    congr 1
    omega
  rw [hidx]
  have htc : jsSub ('<' :: (((n0 :: nm2) ++ renderAttrs attrs) ++ '>' :: R)) 1
      (1 + ((n0 :: nm2) ++ renderAttrs attrs).length)
      = (n0 :: nm2) ++ renderAttrs attrs := by
    rw [jsSub, Nat.max_eq_right (by omega), Nat.min_eq_left (by omega)]
    rw [show ('<' :: (((n0 :: nm2) ++ renderAttrs attrs) ++ '>' :: R))
        = ['<'] ++ (((n0 :: nm2) ++ renderAttrs attrs) ++ '>' :: R) from by simp]
    rw [show (1 : Nat) + ((n0 :: nm2) ++ renderAttrs attrs).length
        = (['<'] : List Char).length + ((n0 :: nm2) ++ renderAttrs attrs).length from rfl]
    rw [List.take_append, List.take_left]
    rw [show (1 : Nat) = (['<'] : List Char).length from rfl]
    rw [List.drop_left]
  have hname : ((n0 :: nm2) ++ renderAttrs attrs).takeWhile (fun c => !jsWs c)
      = n0 :: nm2 := by
    refine (takeWhile_append_stop (fun c => !jsWs c) (n0 :: nm2) (renderAttrs attrs) ?_ ?_).1
    · intro c hc
      rw [show (fun c => !jsWs c) c = !jsWs c from rfl, wordChar_not_ws c (hnw c hc)]
      rfl
    · intro x hx
      rcases renderAttrs_head attrs with hh | hh
      · rw [hh] at hx; simp at hx
      · rw [hh, Option.some.injEq] at hx
        rw [← hx]
        decide
  have hattrstr : ((n0 :: nm2) ++ renderAttrs attrs).drop (n0 :: nm2).length
      = renderAttrs attrs := List.drop_left _ _
  have hscan : attrScan ((renderAttrs attrs).length + 1) (renderAttrs attrs) []
      = attrPairs attrs := by
    rw [attrScan_render attrs ((renderAttrs attrs).length + 1) [] hwfa hdk
      (by intro a ha p hp; simp at hp)
      (by have := renderAttrs_len attrs; omega)]
    rw [List.nil_append]
  have hdrop : ('<' :: (((n0 :: nm2) ++ renderAttrs attrs) ++ '>' :: R)).drop
      (1 + ((n0 :: nm2) ++ renderAttrs attrs).length + 1) = R := by
    rw [show ('<' :: (((n0 :: nm2) ++ renderAttrs attrs) ++ '>' :: R))
        = (('<' :: ((n0 :: nm2) ++ renderAttrs attrs)) ++ ['>']) ++ R from by simp]
    rw [show 1 + ((n0 :: nm2) ++ renderAttrs attrs).length + 1
        = (('<' :: ((n0 :: nm2) ++ renderAttrs attrs)) ++ ['>']).length from by
      simp
      omega]
    rw [List.drop_left]
  simp only [htc, hname, hattrstr, hscan, hsp, hdrop]
  simp

theorem parseLoop_stepClose (tags : List (List Char)) (fuel : Nat)
    (f : PFrame) (stk : List PFrame) (rcs : List PNode)
    (nm : List Char) (R : List Char)
    (hnm : nm ≠ []) (hnw : ∀ c ∈ nm, isWordChar c = true)
    (hfnm : f.nm = nm) :
    parseLoop tags (fuel + 1) ('<' :: '/' :: (nm ++ '>' :: R)) ⟨f :: stk, rcs⟩
      = parseLoop tags fuel R
          (pushChild (pushChild ⟨stk, rcs⟩ (buildNode f)) (.tagClose nm)) := by
  obtain ⟨n0, nm2, rfl⟩ : ∃ n0 nm2, nm = n0 :: nm2 := by
    cases nm with
    | nil => exact absurd rfl hnm
    | cons n0 nm2 => exact ⟨n0, nm2, rfl⟩
  rw [parseLoop_cons, parseLoopBody]
  rw [if_neg (by
    rw [pfx4_false '/' _ (by decide)]
    simp)]
  rw [if_neg (by
    intro hcontra
    exact hcontra.2 rfl)]
  have hcond3 : ('<' :: '/' :: ((n0 :: nm2) ++ '>' :: R)).head? = some '<'
      ∧ ('<' :: '/' :: ((n0 :: nm2) ++ '>' :: R)).tail.head? = some '/' := ⟨rfl, rfl⟩
  rw [if_pos hcond3]
  have hidx : idxOfSub ['>'] ('<' :: '/' :: ((n0 :: nm2) ++ '>' :: R))
      = some (2 + (n0 :: nm2).length) := by
    rw [show ('<' :: '/' :: ((n0 :: nm2) ++ '>' :: R))
        = ('<' :: '/' :: (n0 :: nm2)) ++ '>' :: R from by simp]
    rw [idx_single '>' ('<' :: '/' :: (n0 :: nm2)) R (by
      intro c hc
      rw [List.mem_cons] at hc
      rcases hc with hc | hc
      · subst hc; decide
      · rw [List.mem_cons] at hc
        rcases hc with hc | hc
        · subst hc; decide
        · exact wordChar_ne c '>' (hnw c hc) (by decide))]
    rw [List.length_cons, List.length_cons]
    congr 1
    omega
  rw [hidx]
  have htn : jsSub ('<' :: '/' :: ((n0 :: nm2) ++ '>' :: R)) 2 (2 + (n0 :: nm2).length)
      = n0 :: nm2 := by
    rw [jsSub, Nat.max_eq_right (by omega), Nat.min_eq_left (by omega)]
    rw [show ('<' :: '/' :: ((n0 :: nm2) ++ '>' :: R))
        = ['<', '/'] ++ ((n0 :: nm2) ++ '>' :: R) from by simp]
    rw [show (2 : Nat) + (n0 :: nm2).length
        = (['<', '/'] : List Char).length + (n0 :: nm2).length from rfl]
    rw [List.take_append, List.take_left]
    rw [show (2 : Nat) = (['<', '/'] : List Char).length from rfl]
    rw [List.drop_left]
  have hopen : hasOpen (f :: stk) (n0 :: nm2) = true := by
    rw [hasOpen, List.any_cons]
    rw [show (decide (f.nm = n0 :: nm2)) = true from by rw [hfnm]; simp]
    rfl
  have hio : idxOpen (f :: stk) (n0 :: nm2) = 0 := by
    rw [idxOpen, List.findIdx_cons]
    rw [show (decide (f.nm = n0 :: nm2)) = true from by rw [hfnm]; simp]
    rfl
  have hpop : popN (0 + 1) (⟨f :: stk, rcs⟩ : PState)
      = pushChild ⟨stk, rcs⟩ (buildNode f) := rfl
  have hdrop : ('<' :: '/' :: ((n0 :: nm2) ++ '>' :: R)).drop
      (2 + (n0 :: nm2).length + 1) = R := by
    rw [show ('<' :: '/' :: ((n0 :: nm2) ++ '>' :: R))
        = (('<' :: '/' :: (n0 :: nm2)) ++ ['>']) ++ R from by simp]
    rw [show 2 + (n0 :: nm2).length + 1
        = (('<' :: '/' :: (n0 :: nm2)) ++ ['>']).length from by
      simp
      omega]
    rw [List.drop_left]
  simp only [htn, hopen, hio, hpop, hdrop, if_true]

theorem pushChildren_cons (st : PState) (a : PNode) (l : List PNode) :
    pushChildren st (a :: l) = pushChildren (pushChild st a) l := rfl

theorem pushChildren_frame (f : PFrame) (stk : List PFrame) (rcs : List PNode) :
    ∀ ns : List PNode,
      pushChildren ⟨f :: stk, rcs⟩ ns
        = ⟨{ f with children := f.children ++ ns } :: stk, rcs⟩ := by
  intro ns
  induction ns generalizing f with
  | nil =>
    rw [show pushChildren ⟨f :: stk, rcs⟩ [] = ⟨f :: stk, rcs⟩ from rfl]
    rw [List.append_nil]
  | cons a l ih =>
    rw [pushChildren_cons]
    rw [show pushChild (⟨f :: stk, rcs⟩ : PState) a
        = ⟨{ f with children := f.children ++ [a] } :: stk, rcs⟩ from rfl]
    rw [ih { f with children := f.children ++ [a] }]
    simp

theorem wfItems_head (tags : List (List Char)) (it : CItem) (rest : List CItem)
    (h : wfItems tags (it :: rest) = true) : wfItem tags it = true := by
  cases rest with
  | nil => exact h
  | cons b t =>
    have h2 : ((wfItem tags it && !(isTextItem it && isTextItem b))
        && wfItems tags (b :: t)) = true := h
    simp only [Bool.and_eq_true] at h2
    exact h2.1.1

theorem wfItems_tail (tags : List (List Char)) (it : CItem) (rest : List CItem)
    (h : wfItems tags (it :: rest) = true) : wfItems tags rest = true := by
  cases rest with
  | nil => rfl
  | cons b t =>
    have h2 : ((wfItem tags it && !(isTextItem it && isTextItem b))
        && wfItems tags (b :: t)) = true := h
    simp only [Bool.and_eq_true] at h2
    exact h2.2

theorem wfItems_adj (tags : List (List Char)) (it b : CItem) (t : List CItem)
    (h : wfItems tags (it :: b :: t) = true) :
    isTextItem it = true → isTextItem b = false := by
  intro hit
  have h2 : ((wfItem tags it && !(isTextItem it && isTextItem b))
      && wfItems tags (b :: t)) = true := h
  simp only [Bool.and_eq_true] at h2
  have h3 := h2.1.2
  rw [hit] at h3
  cases hb : isTextItem b
  · rfl
  · rw [hb] at h3
    simp at h3

theorem renderItem_head_lt (it : CItem) (h : isTextItem it = false) :
    ∃ tl, renderItem it = '<' :: tl := by
  cases it with
  | ctext s => simp [isTextItem] at h
  | ccomment c => exact ⟨'!' :: '-' :: '-' :: (c ++ ['-', '-', '>']), rfl⟩
  | ctag nm attrs kids =>
    exact ⟨nm ++ renderAttrs attrs ++ '>' :: (renderItems kids ++ ('<' :: '/' :: nm ++ ['>'])),
      rfl⟩

theorem parseLoop_sim (tags : List (List Char)) :
    ∀ n : Nat, ∀ items : List CItem, sizeItems items ≤ n →
      wfItems tags items = true →
      ∀ (st : PState) (rem : List Char) (k : Nat),
        (rem = [] ∨ rem.head? = some '<') →
        parseLoop tags (iterItems items + k) (renderItems items ++ rem) st
          = parseLoop tags k rem (pushChildren st (nodesOfItems items)) := by
  intro n
  induction n using Nat.strong_induction_on with
  | _ n ih =>
    intro items hsz hwf st rem k hrem
    cases items with
    | nil =>
      rw [show renderItems [] = [] from rfl, show iterItems [] = 0 from rfl,
        show nodesOfItems [] = [] from rfl, List.nil_append, Nat.zero_add]
      rfl
    | cons it rest =>
      have hwfit := wfItems_head tags it rest hwf
      have hwfrest := wfItems_tail tags it rest hwf
      have hszrest : sizeItems rest < n := by
        have h1 : sizeItems (it :: rest) = sizeItem it + sizeItems rest := rfl
        have h2 : 1 ≤ sizeItem it := by cases it <;> simp [sizeItem]
        omega
      cases it with
      | ctext s =>
        have hs : s ≠ [] := by
          have h2 : (!s.isEmpty && s.all (fun c => !(c = '<'))) = true := hwfit
          simp only [Bool.and_eq_true] at h2
          exact isEmpty_false_ne s (by simpa using h2.1)
        have hlt : ∀ c ∈ s, ¬ c = '<' := by
          have h2 : (!s.isEmpty && s.all (fun c => !(c = '<'))) = true := hwfit
          simp only [Bool.and_eq_true] at h2
          intro c hc he
          have h3 := List.all_eq_true.mp h2.2 c hc
          subst he
          simp at h3
        have hR : (renderItems rest ++ rem) = []
            ∨ (renderItems rest ++ rem).head? = some '<' := by
          cases rest with
          | nil =>
            rw [show renderItems [] = [] from rfl, List.nil_append]
            exact hrem
          | cons b t =>
            right
            obtain ⟨tl, htl⟩ := renderItem_head_lt b
              (wfItems_adj tags (.ctext s) b t hwf rfl)
            rw [show renderItems (b :: t) = renderItem b ++ renderItems t from rfl, htl]
            rfl
        rw [show renderItems (CItem.ctext s :: rest) = s ++ renderItems rest from rfl]
        rw [List.append_assoc]
        rw [show iterItems (CItem.ctext s :: rest) + k = (iterItems rest + k) + 1 from by
          rw [show iterItems (CItem.ctext s :: rest) = 1 + iterItems rest from rfl]
          omega]
        rw [parseLoop_stepText tags (iterItems rest + k) st s (renderItems rest ++ rem)
          hs hlt hR]
        rw [ih (sizeItems rest) hszrest rest (Nat.le_refl _) hwfrest
          (pushChild st (.text s)) rem k hrem]
        rfl
      | ccomment c =>
        have hwfc : wfComment c = true := hwfit
        rw [show renderItems (CItem.ccomment c :: rest) ++ rem
            = '<' :: '!' :: '-' :: '-'
              :: (c ++ '-' :: '-' :: '>' :: (renderItems rest ++ rem)) from by
          rw [show renderItems (CItem.ccomment c :: rest)
              = ('<' :: '!' :: '-' :: '-' :: (c ++ ['-', '-', '>'])) ++ renderItems rest
              from rfl]
          simp]
        rw [show iterItems (CItem.ccomment c :: rest) + k = (iterItems rest + k) + 1 from by
          rw [show iterItems (CItem.ccomment c :: rest) = 1 + iterItems rest from rfl]
          omega]
        rw [parseLoop_stepComment tags (iterItems rest + k) st c (renderItems rest ++ rem)
          hwfc]
        rw [ih (sizeItems rest) hszrest rest (Nat.le_refl _) hwfrest
          (pushChild st (.comment .htmlC c)) rem k hrem]
        rfl
      | ctag nm attrs kids =>
        have h2 : ((((!nm.isEmpty && nm.all isWordChar) && !(tags.contains nm))
            && wfAttrList attrs) && wfItems tags kids) = true := hwfit
        simp only [Bool.and_eq_true] at h2
        obtain ⟨⟨⟨⟨hne, hnw0⟩, hncont⟩, hwfa0⟩, hwfkids⟩ := h2
        have hnm : nm ≠ [] := isEmpty_false_ne nm (by simpa using hne)
        have hnw : ∀ c ∈ nm, isWordChar c = true := List.all_eq_true.mp hnw0
        have hsp : tags.contains nm = false := by simpa using hncont
        have hwfa : attrs.all wfAttr = true ∧ distinctKeys (attrs.map attrKey) = true := by
          have h3 : (attrs.all wfAttr && distinctKeys (attrs.map attrKey)) = true := hwfa0
          simp only [Bool.and_eq_true] at h3
          exact h3
        have hszkids : sizeItems kids < n := by
          have e1 : sizeItems (CItem.ctag nm attrs kids :: rest)
              = (1 + sizeItems kids) + sizeItems rest := rfl
          omega
        rw [show renderItems (CItem.ctag nm attrs kids :: rest) ++ rem
            = '<' :: ((nm ++ renderAttrs attrs) ++ '>' :: (renderItems kids
              ++ ('<' :: '/' :: (nm ++ '>' :: (renderItems rest ++ rem))))) from by
          rw [show renderItems (CItem.ctag nm attrs kids :: rest)
              = ('<' :: (nm ++ renderAttrs attrs ++ '>' :: (renderItems kids
                ++ ('<' :: '/' :: nm ++ ['>'])))) ++ renderItems rest from rfl]
          simp]
        rw [show iterItems (CItem.ctag nm attrs kids :: rest) + k
            = (iterItems kids + (1 + iterItems rest + k)) + 1 from by
          rw [show iterItems (CItem.ctag nm attrs kids :: rest)
              = (2 + iterItems kids) + iterItems rest from rfl]
          omega]
        rw [parseLoop_stepOpen tags (iterItems kids + (1 + iterItems rest + k)) st nm attrs
          (renderItems kids ++ ('<' :: '/' :: (nm ++ '>' :: (renderItems rest ++ rem))))
          hnm hnw hsp hwfa.1 hwfa.2]
        rw [ih (sizeItems kids) hszkids kids (Nat.le_refl _) hwfkids
          ⟨⟨nm, attrPairs attrs, false, []⟩ :: st.stk, st.rootCs⟩
          ('<' :: '/' :: (nm ++ '>' :: (renderItems rest ++ rem)))
          (1 + iterItems rest + k) (Or.inr rfl)]
        rw [pushChildren_frame]
        rw [show (1 + iterItems rest + k) = (iterItems rest + k) + 1 from by omega]
        rw [parseLoop_stepClose tags (iterItems rest + k)
          { nm := nm, attrs := attrPairs attrs, sblock := false,
            children := [] ++ nodesOfItems kids }
          st.stk st.rootCs nm (renderItems rest ++ rem) hnm hnw rfl]
        rw [ih (sizeItems rest) hszrest rest (Nat.le_refl _) hwfrest _ rem k hrem]
        rfl

theorem pushChildren_root (rcs : List PNode) :
    ∀ ns : List PNode, pushChildren ⟨[], rcs⟩ ns = ⟨[], rcs ++ ns⟩ := by
  intro ns
  induction ns generalizing rcs with
  | nil => rw [show pushChildren ⟨[], rcs⟩ [] = ⟨[], rcs⟩ from rfl, List.append_nil]
  | cons a l ih =>
    rw [pushChildren_cons]
    rw [show pushChild (⟨[], rcs⟩ : PState) a = ⟨[], rcs ++ [a]⟩ from rfl]
    rw [ih (rcs ++ [a])]
    simp

theorem iter_le_render (tags : List (List Char)) :
    ∀ (n : Nat) (items : List CItem), sizeItems items ≤ n →
      wfItems tags items = true →
      iterItems items ≤ (renderItems items).length := by
  intro n
  induction n using Nat.strong_induction_on with
  | _ n ih =>
    intro items hsz hwf
    cases items with
    | nil =>
      rw [show iterItems [] = 0 from rfl]
      omega
    | cons it rest =>
      have hwfit := wfItems_head tags it rest hwf
      have hwfrest := wfItems_tail tags it rest hwf
      have hszrest : sizeItems rest < n := by
        have h1 : sizeItems (it :: rest) = sizeItem it + sizeItems rest := rfl
        have h2 : 1 ≤ sizeItem it := by cases it <;> simp [sizeItem]
        omega
      have hrest := ih (sizeItems rest) hszrest rest (Nat.le_refl _) hwfrest
      rw [show iterItems (it :: rest) = iterItem it + iterItems rest from rfl]
      rw [show renderItems (it :: rest) = renderItem it ++ renderItems rest from rfl]
      rw [List.length_append]
      cases it with
      | ctext s =>
        have hs : s ≠ [] := by
          have h2 : (!s.isEmpty && s.all (fun c => !(c = '<'))) = true := hwfit
          simp only [Bool.and_eq_true] at h2
          exact isEmpty_false_ne s (by simpa using h2.1)
        have h3 : 1 ≤ s.length := by
          cases s with
          | nil => exact absurd rfl hs
          | cons a b => simp
        rw [show iterItem (CItem.ctext s) = 1 from rfl,
          show renderItem (CItem.ctext s) = s from rfl]
        omega
      | ccomment c =>
        rw [show iterItem (CItem.ccomment c) = 1 from rfl]
        rw [show renderItem (CItem.ccomment c)
            = '<' :: '!' :: '-' :: '-' :: (c ++ ['-', '-', '>']) from rfl]
        simp
        omega
      | ctag nm attrs kids =>
        have hwfkids : wfItems tags kids = true := by
          have h2 : ((((!nm.isEmpty && nm.all isWordChar) && !(tags.contains nm))
              && wfAttrList attrs) && wfItems tags kids) = true := hwfit
          simp only [Bool.and_eq_true] at h2
          exact h2.2
        have hszkids : sizeItems kids < n := by
          have e1 : sizeItems (CItem.ctag nm attrs kids :: rest)
              = (1 + sizeItems kids) + sizeItems rest := rfl
          omega
        have hkids := ih (sizeItems kids) hszkids kids (Nat.le_refl _) hwfkids
        rw [show iterItem (CItem.ctag nm attrs kids) = 2 + iterItems kids from rfl]
        rw [show renderItem (CItem.ctag nm attrs kids)
            = '<' :: (nm ++ renderAttrs attrs ++ '>' :: (renderItems kids
              ++ ('<' :: '/' :: nm ++ ['>']))) from rfl]
        simp
        omega

theorem nodeListHtml_append (sc : Bool) :
    ∀ a b : List PNode, nodeListHtml sc (a ++ b) = nodeListHtml sc a ++ nodeListHtml sc b := by
  intro a
  induction a with
  | nil => intro b; rfl
  | cons x l ih =>
    intro b
    rw [List.cons_append]
    rw [show nodeListHtml sc (x :: (l ++ b)) = nodeHtml sc x ++ nodeListHtml sc (l ++ b)
      from rfl]
    rw [ih b]
    rw [show nodeListHtml sc (x :: l) = nodeHtml sc x ++ nodeListHtml sc l from rfl]
    rw [List.append_assoc]

theorem attrsString_render (attrs : List CAttr) (h : attrs.all wfAttr = true) :
    attrsString (attrPairs attrs) = renderAttrs attrs := by
  induction attrs with
  | nil => rfl
  | cons a t ih =>
    simp only [List.all_cons, Bool.and_eq_true] at h
    obtain ⟨ha, ht⟩ := h
    rw [show attrPairs (a :: t) = attrPair a :: attrPairs t from rfl]
    rw [show attrsString (attrPair a :: attrPairs t)
        = (if (attrPair a).2 = EMPVAL then ' ' :: (attrPair a).1
            else ' ' :: (attrPair a).1 ++ '=' :: '"' :: (attrPair a).2 ++ ['"'])
          ++ attrsString (attrPairs t) from rfl]
    rw [ih ht]
    cases a with
    | aval k v =>
      simp only [wfAttr, Bool.and_eq_true] at ha
      have hvne : ¬ v = EMPVAL := by
        have := ha.2
        simpa using this
      rw [show (attrPair (CAttr.aval k v)).2 = v from rfl]
      rw [if_neg hvne]
      rfl
    | abare k =>
      rw [show (attrPair (CAttr.abare k)).2 = EMPVAL from rfl]
      rw [if_pos rfl]
      rfl

theorem nodesHtml_render (tags : List (List Char)) :
    ∀ (n : Nat) (items : List CItem), sizeItems items ≤ n →
      wfItems tags items = true →
      nodeListHtml true (nodesOfItems items) = renderItems items := by
  intro n
  induction n using Nat.strong_induction_on with
  | _ n ih =>
    intro items hsz hwf
    cases items with
    | nil => rfl
    | cons it rest =>
      have hwfit := wfItems_head tags it rest hwf
      have hwfrest := wfItems_tail tags it rest hwf
      have hszrest : sizeItems rest < n := by
        have h1 : sizeItems (it :: rest) = sizeItem it + sizeItems rest := rfl
        have h2 : 1 ≤ sizeItem it := by cases it <;> simp [sizeItem]
        omega
      have hrest := ih (sizeItems rest) hszrest rest (Nat.le_refl _) hwfrest
      rw [show nodesOfItems (it :: rest) = nodesOfItem it ++ nodesOfItems rest from rfl]
      rw [nodeListHtml_append, hrest]
      rw [show renderItems (it :: rest) = renderItem it ++ renderItems rest from rfl]
      congr 1
      cases it with
      | ctext s =>
        rw [show nodeListHtml true (nodesOfItem (CItem.ctext s))
            = s ++ ([] : List Char) from rfl, List.append_nil]
        rfl
      | ccomment c =>
        rw [show nodeListHtml true (nodesOfItem (CItem.ccomment c))
            = ('<' :: '!' :: '-' :: '-' :: (c ++ ['-', '-', '>'])) ++ ([] : List Char)
            from rfl, List.append_nil]
        rfl
      | ctag nm attrs kids =>
        have h2 : ((((!nm.isEmpty && nm.all isWordChar) && !(tags.contains nm))
            && wfAttrList attrs) && wfItems tags kids) = true := hwfit
        simp only [Bool.and_eq_true] at h2
        have hwfa : attrs.all wfAttr = true := by
          have h3 : (attrs.all wfAttr && distinctKeys (attrs.map attrKey)) = true := h2.1.2
          simp only [Bool.and_eq_true] at h3
          exact h3.1
        have hszkids : sizeItems kids < n := by
          have e1 : sizeItems (CItem.ctag nm attrs kids :: rest)
              = (1 + sizeItems kids) + sizeItems rest := rfl
          omega
        have hkids := ih (sizeItems kids) hszkids kids (Nat.le_refl _) h2.2
        rw [show nodesOfItem (CItem.ctag nm attrs kids)
            = [.tagOpen nm (attrPairs attrs) false (nodesOfItems kids), .tagClose nm]
            from rfl]
        rw [show nodeListHtml true
            [PNode.tagOpen nm (attrPairs attrs) false (nodesOfItems kids),
              PNode.tagClose nm]
            = ('<' :: nm ++ attrsString (attrPairs attrs)
                ++ '>' :: nodeListHtml true (nodesOfItems kids))
              ++ (('<' :: '/' :: nm ++ ['>']) ++ []) from rfl]
        rw [attrsString_render attrs hwfa, hkids, List.append_nil]
        rw [show renderItem (CItem.ctag nm attrs kids)
            = '<' :: (nm ++ renderAttrs attrs ++ '>' :: (renderItems kids
              ++ ('<' :: '/' :: nm ++ ['>']))) from rfl]
        simp

theorem parseHtml_render (tags : List (List Char)) (items : List CItem)
    (hwf : wfItems tags items = true) :
    parseHtml tags (renderItems items) = .root (nodesOfItems items) := by
  have hle := iter_le_render tags (sizeItems items) items (Nat.le_refl _) hwf
  have hr : parseLoop tags ((renderItems items).length + 1) (renderItems items) ⟨[], []⟩
      = ⟨[], nodesOfItems items⟩ := by
    rw [show parseLoop tags ((renderItems items).length + 1) (renderItems items) ⟨[], []⟩
        = parseLoop tags (iterItems items
            + ((renderItems items).length + 1 - iterItems items))
          (renderItems items ++ []) ⟨[], []⟩ from by
      rw [List.append_nil]
      rw [show iterItems items + ((renderItems items).length + 1 - iterItems items)
          = (renderItems items).length + 1 from by omega]]
    rw [parseLoop_sim tags (sizeItems items) items (Nat.le_refl _) hwf ⟨[], []⟩ []
      ((renderItems items).length + 1 - iterItems items) (Or.inl rfl)]
    rw [parseLoop_nil]
    rw [pushChildren_root]
    rw [List.nil_append]
  rw [parseHtml, hr]
  rfl

/-- C5 (amended): serialization with comments shown is a byte-for-byte left
inverse of `parse` on canonically rendered documents: text runs without
`<`, comments whose bodies cannot complete an early `-->`, and explicitly
closed, non-special tags with word-character names and canonical
double-quoted (or bare) attributes with distinct keys. -/
theorem parse_toHtml_roundtrip (tags : List (List Char)) (items : List CItem)
    (hwf : wfItems tags items = true) :
    nodeHtml true (parseHtml tags (renderItems items)) = renderItems items := by
  rw [parseHtml_render tags items hwf]
  rw [show nodeHtml true (PNode.root (nodesOfItems items))
      = nodeListHtml true (nodesOfItems items) from rfl]
  exact nodesHtml_render tags (sizeItems items) items (Nat.le_refl _) hwf

/-- C5 witness: the round trip on the concrete document
`x<!-- note --><div id="m" hidden>T</div>`. -/
theorem parse_toHtml_roundtrip_witness :
    wfItems jhpTags
      [.ctext ['x'],
        .ccomment [' ', 'n', 'o', 't', 'e', ' '],
        .ctag ['d', 'i', 'v'] [.aval ['i', 'd'] ['m'], .abare ['h', 'i', 'd', 'd', 'e', 'n']]
          [.ctext ['T']]] = true
    ∧ nodeHtml true (parseHtml jhpTags (renderItems
        [.ctext ['x'],
          .ccomment [' ', 'n', 'o', 't', 'e', ' '],
          .ctag ['d', 'i', 'v'] [.aval ['i', 'd'] ['m'], .abare ['h', 'i', 'd', 'd', 'e', 'n']]
            [.ctext ['T']]]))
      = renderItems
        [.ctext ['x'],
          .ccomment [' ', 'n', 'o', 't', 'e', ' '],
          .ctag ['d', 'i', 'v'] [.aval ['i', 'd'] ['m'], .abare ['h', 'i', 'd', 'd', 'e', 'n']]
            [.ctext ['T']]] :=
  ⟨by decide, parse_toHtml_roundtrip jhpTags _ (by decide)⟩

/-- C5 counterexample to the unamended byte-for-byte claim: the anomaly-free
input `<a b=\x27c\x27></a>` (single-quoted attribute) re-serializes with
double quotes, so serialize-after-parse is not the identity on all such
inputs. -/
theorem attr_quote_counterexample :
    nodeHtml true (parseHtml jhpTags
      ['<', 'a', ' ', 'b', '=', sq, 'c', sq, '>', '<', '/', 'a', '>'])
      = ['<', 'a', ' ', 'b', '=', '"', 'c', '"', '>', '<', '/', 'a', '>']
    ∧ ¬ (['<', 'a', ' ', 'b', '=', '"', 'c', '"', '>', '<', '/', 'a', '>']
        = ['<', 'a', ' ', 'b', '=', sq, 'c', sq, '>', '<', '/', 'a', '>']) :=
  ⟨by decide, by decide⟩

end Spec2Proof
